import Mathlib

/-!
Verification development for the view-stack / symbolic-indexing core of
`tinygrad/shape/shapetracker.py` (the index tracker).

The tracker source is embedded faithfully below.  The two collaborators it
uses — the `View` record and the symbolic integer-expression algebra
(`Node`) — are not part of the tracked source tree, so they are modelled
from the specification (each such definition carries a doc comment saying
so).  Sizes, strides, offsets and mask bounds are modelled as concrete
integers (`Int`); the specification's symbolic-shape generality is out of
scope of this model.
-/

set_option maxHeartbeats 1600000

/-- Modelled from the spec: the symbolic integer-expression algebra
("Node" collaborator, spec section 3): a tagged variant over bound
variables with a `[lo, hi]` range, integer constants, sums of
sub-expressions, products of a sub-expression and a constant, floor
division / modulus by a constant, comparisons against a constant yielding
boolean (0/1) expressions, and boolean conjunction. -/
inductive Node where
  | num (b : Int)
  | var (i : Nat) (lo hi : Int)
  | sumN (ns : List Node)
  | mulN (a : Node) (b : Int)
  | divN (a : Node) (b : Int)
  | modN (a : Node) (b : Int)
  | ltN (a : Node) (b : Int)
  | geN (a : Node) (b : Int)
  | andN (ns : List Node)

mutual

def nodeBEq : Node → Node → Bool
  | .num b, .num b' => b == b'
  | .var i lo hi, .var i' lo' hi' => i == i' && lo == lo' && hi == hi'
  | .sumN ns, .sumN ns' => nodeBEqL ns ns'
  | .mulN a b, .mulN a' b' => nodeBEq a a' && b == b'
  | .divN a b, .divN a' b' => nodeBEq a a' && b == b'
  | .modN a b, .modN a' b' => nodeBEq a a' && b == b'
  | .ltN a b, .ltN a' b' => nodeBEq a a' && b == b'
  | .geN a b, .geN a' b' => nodeBEq a a' && b == b'
  | .andN ns, .andN ns' => nodeBEqL ns ns'
  | _, _ => false

def nodeBEqL : List Node → List Node → Bool
  | [], [] => true
  | t :: ts, t' :: ts' => nodeBEq t t' && nodeBEqL ts ts'
  | _, _ => false

end

mutual

theorem nodeBEq_iff : ∀ a b : Node, nodeBEq a b = true ↔ a = b
  | .num b, .num b' => by simp [nodeBEq]
  | .var i lo hi, .var i' lo' hi' => by simp [nodeBEq]; tauto
  | .sumN ns, .sumN ns' => by simp [nodeBEq, nodeBEqL_iff ns ns']
  | .mulN a b, .mulN a' b' => by simp [nodeBEq, nodeBEq_iff a a']
  | .divN a b, .divN a' b' => by simp [nodeBEq, nodeBEq_iff a a']
  | .modN a b, .modN a' b' => by simp [nodeBEq, nodeBEq_iff a a']
  | .ltN a b, .ltN a' b' => by simp [nodeBEq, nodeBEq_iff a a']
  | .geN a b, .geN a' b' => by simp [nodeBEq, nodeBEq_iff a a']
  | .andN ns, .andN ns' => by simp [nodeBEq, nodeBEqL_iff ns ns']
  | .num _, .var _ _ _ => by simp [nodeBEq]
  | .num _, .sumN _ => by simp [nodeBEq]
  | .num _, .mulN _ _ => by simp [nodeBEq]
  | .num _, .divN _ _ => by simp [nodeBEq]
  | .num _, .modN _ _ => by simp [nodeBEq]
  | .num _, .ltN _ _ => by simp [nodeBEq]
  | .num _, .geN _ _ => by simp [nodeBEq]
  | .num _, .andN _ => by simp [nodeBEq]
  | .var _ _ _, .num _ => by simp [nodeBEq]
  | .var _ _ _, .sumN _ => by simp [nodeBEq]
  | .var _ _ _, .mulN _ _ => by simp [nodeBEq]
  | .var _ _ _, .divN _ _ => by simp [nodeBEq]
  | .var _ _ _, .modN _ _ => by simp [nodeBEq]
  | .var _ _ _, .ltN _ _ => by simp [nodeBEq]
  | .var _ _ _, .geN _ _ => by simp [nodeBEq]
  | .var _ _ _, .andN _ => by simp [nodeBEq]
  | .sumN _, .num _ => by simp [nodeBEq]
  | .sumN _, .var _ _ _ => by simp [nodeBEq]
  | .sumN _, .mulN _ _ => by simp [nodeBEq]
  | .sumN _, .divN _ _ => by simp [nodeBEq]
  | .sumN _, .modN _ _ => by simp [nodeBEq]
  | .sumN _, .ltN _ _ => by simp [nodeBEq]
  | .sumN _, .geN _ _ => by simp [nodeBEq]
  | .sumN _, .andN _ => by simp [nodeBEq]
  | .mulN _ _, .num _ => by simp [nodeBEq]
  | .mulN _ _, .var _ _ _ => by simp [nodeBEq]
  | .mulN _ _, .sumN _ => by simp [nodeBEq]
  | .mulN _ _, .divN _ _ => by simp [nodeBEq]
  | .mulN _ _, .modN _ _ => by simp [nodeBEq]
  | .mulN _ _, .ltN _ _ => by simp [nodeBEq]
  | .mulN _ _, .geN _ _ => by simp [nodeBEq]
  | .mulN _ _, .andN _ => by simp [nodeBEq]
  | .divN _ _, .num _ => by simp [nodeBEq]
  | .divN _ _, .var _ _ _ => by simp [nodeBEq]
  | .divN _ _, .sumN _ => by simp [nodeBEq]
  | .divN _ _, .mulN _ _ => by simp [nodeBEq]
  | .divN _ _, .modN _ _ => by simp [nodeBEq]
  | .divN _ _, .ltN _ _ => by simp [nodeBEq]
  | .divN _ _, .geN _ _ => by simp [nodeBEq]
  | .divN _ _, .andN _ => by simp [nodeBEq]
  | .modN _ _, .num _ => by simp [nodeBEq]
  | .modN _ _, .var _ _ _ => by simp [nodeBEq]
  | .modN _ _, .sumN _ => by simp [nodeBEq]
  | .modN _ _, .mulN _ _ => by simp [nodeBEq]
  | .modN _ _, .divN _ _ => by simp [nodeBEq]
  | .modN _ _, .ltN _ _ => by simp [nodeBEq]
  | .modN _ _, .geN _ _ => by simp [nodeBEq]
  | .modN _ _, .andN _ => by simp [nodeBEq]
  | .ltN _ _, .num _ => by simp [nodeBEq]
  | .ltN _ _, .var _ _ _ => by simp [nodeBEq]
  | .ltN _ _, .sumN _ => by simp [nodeBEq]
  | .ltN _ _, .mulN _ _ => by simp [nodeBEq]
  | .ltN _ _, .divN _ _ => by simp [nodeBEq]
  | .ltN _ _, .modN _ _ => by simp [nodeBEq]
  | .ltN _ _, .geN _ _ => by simp [nodeBEq]
  | .ltN _ _, .andN _ => by simp [nodeBEq]
  | .geN _ _, .num _ => by simp [nodeBEq]
  | .geN _ _, .var _ _ _ => by simp [nodeBEq]
  | .geN _ _, .sumN _ => by simp [nodeBEq]
  | .geN _ _, .mulN _ _ => by simp [nodeBEq]
  | .geN _ _, .divN _ _ => by simp [nodeBEq]
  | .geN _ _, .modN _ _ => by simp [nodeBEq]
  | .geN _ _, .ltN _ _ => by simp [nodeBEq]
  | .geN _ _, .andN _ => by simp [nodeBEq]
  | .andN _, .num _ => by simp [nodeBEq]
  | .andN _, .var _ _ _ => by simp [nodeBEq]
  | .andN _, .sumN _ => by simp [nodeBEq]
  | .andN _, .mulN _ _ => by simp [nodeBEq]
  | .andN _, .divN _ _ => by simp [nodeBEq]
  | .andN _, .modN _ _ => by simp [nodeBEq]
  | .andN _, .ltN _ _ => by simp [nodeBEq]
  | .andN _, .geN _ _ => by simp [nodeBEq]

theorem nodeBEqL_iff : ∀ a b : List Node, nodeBEqL a b = true ↔ a = b
  | [], [] => by simp [nodeBEqL]
  | t :: ts, t' :: ts' => by
      simp [nodeBEqL, nodeBEq_iff t t', nodeBEqL_iff ts ts']
  | [], _ :: _ => by simp [nodeBEqL]
  | _ :: _, [] => by simp [nodeBEqL]

end

instance : DecidableEq Node := fun a b =>
  decidable_of_iff (nodeBEq a b = true) (nodeBEq_iff a b)

mutual

/-- Value of an expression under a valuation of the bound variables. -/
def evalN (ρ : Nat → Int) : Node → Int
  | .num b => b
  | .var i _ _ => ρ i
  | .sumN ns => sumEval ρ ns
  | .mulN a b => evalN ρ a * b
  | .divN a b => evalN ρ a / b
  | .modN a b => evalN ρ a % b
  | .ltN a b => if evalN ρ a < b then 1 else 0
  | .geN a b => if b ≤ evalN ρ a then 1 else 0
  | .andN ns => if allNonzero ρ ns then 1 else 0

def sumEval (ρ : Nat → Int) : List Node → Int
  | [] => 0
  | t :: ts => evalN ρ t + sumEval ρ ts

def allNonzero (ρ : Nat → Int) : List Node → Bool
  | [] => true
  | t :: ts => (evalN ρ t != 0) && allNonzero ρ ts

end

mutual

/-- Modelled from the spec: the static lower bound every Node variant
exposes (spec sections 3 and 6). -/
def nmin : Node → Int
  | .num b => b
  | .var _ lo _ => lo
  | .sumN ns => minSum ns
  | .mulN a b => if 0 ≤ b then nmin a * b else nmax a * b
  | .divN a b => if 0 < b then nmin a / b else if b = 0 then 0 else nmax a / b
  | .modN a b => if b = 0 then nmin a else 0
  | .ltN _ _ => 0
  | .geN _ _ => 0
  | .andN _ => 0

/-- Modelled from the spec: the static upper bound every Node variant
exposes (spec sections 3 and 6). -/
def nmax : Node → Int
  | .num b => b
  | .var _ _ hi => hi
  | .sumN ns => maxSum ns
  | .mulN a b => if 0 ≤ b then nmax a * b else nmin a * b
  | .divN a b => if 0 < b then nmax a / b else if b = 0 then 0 else nmin a / b
  | .modN a b => if b = 0 then nmax a else (b.natAbs : Int) - 1
  | .ltN _ _ => 1
  | .geN _ _ => 1
  | .andN _ => 1

def minSum : List Node → Int
  | [] => 0
  | t :: ts => nmin t + minSum ts

def maxSum : List Node → Int
  | [] => 0
  | t :: ts => nmax t + maxSum ts

end

mutual

/-- The variable occurrences of an expression, with their declared bounds. -/
def nvarsB : Node → List (Nat × Int × Int)
  | .num _ => []
  | .var i lo hi => [(i, lo, hi)]
  | .sumN ns => nvarsBL ns
  | .mulN a _ => nvarsB a
  | .divN a _ => nvarsB a
  | .modN a _ => nvarsB a
  | .ltN a _ => nvarsB a
  | .geN a _ => nvarsB a
  | .andN ns => nvarsBL ns

def nvarsBL : List Node → List (Nat × Int × Int)
  | [] => []
  | t :: ts => nvarsB t ++ nvarsBL ts

end

/-- The names of the free variables of an expression (`Node.vars()`). -/
def nvars (e : Node) : List Nat := (nvarsB e).map Prod.fst

/-- A valuation respecting the declared range of every variable occurrence. -/
def InB (ρ : Nat → Int) (e : Node) : Prop :=
  ∀ p ∈ nvarsB e, p.2.1 ≤ ρ p.1 ∧ ρ p.1 ≤ p.2.2

/-- Same, for every expression in a list. -/
def InBL (ρ : Nat → Int) (l : List Node) : Prop :=
  ∀ p ∈ nvarsBL l, p.2.1 ≤ ρ p.1 ∧ ρ p.1 ≤ p.2.2

theorem InB_of_subset {ρ : Nat → Int} {e e' : Node}
    (hs : nvarsB e' ⊆ nvarsB e) (h : InB ρ e) : InB ρ e' :=
  fun p hp => h p (hs hp)

theorem InBL_cons {ρ : Nat → Int} {t : Node} {ts : List Node} :
    InBL ρ (t :: ts) ↔ InB ρ t ∧ InBL ρ ts := by
  constructor
  · intro h
    exact ⟨fun p hp => h p (by simp [nvarsBL, hp]),
           fun p hp => h p (by simp [nvarsBL, hp])⟩
  · rintro ⟨h1, h2⟩ p hp
    simp only [nvarsBL, List.mem_append] at hp
    rcases hp with hp | hp
    · exact h1 p hp
    · exact h2 p hp

theorem InBL_nil {ρ : Nat → Int} : InBL ρ ([] : List Node) := by
  intro p hp
  simp [nvarsBL] at hp

theorem nvarsB_mulN (a : Node) (b : Int) : nvarsB (Node.mulN a b) = nvarsB a := by
  simp [nvarsB]

theorem InB_sumN {ρ : Nat → Int} {ns : List Node} : InB ρ (Node.sumN ns) ↔ InBL ρ ns := by
  simp [InB, InBL, nvarsB]

theorem InB_andN {ρ : Nat → Int} {ns : List Node} : InB ρ (Node.andN ns) ↔ InBL ρ ns := by
  simp [InB, InBL, nvarsB]

theorem InB_mulN {ρ : Nat → Int} {a : Node} {b : Int} : InB ρ (Node.mulN a b) ↔ InB ρ a := by
  simp [InB, nvarsB]

theorem InB_divN {ρ : Nat → Int} {a : Node} {b : Int} : InB ρ (Node.divN a b) ↔ InB ρ a := by
  simp [InB, nvarsB]

theorem InB_modN {ρ : Nat → Int} {a : Node} {b : Int} : InB ρ (Node.modN a b) ↔ InB ρ a := by
  simp [InB, nvarsB]

theorem InB_ltN {ρ : Nat → Int} {a : Node} {b : Int} : InB ρ (Node.ltN a b) ↔ InB ρ a := by
  simp [InB, nvarsB]

theorem InB_geN {ρ : Nat → Int} {a : Node} {b : Int} : InB ρ (Node.geN a b) ↔ InB ρ a := by
  simp [InB, nvarsB]

theorem ediv_le_ediv_of_le {a b c : Int} (hab : a ≤ b) (hc : c < 0) : b / c ≤ a / c := by
  have h1 := Int.ediv_neg a (-c)
  have h2 := Int.ediv_neg b (-c)
  simp only [neg_neg] at h1 h2
  have := Int.ediv_le_ediv (show (0:Int) < -c by omega) hab
  omega

mutual

theorem boundSound : ∀ (e : Node) (ρ : Nat → Int), InB ρ e →
    nmin e ≤ evalN ρ e ∧ evalN ρ e ≤ nmax e
  | .num b, ρ, _ => by simp [nmin, nmax, evalN]
  | .var i lo hi, ρ, h => by
      have := h (i, lo, hi) (by simp [nvarsB])
      simpa [nmin, nmax, evalN] using this
  | .sumN ns, ρ, h => by
      have := boundSoundL ns ρ (InB_sumN.mp h)
      simpa [nmin, nmax, evalN] using this
  | .mulN a b, ρ, h => by
      have ha := boundSound a ρ (InB_mulN.mp h)
      simp only [nmin, nmax, evalN]
      by_cases hb : 0 ≤ b
      · simp only [hb, if_true]
        exact ⟨mul_le_mul_of_nonneg_right ha.1 hb, mul_le_mul_of_nonneg_right ha.2 hb⟩
      · simp only [hb, if_false]
        have hb' : b ≤ 0 := by omega
        exact ⟨mul_le_mul_of_nonpos_right ha.2 hb', mul_le_mul_of_nonpos_right ha.1 hb'⟩
  | .divN a b, ρ, h => by
      have ha := boundSound a ρ (InB_divN.mp h)
      simp only [nmin, nmax, evalN]
      rcases lt_trichotomy 0 b with hb | hb | hb
      · simp only [hb, if_true]
        exact ⟨Int.ediv_le_ediv hb ha.1, Int.ediv_le_ediv hb ha.2⟩
      · have hb' : b = 0 := hb.symm
        subst hb'
        simp
      · have hb1 : ¬ (0 < b) := by omega
        have hb2 : ¬ (b = 0) := by omega
        simp only [hb1, hb2, if_false]
        exact ⟨ediv_le_ediv_of_le ha.2 hb, ediv_le_ediv_of_le ha.1 hb⟩
  | .modN a b, ρ, h => by
      have ha := boundSound a ρ (InB_modN.mp h)
      simp only [nmin, nmax, evalN]
      by_cases hb : b = 0
      · subst hb
        simpa using ha
      · simp only [hb, if_false]
        have h1 : 0 ≤ evalN ρ a % b := Int.emod_nonneg _ hb
        have h2 : evalN ρ a % b < |b| := by
          rcases lt_trichotomy 0 b with hb' | hb' | hb'
          · rw [abs_of_pos hb']
            exact Int.emod_lt_of_pos _ hb'
          · omega
          · rw [abs_of_neg hb']
            have hmn := Int.emod_neg (evalN ρ a) (-b)
            simp only [neg_neg] at hmn
            rw [hmn]
            exact Int.emod_lt_of_pos _ (by omega)
        have habs : (b.natAbs : Int) = |b| := (Int.abs_eq_natAbs b).symm
        omega
  | .ltN a b, ρ, h => by
      simp only [nmin, nmax, evalN]
      split <;> omega
  | .geN a b, ρ, h => by
      simp only [nmin, nmax, evalN]
      split <;> omega
  | .andN ns, ρ, h => by
      simp only [nmin, nmax, evalN]
      split <;> omega

theorem boundSoundL : ∀ (ns : List Node) (ρ : Nat → Int), InBL ρ ns →
    minSum ns ≤ sumEval ρ ns ∧ sumEval ρ ns ≤ maxSum ns
  | [], ρ, _ => by simp [minSum, maxSum, sumEval]
  | t :: ts, ρ, h => by
      have ht := boundSound t ρ (InBL_cons.mp h).1
      have hts := boundSoundL ts ρ (InBL_cons.mp h).2
      simp only [minSum, maxSum, sumEval]
      omega

end

mutual

theorem evalCongr : ∀ (e : Node) (ρ ρ' : Nat → Int),
    (∀ p ∈ nvarsB e, ρ p.1 = ρ' p.1) → evalN ρ e = evalN ρ' e
  | .num b, _, _, _ => by simp [evalN]
  | .var i lo hi, ρ, ρ', h => by
      simpa [evalN] using h (i, lo, hi) (by simp [nvarsB])
  | .sumN ns, ρ, ρ', h => by
      simp only [evalN]
      exact sumEvalCongr ns ρ ρ' (by simpa [nvarsB] using h)
  | .mulN a b, ρ, ρ', h => by
      simp only [evalN]
      rw [evalCongr a ρ ρ' (by simpa [nvarsB] using h)]
  | .divN a b, ρ, ρ', h => by
      simp only [evalN]
      rw [evalCongr a ρ ρ' (by simpa [nvarsB] using h)]
  | .modN a b, ρ, ρ', h => by
      simp only [evalN]
      rw [evalCongr a ρ ρ' (by simpa [nvarsB] using h)]
  | .ltN a b, ρ, ρ', h => by
      simp only [evalN]
      rw [evalCongr a ρ ρ' (by simpa [nvarsB] using h)]
  | .geN a b, ρ, ρ', h => by
      simp only [evalN]
      rw [evalCongr a ρ ρ' (by simpa [nvarsB] using h)]
  | .andN ns, ρ, ρ', h => by
      simp only [evalN]
      rw [allNonzeroCongr ns ρ ρ' (by simpa [nvarsB] using h)]

theorem sumEvalCongr : ∀ (ns : List Node) (ρ ρ' : Nat → Int),
    (∀ p ∈ nvarsBL ns, ρ p.1 = ρ' p.1) → sumEval ρ ns = sumEval ρ' ns
  | [], _, _, _ => by simp [sumEval]
  | t :: ts, ρ, ρ', h => by
      simp only [sumEval]
      rw [evalCongr t ρ ρ' (fun p hp => h p (by simp [nvarsBL, hp])),
          sumEvalCongr ts ρ ρ' (fun p hp => h p (by simp [nvarsBL, hp]))]

theorem allNonzeroCongr : ∀ (ns : List Node) (ρ ρ' : Nat → Int),
    (∀ p ∈ nvarsBL ns, ρ p.1 = ρ' p.1) → allNonzero ρ ns = allNonzero ρ' ns
  | [], _, _, _ => by simp [allNonzero]
  | t :: ts, ρ, ρ', h => by
      simp only [allNonzero]
      rw [evalCongr t ρ ρ' (fun p hp => h p (by simp [nvarsBL, hp])),
          allNonzeroCongr ts ρ ρ' (fun p hp => h p (by simp [nvarsBL, hp]))]

end

/-- Normalised (key, coefficient) decomposition of a summand: peels nested
constant factors so that like terms share one key. -/
def splitTerm : Node → Node × Int
  | .num k => (.num 1, k)
  | .mulN a b => ((splitTerm a).1, (splitTerm a).2 * b)
  | t => (t, 1)

/-- Rebuild a summand from a key and a coefficient. -/
def mkTerm (k : Node) (c : Int) : Node := if c = 1 then k else .mulN k c

mutual

/-- Flatten nested sum nodes into a list of non-sum summands. -/
def flatN : Node → List Node
  | .sumN ns => flatL ns
  | t => [t]

def flatL : List Node → List Node
  | [] => []
  | t :: ts => flatN t ++ flatL ts

end

/-- Insert a (key, coefficient) pair into an association list, merging
coefficients of equal keys. -/
def insTerm : List (Node × Int) → Node → Int → List (Node × Int)
  | [], k, c => [(k, c)]
  | (k', c') :: rest, k, c =>
      if k' = k then (k', c' + c) :: rest else (k', c') :: insTerm rest k c

/-- Group a list of summands by key, accumulating coefficients. -/
def sumAcc : List (Node × Int) → List Node → List (Node × Int)
  | acc, [] => acc
  | acc, t :: ts => sumAcc (insTerm acc (splitTerm t).1 (splitTerm t).2) ts

/-- Pack a list of summands into a single node. -/
def packSum : List Node → Node
  | [] => .num 0
  | [t] => t
  | ts => .sumN ts

/-- Modelled from the spec: the sum-of-terms constructor of the Node
algebra (`Node.sum`, spec section 6): flattens nested sums, groups like
terms, folds constants and drops vanished terms. -/
def Node.sum (l : List Node) : Node :=
  packSum ((sumAcc [] (flatL l)).filterMap
    (fun kc => if kc.2 = 0 then none else some (mkTerm kc.1 kc.2)))

/-- Weighted sum of an association list of (key, coefficient) pairs. -/
def wsum (ρ : Nat → Int) : List (Node × Int) → Int
  | [] => 0
  | kc :: rest => evalN ρ kc.1 * kc.2 + wsum ρ rest

theorem sumEval_append (ρ : Nat → Int) (l1 l2 : List Node) :
    sumEval ρ (l1 ++ l2) = sumEval ρ l1 + sumEval ρ l2 := by
  induction l1 with
  | nil => simp [sumEval]
  | cons t ts ih => simp [sumEval, ih]; ring

theorem splitTerm_eval (ρ : Nat → Int) : ∀ t : Node,
    evalN ρ (splitTerm t).1 * (splitTerm t).2 = evalN ρ t
  | .num k => by simp [splitTerm, evalN]
  | .mulN a b => by
      simp only [splitTerm, evalN]
      rw [← splitTerm_eval ρ a]
      ring
  | .var i lo hi => by simp [splitTerm]
  | .sumN ns => by simp [splitTerm]
  | .divN a b => by simp [splitTerm]
  | .modN a b => by simp [splitTerm]
  | .ltN a b => by simp [splitTerm]
  | .geN a b => by simp [splitTerm]
  | .andN ns => by simp [splitTerm]

theorem mkTerm_eval (ρ : Nat → Int) (k : Node) (c : Int) :
    evalN ρ (mkTerm k c) = evalN ρ k * c := by
  unfold mkTerm
  split
  · simp [*]
  · simp [evalN]

mutual

theorem flatN_eval (ρ : Nat → Int) : ∀ t : Node, sumEval ρ (flatN t) = evalN ρ t
  | .num k => by simp [flatN, sumEval]
  | .var i lo hi => by simp [flatN, sumEval]
  | .sumN ns => by
      simp only [flatN, evalN]
      exact flatL_eval ρ ns
  | .mulN a b => by simp [flatN, sumEval]
  | .divN a b => by simp [flatN, sumEval]
  | .modN a b => by simp [flatN, sumEval]
  | .ltN a b => by simp [flatN, sumEval]
  | .geN a b => by simp [flatN, sumEval]
  | .andN ns => by simp [flatN, sumEval]

theorem flatL_eval (ρ : Nat → Int) : ∀ l : List Node, sumEval ρ (flatL l) = sumEval ρ l
  | [] => by simp [flatL]
  | t :: ts => by
      simp only [flatL, sumEval, sumEval_append]
      rw [flatN_eval ρ t, flatL_eval ρ ts]

end

theorem insTerm_wsum (ρ : Nat → Int) : ∀ (acc : List (Node × Int)) (k : Node) (c : Int),
    wsum ρ (insTerm acc k c) = wsum ρ acc + evalN ρ k * c
  | [], k, c => by simp [insTerm, wsum]
  | (k', c') :: rest, k, c => by
      simp only [insTerm]
      split
      · rename_i h
        subst h
        simp [wsum]
        ring
      · simp only [wsum, insTerm_wsum ρ rest k c]
        ring

theorem sumAcc_wsum (ρ : Nat → Int) : ∀ (ts : List Node) (acc : List (Node × Int)),
    wsum ρ (sumAcc acc ts) = wsum ρ acc + sumEval ρ ts
  | [], acc => by simp [sumAcc, sumEval]
  | t :: ts, acc => by
      simp only [sumAcc, sumEval, sumAcc_wsum ρ ts, insTerm_wsum, splitTerm_eval]
      ring

theorem filterMapZero_eval (ρ : Nat → Int) : ∀ acc : List (Node × Int),
    sumEval ρ (acc.filterMap
      (fun kc => if kc.2 = 0 then none else some (mkTerm kc.1 kc.2))) = wsum ρ acc
  | [] => by simp [wsum, sumEval]
  | kc :: rest => by
      simp only [List.filterMap_cons]
      split
      · rename_i h
        simp only [wsum, filterMapZero_eval ρ rest]
        have h2 : kc.2 = 0 := by
          by_contra hc
          simp [hc] at h
        simp [h2]
      · rename_i h
        have h2 : ¬ kc.2 = 0 := by
          by_contra hc
          simp [hc] at h
        simp only [if_neg h2, Option.some.injEq] at h
        simp only [sumEval, wsum, filterMapZero_eval ρ rest, ← h, mkTerm_eval]

theorem packSum_eval (ρ : Nat → Int) : ∀ ts : List Node,
    evalN ρ (packSum ts) = sumEval ρ ts
  | [] => by simp [packSum, evalN, sumEval]
  | [t] => by simp [packSum, sumEval]
  | t :: t' :: ts => by simp [packSum, evalN]

theorem sum_eval (ρ : Nat → Int) (l : List Node) :
    evalN ρ (Node.sum l) = sumEval ρ l := by
  unfold Node.sum
  rw [packSum_eval, filterMapZero_eval, sumAcc_wsum]
  simp [wsum, flatL_eval]

theorem nvarsBL_append : ∀ l1 l2 : List Node, nvarsBL (l1 ++ l2) = nvarsBL l1 ++ nvarsBL l2
  | [], l2 => by simp [nvarsBL]
  | t :: ts, l2 => by simp [nvarsBL, nvarsBL_append ts l2]

theorem splitTerm_varsB : ∀ t : Node, nvarsB (splitTerm t).1 = nvarsB t
  | .num k => by simp [splitTerm, nvarsB]
  | .mulN a b => by simp only [splitTerm, nvarsB]; exact splitTerm_varsB a
  | .var i lo hi => by simp [splitTerm]
  | .sumN ns => by simp [splitTerm]
  | .divN a b => by simp [splitTerm]
  | .modN a b => by simp [splitTerm]
  | .ltN a b => by simp [splitTerm]
  | .geN a b => by simp [splitTerm]
  | .andN ns => by simp [splitTerm]

theorem mkTerm_varsB (k : Node) (c : Int) : nvarsB (mkTerm k c) = nvarsB k := by
  unfold mkTerm
  split <;> simp [nvarsB]

mutual

theorem flatN_varsB : ∀ t : Node, nvarsBL (flatN t) = nvarsB t
  | .num k => by simp [flatN, nvarsBL, nvarsB]
  | .var i lo hi => by simp [flatN, nvarsBL, nvarsB]
  | .sumN ns => by
      simp only [flatN, nvarsB]
      exact flatL_varsB ns
  | .mulN a b => by simp [flatN, nvarsBL, nvarsB]
  | .divN a b => by simp [flatN, nvarsBL, nvarsB]
  | .modN a b => by simp [flatN, nvarsBL, nvarsB]
  | .ltN a b => by simp [flatN, nvarsBL, nvarsB]
  | .geN a b => by simp [flatN, nvarsBL, nvarsB]
  | .andN ns => by simp [flatN, nvarsBL, nvarsB]

theorem flatL_varsB : ∀ l : List Node, nvarsBL (flatL l) = nvarsBL l
  | [] => by simp [flatL]
  | t :: ts => by
      simp only [flatL, nvarsBL, nvarsBL_append]
      rw [flatN_varsB t, flatL_varsB ts]

end

/-- Variable occurrences of the keys of an association list. -/
def wvars : List (Node × Int) → List (Nat × Int × Int)
  | [] => []
  | kc :: rest => nvarsB kc.1 ++ wvars rest

theorem insTerm_wvars : ∀ (acc : List (Node × Int)) (k : Node) (c : Int),
    wvars (insTerm acc k c) ⊆ wvars acc ++ nvarsB k
  | [], k, c => by simp [insTerm, wvars]
  | (k', c') :: rest, k, c => by
      simp only [insTerm]
      split
      · rename_i h
        subst h
        intro p hp
        simp only [wvars, List.mem_append] at hp ⊢
        tauto
      · intro p hp
        simp only [wvars, List.mem_append] at hp ⊢
        rcases hp with hp | hp
        · tauto
        · have := insTerm_wvars rest k c hp
          simp only [List.mem_append] at this
          tauto

theorem sumAcc_wvars : ∀ (ts : List Node) (acc : List (Node × Int)),
    wvars (sumAcc acc ts) ⊆ wvars acc ++ nvarsBL ts
  | [], acc => by simp [sumAcc]
  | t :: ts, acc => by
      intro p hp
      have h1 := sumAcc_wvars ts (insTerm acc (splitTerm t).1 (splitTerm t).2) hp
      simp only [List.mem_append] at h1
      rcases h1 with h1 | h1
      · have h2 := insTerm_wvars acc (splitTerm t).1 (splitTerm t).2 h1
        simp only [List.mem_append, splitTerm_varsB] at h2
        simp only [nvarsBL, List.mem_append]
        tauto
      · simp only [nvarsBL, List.mem_append]
        tauto

theorem filterMapZero_varsB : ∀ acc : List (Node × Int),
    nvarsBL (acc.filterMap
      (fun kc => if kc.2 = 0 then none else some (mkTerm kc.1 kc.2))) ⊆ wvars acc
  | [] => by simp [nvarsBL, wvars]
  | kc :: rest => by
      simp only [List.filterMap_cons]
      split
      · intro p hp
        have := filterMapZero_varsB rest hp
        simp only [wvars, List.mem_append]
        tauto
      · rename_i h
        have h2 : ¬ kc.2 = 0 := by
          by_contra hc
          simp [hc] at h
        simp only [if_neg h2, Option.some.injEq] at h
        intro p hp
        simp only [nvarsBL, ← h, mkTerm_varsB, List.mem_append] at hp
        simp only [wvars, List.mem_append]
        rcases hp with hp | hp
        · tauto
        · exact Or.inr (filterMapZero_varsB rest hp)

theorem packSum_varsB : ∀ ts : List Node, nvarsB (packSum ts) ⊆ nvarsBL ts
  | [] => by simp [packSum, nvarsB]
  | [t] => by simp [packSum, nvarsBL]
  | t :: t' :: ts => by simp [packSum, nvarsB, List.Subset.refl]

theorem sum_varsB (l : List Node) : nvarsB (Node.sum l) ⊆ nvarsBL l := by
  intro p hp
  have h1 := packSum_varsB _ hp
  have h2 := filterMapZero_varsB _ h1
  have h3 := sumAcc_wvars _ [] h2
  simp only [wvars, List.mem_append, flatL_varsB] at h3
  rcases h3 with h3 | h3
  · simp at h3
  · exact h3

/-- The grouping key of a summand. -/
def splitKey (t : Node) : Node := (splitTerm t).1

/-- A node that is not a sum node. -/
def nonSumN (t : Node) : Prop := ∀ ns, t ≠ Node.sumN ns

/-- A summand whose grouping key is not a sum node. -/
def keyNonSum (t : Node) : Prop := nonSumN (splitKey t)

/-- A key already in normal form: splitting it returns itself with
coefficient one. -/
def keyNorm (k : Node) : Prop := splitTerm k = (k, 1)

/-- Well-formed node: if it is a sum, its summands have pairwise distinct,
non-sum grouping keys. -/
def Wf : Node → Prop
  | .sumN ns => (∀ t ∈ ns, keyNonSum t) ∧ (ns.map splitKey).Nodup
  | t => keyNonSum t

theorem splitTerm_fst_norm : ∀ t : Node, keyNorm (splitKey t)
  | .num k => by simp [keyNorm, splitKey, splitTerm]
  | .mulN a b => by
      simp only [keyNorm, splitKey, splitTerm]
      exact splitTerm_fst_norm a
  | .var i lo hi => by simp [keyNorm, splitKey, splitTerm]
  | .sumN ns => by simp [keyNorm, splitKey, splitTerm]
  | .divN a b => by simp [keyNorm, splitKey, splitTerm]
  | .modN a b => by simp [keyNorm, splitKey, splitTerm]
  | .ltN a b => by simp [keyNorm, splitKey, splitTerm]
  | .geN a b => by simp [keyNorm, splitKey, splitTerm]
  | .andN ns => by simp [keyNorm, splitKey, splitTerm]

theorem nonSum_of_keyNonSum {t : Node} (h : keyNonSum t) : nonSumN t := by
  intro ns he
  subst he
  exact h ns rfl

theorem flatN_of_nonSum {t : Node} (h : nonSumN t) : flatN t = [t] := by
  cases t with
  | sumN ns => exact absurd rfl (h ns)
  | num k => simp [flatN]
  | var i lo hi => simp [flatN]
  | mulN a b => simp [flatN]
  | divN a b => simp [flatN]
  | modN a b => simp [flatN]
  | ltN a b => simp [flatN]
  | geN a b => simp [flatN]
  | andN ns => simp [flatN]

theorem flatL_of_nonSum : ∀ ns : List Node, (∀ u ∈ ns, nonSumN u) → flatL ns = ns
  | [], _ => by simp [flatL]
  | u :: us, h => by
      simp only [flatL]
      rw [flatN_of_nonSum (h u (by simp)),
          flatL_of_nonSum us (fun v hv => h v (by simp [hv]))]
      simp

theorem flatN_keyNonSum {t : Node} (h : Wf t) : ∀ t' ∈ flatN t, keyNonSum t' := by
  cases t with
  | sumN ns =>
      simp only [Wf] at h
      intro t' h'
      simp only [flatN] at h'
      rw [flatL_of_nonSum ns (fun u hu => nonSum_of_keyNonSum (h.1 u hu))] at h'
      exact h.1 t' h'
  | num k =>
      intro t' h'
      simp only [flatN, List.mem_singleton] at h'
      subst h'
      simpa [Wf] using h
  | var i lo hi =>
      intro t' h'
      simp only [flatN, List.mem_singleton] at h'
      subst h'
      simpa [Wf] using h
  | mulN a b =>
      intro t' h'
      simp only [flatN, List.mem_singleton] at h'
      subst h'
      simpa [Wf] using h
  | divN a b =>
      intro t' h'
      simp only [flatN, List.mem_singleton] at h'
      subst h'
      simpa [Wf] using h
  | modN a b =>
      intro t' h'
      simp only [flatN, List.mem_singleton] at h'
      subst h'
      simpa [Wf] using h
  | ltN a b =>
      intro t' h'
      simp only [flatN, List.mem_singleton] at h'
      subst h'
      simpa [Wf] using h
  | geN a b =>
      intro t' h'
      simp only [flatN, List.mem_singleton] at h'
      subst h'
      simpa [Wf] using h
  | andN ns =>
      intro t' h'
      simp only [flatN, List.mem_singleton] at h'
      subst h'
      simpa [Wf] using h

theorem flatL_keyNonSum : ∀ l : List Node, (∀ t ∈ l, Wf t) →
    ∀ t' ∈ flatL l, keyNonSum t'
  | [], _, t', h' => by simp [flatL] at h'
  | t :: ts, h, t', h' => by
      simp only [flatL, List.mem_append] at h'
      rcases h' with h' | h'
      · exact flatN_keyNonSum (h t (by simp)) t' h'
      · exact flatL_keyNonSum ts (fun u hu => h u (by simp [hu])) t' h'

theorem insTerm_keys : ∀ (acc : List (Node × Int)) (k : Node) (c : Int),
    (insTerm acc k c).map Prod.fst =
      if k ∈ acc.map Prod.fst then acc.map Prod.fst else acc.map Prod.fst ++ [k]
  | [], k, c => by simp [insTerm]
  | (k', c') :: rest, k, c => by
      simp only [insTerm]
      split
      · rename_i h
        subst h
        simp
      · rename_i h
        have hne : k ≠ k' := fun he => h he.symm
        simp only [List.map_cons, List.mem_cons, insTerm_keys rest k c]
        split
        · rename_i h2
          simp [h2, hne]
        · rename_i h2
          simp only [h2] at *
          simp [hne]

theorem insTerm_keys_nodup {acc : List (Node × Int)} {k : Node} {c : Int}
    (h : (acc.map Prod.fst).Nodup) : ((insTerm acc k c).map Prod.fst).Nodup := by
  rw [insTerm_keys]
  split
  · exact h
  · rename_i h2
    simp [List.nodup_append, h, h2]

theorem insTerm_keyProp {P : Node → Prop} : ∀ (acc : List (Node × Int)) (k : Node) (c : Int),
    (∀ kc ∈ acc, P kc.1) → P k → ∀ kc ∈ insTerm acc k c, P kc.1
  | [], k, c, _, hk, kc, hm => by
      simp only [insTerm, List.mem_singleton] at hm
      subst hm
      exact hk
  | (k', c') :: rest, k, c, hacc, hk, kc, hm => by
      simp only [insTerm] at hm
      split at hm
      · rcases List.mem_cons.mp hm with hm | hm
        · subst hm; exact hacc (k', c') (by simp)
        · exact hacc kc (by simp [hm])
      · rcases List.mem_cons.mp hm with hm | hm
        · subst hm; exact hacc (k', c') (by simp)
        · exact insTerm_keyProp rest k c (fun u hu => hacc u (by simp [hu])) hk kc hm

theorem sumAcc_keyProp {P : Node → Prop} : ∀ (ts : List Node) (acc : List (Node × Int)),
    (∀ kc ∈ acc, P kc.1) → (∀ t ∈ ts, P (splitKey t)) → ∀ kc ∈ sumAcc acc ts, P kc.1
  | [], acc, hacc, _, kc, hm => hacc kc (by simpa [sumAcc] using hm)
  | t :: ts, acc, hacc, hts, kc, hm => by
      simp only [sumAcc] at hm
      exact sumAcc_keyProp ts _
        (insTerm_keyProp acc _ _ hacc (hts t (by simp)))
        (fun u hu => hts u (by simp [hu])) kc hm

theorem sumAcc_keys_nodup : ∀ (ts : List Node) (acc : List (Node × Int)),
    (acc.map Prod.fst).Nodup → ((sumAcc acc ts).map Prod.fst).Nodup
  | [], acc, h => by simpa [sumAcc] using h
  | t :: ts, acc, h => by
      simp only [sumAcc]
      exact sumAcc_keys_nodup ts _ (insTerm_keys_nodup h)

theorem splitKey_mkTerm {k : Node} (c : Int) (h : keyNorm k) : splitKey (mkTerm k c) = k := by
  unfold mkTerm
  split
  · simpa [splitKey, keyNorm] using congrArg Prod.fst h
  · simp only [splitKey, splitTerm]
    simpa [splitKey, keyNorm] using congrArg Prod.fst h

theorem Wf_of_nonSum {m : Node} (h1 : nonSumN m) (h2 : keyNonSum m) : Wf m := by
  cases m with
  | sumN ns => exact absurd rfl (h1 ns)
  | num k => simpa [Wf] using h2
  | var i lo hi => simpa [Wf] using h2
  | mulN a b => simpa [Wf] using h2
  | divN a b => simpa [Wf] using h2
  | modN a b => simpa [Wf] using h2
  | ltN a b => simpa [Wf] using h2
  | geN a b => simpa [Wf] using h2
  | andN ns => simpa [Wf] using h2

theorem packSum_Wf {ms : List Node} (h1 : ∀ m ∈ ms, keyNonSum m)
    (h2 : (ms.map splitKey).Nodup) : Wf (packSum ms) := by
  match ms with
  | [] =>
      simp only [packSum]
      intro ns
      simp [splitKey, splitTerm]
  | [m] =>
      simp only [packSum]
      have hm := h1 m (by simp)
      exact Wf_of_nonSum (nonSum_of_keyNonSum hm) hm
  | m :: m' :: rest =>
      simp only [packSum, Wf]
      exact ⟨h1, h2⟩

theorem filterMapZero_keys_sublist : ∀ acc : List (Node × Int),
    (∀ kc ∈ acc, keyNorm kc.1) →
    ((acc.filterMap
      (fun kc => if kc.2 = 0 then none else some (mkTerm kc.1 kc.2))).map splitKey).Sublist
      (acc.map Prod.fst)
  | [], _ => by simp
  | kc :: rest, h => by
      simp only [List.filterMap_cons]
      split
      · exact (filterMapZero_keys_sublist rest
          (fun u hu => h u (by simp [hu]))).cons _
      · rename_i hc
        have h2 : ¬ kc.2 = 0 := by
          by_contra hz
          simp [hz] at hc
        simp only [if_neg h2, Option.some.injEq] at hc
        subst hc
        simp only [List.map_cons, splitKey_mkTerm _ (h kc (by simp))]
        exact (filterMapZero_keys_sublist rest (fun u hu => h u (by simp [hu]))).cons₂ _

theorem sum_Wf (l : List Node) (h : ∀ t ∈ l, Wf t) : Wf (Node.sum l) := by
  unfold Node.sum
  have hkeys : ∀ kc ∈ sumAcc [] (flatL l), keyNorm kc.1 ∧ nonSumN kc.1 := by
    refine @sumAcc_keyProp (fun k => keyNorm k ∧ nonSumN k) (flatL l) [] (by simp) ?_
    intro t ht
    exact ⟨splitTerm_fst_norm t, flatL_keyNonSum l h t ht⟩
  apply packSum_Wf
  · intro m hm
    rcases List.mem_filterMap.mp hm with ⟨kc, hkc, he⟩
    split at he
    · simp at he
    · rename_i hc
      have h2 : ¬ kc.2 = 0 := by
        by_contra hz
        simp [hz] at hc
      simp only [Option.some.injEq] at he
      subst he
      have := hkeys kc hkc
      rw [keyNonSum, splitKey_mkTerm _ this.1]
      exact this.2
  · have hnd : ((sumAcc [] (flatL l)).map Prod.fst).Nodup :=
      sumAcc_keys_nodup (flatL l) [] (by simp)
    exact ((filterMapZero_keys_sublist _ (fun kc hkc => (hkeys kc hkc).1)).nodup) hnd

/-- Fallback for multiplication by a constant. -/
def mulFB (a : Node) (b : Int) : Node :=
  if b = 0 then Node.num 0 else if b = 1 then a else Node.mulN a b

mutual

/-- Modelled from the spec: multiplication of an expression by an integer
constant (spec section 6): folds constants, distributes over sums and
merges nested constant factors. -/
def Node.mulc : Node → Int → Node
  | .num k, b => Node.num (k * b)
  | .sumN ns, b => if b = 0 then Node.num 0 else Node.sum (mulcL ns b)
  | .mulN x c, b => Node.mulc x (c * b)
  | .var i lo hi, b => mulFB (.var i lo hi) b
  | .divN x c, b => mulFB (.divN x c) b
  | .modN x c, b => mulFB (.modN x c) b
  | .ltN x c, b => mulFB (.ltN x c) b
  | .geN x c, b => mulFB (.geN x c) b
  | .andN ns, b => mulFB (.andN ns) b

def mulcL : List Node → Int → List Node
  | [], _ => []
  | t :: ts, b => Node.mulc t b :: mulcL ts b

end

theorem mulFB_eval (ρ : Nat → Int) (a : Node) (b : Int) :
    evalN ρ (mulFB a b) = evalN ρ a * b := by
  unfold mulFB
  split
  · simp_all [evalN]
  · split
    · simp_all [evalN]
    · simp [evalN]

mutual

theorem mulc_eval (ρ : Nat → Int) : ∀ (a : Node) (b : Int),
    evalN ρ (Node.mulc a b) = evalN ρ a * b
  | .num k, b => by simp [Node.mulc, evalN]
  | .sumN ns, b => by
      simp only [Node.mulc]
      split
      · simp_all [evalN]
      · rw [sum_eval, mulcL_eval ρ ns b]
        simp [evalN]
  | .mulN x c, b => by
      simp only [Node.mulc]
      rw [mulc_eval ρ x (c * b)]
      simp [evalN]
      ring
  | .var i lo hi, b => by rw [Node.mulc, mulFB_eval]
  | .divN x c, b => by rw [Node.mulc, mulFB_eval]
  | .modN x c, b => by rw [Node.mulc, mulFB_eval]
  | .ltN x c, b => by rw [Node.mulc, mulFB_eval]
  | .geN x c, b => by rw [Node.mulc, mulFB_eval]
  | .andN ns, b => by rw [Node.mulc, mulFB_eval]

theorem mulcL_eval (ρ : Nat → Int) : ∀ (l : List Node) (b : Int),
    sumEval ρ (mulcL l b) = sumEval ρ l * b
  | [], b => by simp [mulcL, sumEval]
  | t :: ts, b => by
      simp only [mulcL, sumEval, mulc_eval ρ t b, mulcL_eval ρ ts b]
      ring

end

theorem mulFB_varsB (a : Node) (b : Int) : nvarsB (mulFB a b) ⊆ nvarsB a := by
  unfold mulFB
  split
  · simp [nvarsB]
  · split
    · simp
    · simp [nvarsB]

mutual

theorem mulc_varsB : ∀ (a : Node) (b : Int), nvarsB (Node.mulc a b) ⊆ nvarsB a
  | .num k, b => by simp [Node.mulc, nvarsB]
  | .sumN ns, b => by
      simp only [Node.mulc]
      split
      · simp [nvarsB]
      · intro p hp
        have h1 := sum_varsB _ hp
        have h2 := mulcL_varsB ns b h1
        simpa [nvarsB] using h2
  | .mulN x c, b => by
      simp only [Node.mulc, nvarsB]
      exact mulc_varsB x (c * b)
  | .var i lo hi, b => by rw [Node.mulc]; exact mulFB_varsB _ b
  | .divN x c, b => by rw [Node.mulc]; exact mulFB_varsB _ b
  | .modN x c, b => by rw [Node.mulc]; exact mulFB_varsB _ b
  | .ltN x c, b => by rw [Node.mulc]; exact mulFB_varsB _ b
  | .geN x c, b => by rw [Node.mulc]; exact mulFB_varsB _ b
  | .andN ns, b => by rw [Node.mulc]; exact mulFB_varsB _ b

theorem mulcL_varsB : ∀ (l : List Node) (b : Int), nvarsBL (mulcL l b) ⊆ nvarsBL l
  | [], b => by simp [mulcL]
  | t :: ts, b => by
      simp only [mulcL, nvarsBL]
      intro p hp
      rcases List.mem_append.mp hp with hp | hp
      · exact List.mem_append.mpr (Or.inl (mulc_varsB t b hp))
      · exact List.mem_append.mpr (Or.inr (mulcL_varsB ts b hp))

end

theorem mulFB_Wf {a : Node} (b : Int) (h : keyNonSum a) : Wf (mulFB a b) := by
  unfold mulFB
  split
  · intro ns
    simp [splitKey, splitTerm]
  · split
    · exact Wf_of_nonSum (nonSum_of_keyNonSum h) h
    · have hk : keyNonSum (Node.mulN a b) := by
        simpa [keyNonSum, splitKey, splitTerm] using h
      exact Wf_of_nonSum (fun ns => by simp) hk

mutual

theorem mulc_Wf : ∀ (a : Node) (b : Int), Wf a → Wf (Node.mulc a b)
  | .num k, b, _ => by
      simp only [Node.mulc]
      intro ns
      simp [splitKey, splitTerm]
  | .sumN ns, b, h => by
      simp only [Node.mulc]
      split
      · intro ns'
        simp [splitKey, splitTerm]
      · refine sum_Wf _ ?_
        simp only [Wf] at h
        exact mulcL_Wf ns b (fun t ht => Wf_of_nonSum (nonSum_of_keyNonSum (h.1 t ht)) (h.1 t ht))
  | .mulN x c, b, h => by
      simp only [Node.mulc]
      have hx : keyNonSum x := by
        simpa [Wf, keyNonSum, splitKey, splitTerm] using h
      exact mulc_Wf x (c * b) (Wf_of_nonSum (nonSum_of_keyNonSum hx) hx)
  | .var i lo hi, b, h => by rw [Node.mulc]; exact mulFB_Wf b (by simpa [Wf] using h)
  | .divN x c, b, h => by rw [Node.mulc]; exact mulFB_Wf b (by simpa [Wf] using h)
  | .modN x c, b, h => by rw [Node.mulc]; exact mulFB_Wf b (by simpa [Wf] using h)
  | .ltN x c, b, h => by rw [Node.mulc]; exact mulFB_Wf b (by simpa [Wf] using h)
  | .geN x c, b, h => by rw [Node.mulc]; exact mulFB_Wf b (by simpa [Wf] using h)
  | .andN ns, b, h => by rw [Node.mulc]; exact mulFB_Wf b (by simpa [Wf] using h)

theorem mulcL_Wf : ∀ (l : List Node) (b : Int), (∀ t ∈ l, Wf t) →
    ∀ t' ∈ mulcL l b, Wf t'
  | [], b, _, t', h' => by simp [mulcL] at h'
  | t :: ts, b, h, t', h' => by
      simp only [mulcL, List.mem_cons] at h'
      rcases h' with h' | h'
      · subst h'
        exact mulc_Wf t b (h t (by simp))
      · exact mulcL_Wf ts b (fun u hu => h u (by simp [hu])) t' h'

end

/-- Fallback for floor division by a constant: collapses to zero when the
static bounds show the quotient vanishes. -/
def fbDiv (a : Node) (b : Int) : Node :=
  if 0 ≤ nmin a ∧ nmax a < b then Node.num 0 else Node.divN a b

/-- Floor division of a non-sum summand by a constant. -/
def divStep (a : Node) (b : Int) : Node :=
  if b = 0 then Node.num 0
  else if b = 1 then a
  else if (splitTerm a).2 % b = 0 then mkTerm (splitTerm a).1 ((splitTerm a).2 / b)
  else fbDiv a b

/-- Modelled from the spec: floor division of an expression by an integer
constant (spec section 6): folds constants and pulls summands whose
coefficient the divisor divides out of the quotient. -/
def Node.divc : Node → Int → Node
  | .num k, b => Node.num (k / b)
  | .sumN ns, b =>
      if b = 0 then Node.num 0
      else if b = 1 then Node.sumN ns
      else
        let pulled := ns.filterMap (fun t =>
          if (splitTerm t).2 % b = 0 then
            some (mkTerm (splitTerm t).1 ((splitTerm t).2 / b))
          else none)
        if pulled = [] then fbDiv (Node.sumN ns) b
        else Node.sum (pulled ++
          [fbDiv (Node.sum (ns.filter (fun t => ! ((splitTerm t).2 % b == 0)))) b])
  | .var i lo hi, b => divStep (.var i lo hi) b
  | .mulN x c, b => divStep (.mulN x c) b
  | .divN x c, b => divStep (.divN x c) b
  | .modN x c, b => divStep (.modN x c) b
  | .ltN x c, b => divStep (.ltN x c) b
  | .geN x c, b => divStep (.geN x c) b
  | .andN ns, b => divStep (.andN ns) b

/-- Fallback for modulus by a constant: collapses when the static bounds
show the value is already reduced. -/
def fbMod (a : Node) (b : Int) : Node :=
  if 0 ≤ nmin a ∧ nmax a < b then a else Node.modN a b

/-- Modulus of a non-sum summand by a constant. -/
def modStep (a : Node) (b : Int) : Node :=
  if b = 0 then a
  else if b = 1 then Node.num 0
  else if (splitTerm a).2 % b = 0 then Node.num 0
  else fbMod a b

/-- Modelled from the spec: modulus of an expression by an integer
constant (spec section 6): folds constants and reduces the coefficients of
a sum modulo the divisor before bounding. -/
def Node.modc : Node → Int → Node
  | .num k, b => Node.num (k % b)
  | .sumN ns, b =>
      if b = 0 then Node.sumN ns
      else if b = 1 then Node.num 0
      else fbMod (Node.sum (ns.map (fun t => mkTerm (splitTerm t).1 ((splitTerm t).2 % b)))) b
  | .var i lo hi, b => modStep (.var i lo hi) b
  | .mulN x c, b => modStep (.mulN x c) b
  | .divN x c, b => modStep (.divN x c) b
  | .modN x c, b => modStep (.modN x c) b
  | .ltN x c, b => modStep (.ltN x c) b
  | .geN x c, b => modStep (.geN x c) b
  | .andN ns, b => modStep (.andN ns) b

/-- Modelled from the spec: the comparison `node < const` yielding a 0/1
expression, collapsed to a constant when the static bounds decide it. -/
def Node.ltc (a : Node) (b : Int) : Node :=
  if nmax a < b then Node.num 1
  else if b ≤ nmin a then Node.num 0
  else Node.ltN a b

/-- Modelled from the spec: the comparison `node >= const` yielding a 0/1
expression, collapsed to a constant when the static bounds decide it. -/
def Node.gec (a : Node) (b : Int) : Node :=
  if b ≤ nmin a then Node.num 1
  else if nmax a < b then Node.num 0
  else Node.geN a b

/-- A conjunct statically known to be zero (false). -/
def staticZero (x : Node) : Bool := nmin x == 0 && nmax x == 0

/-- A conjunct statically known to be a nonzero constant (true). -/
def staticTrue (x : Node) : Bool := nmin x == nmax x && ! (nmin x == 0)

/-- Pack a list of conjuncts into a single node. -/
def packAnds : List Node → Node
  | [] => Node.num 1
  | [x] => x
  | xs => Node.andN xs

/-- Modelled from the spec: the conjunction-of-terms constructor
(`Node.ands`, spec section 6); the empty conjunction is statically true,
statically-decided conjuncts are folded away. -/
def Node.ands (l : List Node) : Node :=
  if l.any staticZero then Node.num 0
  else packAnds (l.filter (fun x => ! staticTrue x))

/-- Expressions that only ever evaluate to 0 or 1. -/
def BoolLike (e : Node) : Prop := ∀ ρ, evalN ρ e = 0 ∨ evalN ρ e = 1

theorem nvarsBL_mem : ∀ (l : List Node) (p : Nat × Int × Int),
    p ∈ nvarsBL l ↔ ∃ t ∈ l, p ∈ nvarsB t
  | [], p => by simp [nvarsBL]
  | t :: ts, p => by
      simp only [nvarsBL, List.mem_append, nvarsBL_mem ts p, List.mem_cons]
      constructor
      · rintro (h | ⟨u, hu, hp⟩)
        · exact ⟨t, Or.inl rfl, h⟩
        · exact ⟨u, Or.inr hu, hp⟩
      · rintro ⟨u, hu | hu, hp⟩
        · subst hu; exact Or.inl hp
        · exact Or.inr ⟨u, hu, hp⟩

theorem InBL_mem {ρ : Nat → Int} {l : List Node} {x : Node}
    (h : InBL ρ l) (hx : x ∈ l) : InB ρ x :=
  fun p hp => h p ((nvarsBL_mem l p).mpr ⟨x, hx, hp⟩)

theorem InB_of_InBL_sub {ρ : Nat → Int} {l l' : List Node}
    (hsub : l' ⊆ l) (h : InBL ρ l) : InBL ρ l' :=
  fun p hp => by
    rcases (nvarsBL_mem l' p).mp hp with ⟨t, ht, hpt⟩
    exact h p ((nvarsBL_mem l p).mpr ⟨t, hsub ht, hpt⟩)

theorem fbDiv_eval (ρ : Nat → Int) (a : Node) (b : Int) (h : InB ρ a) :
    evalN ρ (fbDiv a b) = evalN ρ a / b := by
  unfold fbDiv
  split
  · rename_i hc
    have hb := boundSound a ρ h
    have h0 : 0 ≤ evalN ρ a := le_trans hc.1 hb.1
    have h1 : evalN ρ a < b := lt_of_le_of_lt hb.2 hc.2
    simp [evalN, Int.ediv_eq_zero_of_lt h0 h1]
  · simp [evalN]

theorem divTerm_mul (ρ : Nat → Int) (t : Node) (b : Int) (_hb : b ≠ 0)
    (h : (splitTerm t).2 % b = 0) :
    evalN ρ (mkTerm (splitTerm t).1 ((splitTerm t).2 / b)) * b = evalN ρ t := by
  rw [mkTerm_eval]
  have hd : b ∣ (splitTerm t).2 := Int.dvd_of_emod_eq_zero h
  rw [mul_assoc, Int.ediv_mul_cancel hd, splitTerm_eval]

theorem divStep_eval (ρ : Nat → Int) (a : Node) (b : Int) (h : InB ρ a) :
    evalN ρ (divStep a b) = evalN ρ a / b := by
  unfold divStep
  split
  · rename_i hb
    subst hb
    simp [evalN]
  · split
    · rename_i hb1
      subst hb1
      simp [Int.ediv_one]
    · split
      · rename_i hb0 hb1 hdvd
        have hm := divTerm_mul ρ a b hb0 hdvd
        rw [← hm, Int.mul_ediv_cancel _ hb0]
      · exact fbDiv_eval ρ a b h

theorem sumEval_split (ρ : Nat → Int) (p : Node → Bool) : ∀ l : List Node,
    sumEval ρ l = sumEval ρ (l.filter p) + sumEval ρ (l.filter (fun t => ! p t))
  | [] => by simp [sumEval]
  | t :: ts => by
      by_cases h : p t
      · simp only [List.filter_cons, h, Bool.not_true, if_true, Bool.false_eq_true,
          if_false, sumEval]
        rw [sumEval_split ρ p ts]
        ring
      · have h' : p t = false := by simpa using h
        simp only [List.filter_cons, h', Bool.not_false, Bool.false_eq_true, if_true,
          if_false, sumEval]
        rw [sumEval_split ρ p ts]
        ring

theorem pulledSum_eval (ρ : Nat → Int) (b : Int) (hb : b ≠ 0) : ∀ l : List Node,
    sumEval ρ (l.filterMap (fun t =>
      if (splitTerm t).2 % b = 0 then
        some (mkTerm (splitTerm t).1 ((splitTerm t).2 / b))
      else none)) * b
    = sumEval ρ (l.filter (fun t => (splitTerm t).2 % b == 0))
  | [] => by simp [sumEval]
  | t :: ts => by
      by_cases h : (splitTerm t).2 % b = 0
      · have hc : ((splitTerm t).2 % b == 0) = true := beq_iff_eq.mpr h
        simp only [List.filterMap_cons, if_pos h, List.filter_cons, hc, if_true, sumEval]
        rw [add_mul, divTerm_mul ρ t b hb h, pulledSum_eval ρ b hb ts]
      · have hc : ((splitTerm t).2 % b == 0) = false := by
          simpa using h
        simp only [List.filterMap_cons, if_neg h, List.filter_cons, hc, if_false]
        exact pulledSum_eval ρ b hb ts

theorem divc_eval (ρ : Nat → Int) : ∀ (a : Node) (b : Int), InB ρ a →
    evalN ρ (Node.divc a b) = evalN ρ a / b
  | .num k, b, _ => by simp [Node.divc, evalN]
  | .sumN ns, b, h => by
      simp only [Node.divc]
      by_cases hb0 : b = 0
      · subst hb0
        simp [evalN]
      · by_cases hb1 : b = 1
        · subst hb1
          simp [if_neg hb0, Int.ediv_one]
        · simp only [if_neg hb0, if_neg hb1]
          split
          · exact fbDiv_eval ρ _ b h
          · rename_i hpulled
            rw [sum_eval, sumEval_append]
            have hf : InB ρ (Node.sum (ns.filter (fun t => ! ((splitTerm t).2 % b == 0)))) := by
              apply InB_of_subset (e := Node.sumN ns) _ h
              intro p hp
              have h1 := sum_varsB _ hp
              rcases (nvarsBL_mem _ p).mp h1 with ⟨t, ht, hpt⟩
              have ht' : t ∈ ns := List.mem_of_mem_filter ht
              simpa [nvarsB] using (nvarsBL_mem ns p).mpr ⟨t, ht', hpt⟩
            simp only [sumEval, fbDiv_eval ρ _ b hf, sum_eval]
            have hsplit := sumEval_split ρ (fun t => (splitTerm t).2 % b == 0) ns
            have hpull := pulledSum_eval ρ b hb0 ns
            have hev : evalN ρ (Node.sumN ns) = sumEval ρ ns := by simp [evalN]
            rw [hev, hsplit, ← hpull]
            have harr : ∀ P R : Int, (P * b + R) / b = R / b + P := fun P R => by
              rw [add_comm]
              exact Int.add_mul_ediv_right _ _ hb0
            rw [harr]
            ring
  | .var i lo hi, b, h => by rw [Node.divc]; exact divStep_eval ρ _ b h
  | .mulN x c, b, h => by rw [Node.divc]; exact divStep_eval ρ _ b h
  | .divN x c, b, h => by rw [Node.divc]; exact divStep_eval ρ _ b h
  | .modN x c, b, h => by rw [Node.divc]; exact divStep_eval ρ _ b h
  | .ltN x c, b, h => by rw [Node.divc]; exact divStep_eval ρ _ b h
  | .geN x c, b, h => by rw [Node.divc]; exact divStep_eval ρ _ b h
  | .andN ns, b, h => by rw [Node.divc]; exact divStep_eval ρ _ b h

theorem fbMod_eval (ρ : Nat → Int) (a : Node) (b : Int) (h : InB ρ a) :
    evalN ρ (fbMod a b) = evalN ρ a % b := by
  unfold fbMod
  split
  · rename_i hc
    have hb := boundSound a ρ h
    have h0 : 0 ≤ evalN ρ a := le_trans hc.1 hb.1
    have h1 : evalN ρ a < b := lt_of_le_of_lt hb.2 hc.2
    rw [Int.emod_eq_of_lt h0 h1]
  · simp [evalN]

theorem modStep_eval (ρ : Nat → Int) (a : Node) (b : Int) (h : InB ρ a) :
    evalN ρ (modStep a b) = evalN ρ a % b := by
  unfold modStep
  split
  · rename_i hb
    subst hb
    simp
  · split
    · rename_i hb1
      subst hb1
      simp [evalN, Int.emod_one]
    · split
      · rename_i hb0 hb1 hdvd
        rcases Int.dvd_of_emod_eq_zero hdvd with ⟨q, hq⟩
        have he : evalN ρ a = b * (q * evalN ρ (splitTerm a).1) := by
          rw [← splitTerm_eval ρ a, hq]
          ring
        simp [evalN, he, Int.mul_emod_right]
      · exact fbMod_eval ρ a b h

theorem modSum_dvd (ρ : Nat → Int) (b : Int) : ∀ l : List Node,
    b ∣ (sumEval ρ l -
      sumEval ρ (l.map (fun t => mkTerm (splitTerm t).1 ((splitTerm t).2 % b))))
  | [] => by simp [sumEval]
  | t :: ts => by
      simp only [List.map_cons, sumEval]
      have h1 : evalN ρ t - evalN ρ (mkTerm (splitTerm t).1 ((splitTerm t).2 % b))
          = evalN ρ (splitTerm t).1 * (b * ((splitTerm t).2 / b)) := by
        rw [mkTerm_eval, ← splitTerm_eval ρ t]
        have : (splitTerm t).2 - (splitTerm t).2 % b = b * ((splitTerm t).2 / b) := by
          rw [Int.emod_def]
          ring
        calc evalN ρ (splitTerm t).1 * (splitTerm t).2 -
              evalN ρ (splitTerm t).1 * ((splitTerm t).2 % b)
            = evalN ρ (splitTerm t).1 * ((splitTerm t).2 - (splitTerm t).2 % b) := by ring
          _ = evalN ρ (splitTerm t).1 * (b * ((splitTerm t).2 / b)) := by rw [this]
      have h2 := modSum_dvd ρ b ts
      have h3 : b ∣ evalN ρ (splitTerm t).1 * (b * ((splitTerm t).2 / b)) :=
        ⟨evalN ρ (splitTerm t).1 * ((splitTerm t).2 / b), by ring⟩
      have h4 : evalN ρ t + sumEval ρ ts -
          (evalN ρ (mkTerm (splitTerm t).1 ((splitTerm t).2 % b)) +
            sumEval ρ (ts.map (fun t => mkTerm (splitTerm t).1 ((splitTerm t).2 % b))))
          = (evalN ρ t - evalN ρ (mkTerm (splitTerm t).1 ((splitTerm t).2 % b))) +
            (sumEval ρ ts -
              sumEval ρ (ts.map (fun t => mkTerm (splitTerm t).1 ((splitTerm t).2 % b)))) := by
        ring
      rw [h4, h1]
      exact dvd_add h3 h2

theorem modc_eval (ρ : Nat → Int) : ∀ (a : Node) (b : Int), InB ρ a →
    evalN ρ (Node.modc a b) = evalN ρ a % b
  | .num k, b, _ => by simp [Node.modc, evalN]
  | .sumN ns, b, h => by
      simp only [Node.modc]
      by_cases hb0 : b = 0
      · subst hb0
        simp
      · by_cases hb1 : b = 1
        · subst hb1
          simp [if_neg hb0, evalN, Int.emod_one]
        · simp only [if_neg hb0, if_neg hb1]
          have hin : InB ρ (Node.sum (ns.map (fun t =>
              mkTerm (splitTerm t).1 ((splitTerm t).2 % b)))) := by
            apply InB_of_subset (e := Node.sumN ns) _ h
            intro p hp
            have h1 := sum_varsB _ hp
            rcases (nvarsBL_mem _ p).mp h1 with ⟨t, ht, hpt⟩
            rcases List.mem_map.mp ht with ⟨u, hu, he⟩
            subst he
            rw [mkTerm_varsB, splitTerm_varsB] at hpt
            simpa [nvarsB] using (nvarsBL_mem ns p).mpr ⟨u, hu, hpt⟩
          rw [fbMod_eval ρ _ b hin, sum_eval]
          have hd := modSum_dvd ρ b ns
          have hz : (sumEval ρ ns - sumEval ρ (ns.map (fun t =>
              mkTerm (splitTerm t).1 ((splitTerm t).2 % b)))) % b = 0 :=
            Int.emod_eq_zero_of_dvd hd
          have := Int.emod_eq_emod_iff_emod_sub_eq_zero.mpr hz
          simp only [evalN]
          exact this.symm
  | .var i lo hi, b, h => by rw [Node.modc]; exact modStep_eval ρ _ b h
  | .mulN x c, b, h => by rw [Node.modc]; exact modStep_eval ρ _ b h
  | .divN x c, b, h => by rw [Node.modc]; exact modStep_eval ρ _ b h
  | .modN x c, b, h => by rw [Node.modc]; exact modStep_eval ρ _ b h
  | .ltN x c, b, h => by rw [Node.modc]; exact modStep_eval ρ _ b h
  | .geN x c, b, h => by rw [Node.modc]; exact modStep_eval ρ _ b h
  | .andN ns, b, h => by rw [Node.modc]; exact modStep_eval ρ _ b h

theorem ltc_eval (ρ : Nat → Int) (a : Node) (b : Int) (h : InB ρ a) :
    evalN ρ (Node.ltc a b) = if evalN ρ a < b then 1 else 0 := by
  unfold Node.ltc
  have hb := boundSound a ρ h
  split
  · rename_i hc
    have : evalN ρ a < b := lt_of_le_of_lt hb.2 hc
    simp [evalN, this]
  · split
    · rename_i hc
      have : ¬ evalN ρ a < b := by omega
      simp [evalN, this]
    · simp [evalN]

theorem gec_eval (ρ : Nat → Int) (a : Node) (b : Int) (h : InB ρ a) :
    evalN ρ (Node.gec a b) = if b ≤ evalN ρ a then 1 else 0 := by
  unfold Node.gec
  have hb := boundSound a ρ h
  split
  · rename_i hc
    have : b ≤ evalN ρ a := le_trans hc hb.1
    simp [evalN, this]
  · split
    · rename_i hc
      have : ¬ b ≤ evalN ρ a := by omega
      simp [evalN, this]
    · simp [evalN]

theorem allNonzero_iff (ρ : Nat → Int) : ∀ l : List Node,
    allNonzero ρ l = true ↔ ∀ x ∈ l, evalN ρ x ≠ 0
  | [] => by simp [allNonzero]
  | t :: ts => by
      simp only [allNonzero, Bool.and_eq_true, bne_iff_ne, allNonzero_iff ρ ts,
        List.mem_cons]
      constructor
      · rintro ⟨h1, h2⟩ x (hx | hx)
        · subst hx; exact h1
        · exact h2 x hx
      · intro h
        exact ⟨h t (Or.inl rfl), fun x hx => h x (Or.inr hx)⟩

theorem staticZero_eval {ρ : Nat → Int} {x : Node} (hs : staticZero x = true)
    (h : InB ρ x) : evalN ρ x = 0 := by
  have hb := boundSound x ρ h
  simp only [staticZero, Bool.and_eq_true, beq_iff_eq] at hs
  omega

theorem staticTrue_eval {ρ : Nat → Int} {x : Node} (hs : staticTrue x = true)
    (h : InB ρ x) : evalN ρ x ≠ 0 := by
  have hb := boundSound x ρ h
  simp only [staticTrue, Bool.and_eq_true, beq_iff_eq, Bool.not_eq_eq_eq_not,
    Bool.not_true, beq_eq_false_iff_ne, ne_eq] at hs
  omega

theorem packAnds_ne (ρ : Nat → Int) : ∀ xs : List Node,
    (evalN ρ (packAnds xs) ≠ 0 ↔ ∀ x ∈ xs, evalN ρ x ≠ 0)
  | [] => by simp [packAnds, evalN]
  | [x] => by simp [packAnds]
  | x :: y :: rest => by
      simp only [packAnds, evalN]
      rw [← allNonzero_iff ρ (x :: y :: rest)]
      by_cases hall : allNonzero ρ (x :: y :: rest) <;> simp [hall]

theorem ands_eval (ρ : Nat → Int) (l : List Node) (h : InBL ρ l) :
    (evalN ρ (Node.ands l) ≠ 0 ↔ ∀ x ∈ l, evalN ρ x ≠ 0) := by
  unfold Node.ands
  split
  · rename_i hz
    rcases List.any_eq_true.mp hz with ⟨x0, hx0, hs⟩
    have hx0v : evalN ρ x0 = 0 := staticZero_eval hs (InBL_mem h hx0)
    simp only [evalN, ne_eq]
    constructor
    · intro hc
      exact absurd trivial hc
    · intro hall
      exact absurd hx0v (hall x0 hx0)
  · rename_i hz
    rw [packAnds_ne]
    constructor
    · intro hf x hx
      by_cases hst : staticTrue x
      · exact staticTrue_eval hst (InBL_mem h hx)
      · refine hf x ?_
        simp only [List.mem_filter, hx, true_and, Bool.not_eq_eq_eq_not, Bool.not_true]
        simpa using hst
    · intro hall x hx
      exact hall x (List.mem_of_mem_filter hx)

theorem packAnds_BoolLike : ∀ xs : List Node, (∀ x ∈ xs, BoolLike x) →
    BoolLike (packAnds xs)
  | [], _ => fun ρ => by simp [packAnds, evalN]
  | [x], h => h x (by simp [packAnds])
  | x :: y :: rest, _ => fun ρ => by
      simp only [packAnds, evalN]
      split <;> simp

theorem ands_BoolLike (l : List Node) (h : ∀ x ∈ l, BoolLike x) :
    BoolLike (Node.ands l) := by
  unfold Node.ands
  split
  · intro ρ
    simp [evalN]
  · exact packAnds_BoolLike _ (fun x hx => h x (List.mem_of_mem_filter hx))

theorem packAnds_varsB : ∀ xs : List Node, nvarsB (packAnds xs) ⊆ nvarsBL xs
  | [] => by simp [packAnds, nvarsB]
  | [x] => by simp [packAnds, nvarsBL]
  | x :: y :: rest => by simp [packAnds, nvarsB, List.Subset.refl]

theorem ands_varsB (l : List Node) : nvarsB (Node.ands l) ⊆ nvarsBL l := by
  unfold Node.ands
  split
  · simp [nvarsB]
  · intro p hp
    have h1 := packAnds_varsB _ hp
    rcases (nvarsBL_mem _ p).mp h1 with ⟨t, ht, hpt⟩
    exact (nvarsBL_mem l p).mpr ⟨t, List.mem_of_mem_filter ht, hpt⟩

theorem fbDiv_varsB (a : Node) (b : Int) : nvarsB (fbDiv a b) ⊆ nvarsB a := by
  unfold fbDiv
  split
  · simp [nvarsB]
  · simp [nvarsB]

theorem fbMod_varsB (a : Node) (b : Int) : nvarsB (fbMod a b) ⊆ nvarsB a := by
  unfold fbMod
  split
  · simp
  · simp [nvarsB]

theorem divStep_varsB (a : Node) (b : Int) : nvarsB (divStep a b) ⊆ nvarsB a := by
  unfold divStep
  split
  · simp [nvarsB]
  · split
    · simp
    · split
      · rw [mkTerm_varsB, splitTerm_varsB]
        exact fun p hp => hp
      · exact fbDiv_varsB a b

theorem modStep_varsB (a : Node) (b : Int) : nvarsB (modStep a b) ⊆ nvarsB a := by
  unfold modStep
  split
  · simp
  · split
    · simp [nvarsB]
    · split
      · simp [nvarsB]
      · exact fbMod_varsB a b

theorem divc_varsB : ∀ (a : Node) (b : Int), nvarsB (Node.divc a b) ⊆ nvarsB a
  | .num k, b => by simp [Node.divc, nvarsB]
  | .sumN ns, b => by
      simp only [Node.divc]
      split
      · simp [nvarsB]
      · split
        · simp
        · split
          · exact fbDiv_varsB _ b
          · intro p hp
            have h1 := sum_varsB _ hp
            rw [nvarsBL_append] at h1
            rcases List.mem_append.mp h1 with h1 | h1
            · rcases (nvarsBL_mem _ p).mp h1 with ⟨t, ht, hpt⟩
              rcases List.mem_filterMap.mp ht with ⟨u, hu, he⟩
              split at he
              · simp only [Option.some.injEq] at he
                subst he
                rw [mkTerm_varsB, splitTerm_varsB] at hpt
                simpa [nvarsB] using (nvarsBL_mem ns p).mpr ⟨u, hu, hpt⟩
              · simp at he
            · rcases (nvarsBL_mem _ p).mp h1 with ⟨t, ht, hpt⟩
              simp only [List.mem_singleton] at ht
              subst ht
              have h2 := fbDiv_varsB _ b hpt
              have h3 := sum_varsB _ h2
              rcases (nvarsBL_mem _ p).mp h3 with ⟨u, hu, hpu⟩
              simpa [nvarsB] using
                (nvarsBL_mem ns p).mpr ⟨u, List.mem_of_mem_filter hu, hpu⟩
  | .var i lo hi, b => by rw [Node.divc]; exact divStep_varsB _ b
  | .mulN x c, b => by rw [Node.divc]; exact divStep_varsB _ b
  | .divN x c, b => by rw [Node.divc]; exact divStep_varsB _ b
  | .modN x c, b => by rw [Node.divc]; exact divStep_varsB _ b
  | .ltN x c, b => by rw [Node.divc]; exact divStep_varsB _ b
  | .geN x c, b => by rw [Node.divc]; exact divStep_varsB _ b
  | .andN ns, b => by rw [Node.divc]; exact divStep_varsB _ b

theorem modc_varsB : ∀ (a : Node) (b : Int), nvarsB (Node.modc a b) ⊆ nvarsB a
  | .num k, b => by simp [Node.modc, nvarsB]
  | .sumN ns, b => by
      simp only [Node.modc]
      split
      · simp
      · split
        · simp [nvarsB]
        · intro p hp
          have h1 := fbMod_varsB _ b hp
          have h2 := sum_varsB _ h1
          rcases (nvarsBL_mem _ p).mp h2 with ⟨t, ht, hpt⟩
          rcases List.mem_map.mp ht with ⟨u, hu, he⟩
          subst he
          rw [mkTerm_varsB, splitTerm_varsB] at hpt
          simpa [nvarsB] using (nvarsBL_mem ns p).mpr ⟨u, hu, hpt⟩
  | .var i lo hi, b => by rw [Node.modc]; exact modStep_varsB _ b
  | .mulN x c, b => by rw [Node.modc]; exact modStep_varsB _ b
  | .divN x c, b => by rw [Node.modc]; exact modStep_varsB _ b
  | .modN x c, b => by rw [Node.modc]; exact modStep_varsB _ b
  | .ltN x c, b => by rw [Node.modc]; exact modStep_varsB _ b
  | .geN x c, b => by rw [Node.modc]; exact modStep_varsB _ b
  | .andN ns, b => by rw [Node.modc]; exact modStep_varsB _ b

theorem ltc_varsB (a : Node) (b : Int) : nvarsB (Node.ltc a b) ⊆ nvarsB a := by
  unfold Node.ltc
  split
  · simp [nvarsB]
  · split
    · simp [nvarsB]
    · simp [nvarsB]

theorem gec_varsB (a : Node) (b : Int) : nvarsB (Node.gec a b) ⊆ nvarsB a := by
  unfold Node.gec
  split
  · simp [nvarsB]
  · split
    · simp [nvarsB]
    · simp [nvarsB]

theorem mkTerm_nonSum {k : Node} (hk : nonSumN k) (c : Int) : nonSumN (mkTerm k c) := by
  unfold mkTerm
  split
  · exact hk
  · intro ns
    simp

theorem mkTerm_Wf {k : Node} (hn : keyNorm k) (hk : nonSumN k) (c : Int) :
    Wf (mkTerm k c) := by
  apply Wf_of_nonSum (mkTerm_nonSum hk c)
  rw [keyNonSum, splitKey_mkTerm c hn]
  exact hk

theorem num_Wf (k : Int) : Wf (Node.num k) := by
  intro ns
  simp [splitKey, splitTerm]

theorem var_Wf (i : Nat) (lo hi : Int) : Wf (Node.var i lo hi) := by
  intro ns
  simp [splitKey, splitTerm]

theorem fbDiv_Wf (a : Node) (b : Int) : Wf (fbDiv a b) := by
  unfold fbDiv
  split
  · exact num_Wf 0
  · intro ns
    simp [splitKey, splitTerm]

theorem fbMod_Wf {a : Node} (b : Int) (h : Wf a) : Wf (fbMod a b) := by
  unfold fbMod
  split
  · exact h
  · intro ns
    simp [splitKey, splitTerm]

theorem divStep_Wf {a : Node} (b : Int) (h : keyNonSum a) : Wf (divStep a b) := by
  unfold divStep
  split
  · exact num_Wf 0
  · split
    · exact Wf_of_nonSum (nonSum_of_keyNonSum h) h
    · split
      · exact mkTerm_Wf (splitTerm_fst_norm a) h _
      · exact fbDiv_Wf a b

theorem modStep_Wf {a : Node} (b : Int) (h : keyNonSum a) : Wf (modStep a b) := by
  unfold modStep
  split
  · exact Wf_of_nonSum (nonSum_of_keyNonSum h) h
  · split
    · exact num_Wf 0
    · split
      · exact num_Wf 0
      · exact fbMod_Wf b (Wf_of_nonSum (nonSum_of_keyNonSum h) h)

theorem divc_Wf : ∀ (a : Node) (b : Int), Wf a → Wf (Node.divc a b)
  | .num k, b, _ => by
      simp only [Node.divc]
      exact num_Wf _
  | .sumN ns, b, h => by
      simp only [Node.divc]
      split
      · exact num_Wf 0
      · split
        · exact h
        · split
          · exact fbDiv_Wf _ b
          · simp only [Wf] at h
            refine sum_Wf _ ?_
            intro m hm
            rcases List.mem_append.mp hm with hm | hm
            · rcases List.mem_filterMap.mp hm with ⟨t, ht, he⟩
              split at he
              · simp only [Option.some.injEq] at he
                subst he
                exact mkTerm_Wf (splitTerm_fst_norm t) (h.1 t ht) _
              · simp at he
            · simp only [List.mem_singleton] at hm
              subst hm
              exact fbDiv_Wf _ b
  | .var i lo hi, b, h => by rw [Node.divc]; exact divStep_Wf b (by simpa [Wf] using h)
  | .mulN x c, b, h => by rw [Node.divc]; exact divStep_Wf b (by simpa [Wf] using h)
  | .divN x c, b, h => by rw [Node.divc]; exact divStep_Wf b (by simpa [Wf] using h)
  | .modN x c, b, h => by rw [Node.divc]; exact divStep_Wf b (by simpa [Wf] using h)
  | .ltN x c, b, h => by rw [Node.divc]; exact divStep_Wf b (by simpa [Wf] using h)
  | .geN x c, b, h => by rw [Node.divc]; exact divStep_Wf b (by simpa [Wf] using h)
  | .andN ns, b, h => by rw [Node.divc]; exact divStep_Wf b (by simpa [Wf] using h)

theorem modc_Wf : ∀ (a : Node) (b : Int), Wf a → Wf (Node.modc a b)
  | .num k, b, _ => by
      simp only [Node.modc]
      exact num_Wf _
  | .sumN ns, b, h => by
      simp only [Node.modc]
      split
      · exact h
      · split
        · exact num_Wf 0
        · simp only [Wf] at h
          refine fbMod_Wf b (sum_Wf _ ?_)
          intro m hm
          rcases List.mem_map.mp hm with ⟨t, ht, he⟩
          subst he
          exact mkTerm_Wf (splitTerm_fst_norm t) (h.1 t ht) _
  | .var i lo hi, b, h => by rw [Node.modc]; exact modStep_Wf b (by simpa [Wf] using h)
  | .mulN x c, b, h => by rw [Node.modc]; exact modStep_Wf b (by simpa [Wf] using h)
  | .divN x c, b, h => by rw [Node.modc]; exact modStep_Wf b (by simpa [Wf] using h)
  | .modN x c, b, h => by rw [Node.modc]; exact modStep_Wf b (by simpa [Wf] using h)
  | .ltN x c, b, h => by rw [Node.modc]; exact modStep_Wf b (by simpa [Wf] using h)
  | .geN x c, b, h => by rw [Node.modc]; exact modStep_Wf b (by simpa [Wf] using h)
  | .andN ns, b, h => by rw [Node.modc]; exact modStep_Wf b (by simpa [Wf] using h)

/-- Product of a list of dimension sizes. -/
def prodL : List Int → Int
  | [] => 1
  | d :: ds => d * prodL ds

/-- Modelled from the spec: the canonical row-major strides of a shape
(spec section 3). -/
def stridesForShape : List Int → List Int
  | [] => []
  | _ :: t => prodL t :: stridesForShape t

/-- Modelled from the spec: the per-dimension geometry record ("View"
collaborator, spec section 3): shape, strides, base offset and optional
per-dimension `(lo, hi)` valid-range mask.  `View.create` with explicit
fields is the plain constructor. -/
structure View where
  shape : List Int
  strides : List Int
  offset : Int
  mask : Option (List (Int × Int))
deriving DecidableEq

instance : Inhabited View := ⟨⟨[], [], 0, none⟩⟩

/-- Modelled from the spec: contiguity is derived: zero offset, no mask
and canonical row-major strides (spec section 3). -/
def View.contiguous (v : View) : Prop :=
  v.offset = 0 ∧ v.mask = none ∧ v.strides = stridesForShape v.shape

instance (v : View) : Decidable v.contiguous := by
  unfold View.contiguous
  infer_instance

/-- Modelled from the spec: `View.create(shape)` builds the identity view
over a shape (spec section 6). -/
def View.create (shape : List Int) : View := ⟨shape, stridesForShape shape, 0, none⟩

/-- Python truthiness of a mask field (`if vm2.mask:`): present and not
the empty tuple. -/
def maskTruthy (m : Option (List (Int × Int))) : Prop := m ≠ none ∧ m ≠ some []

instance (m : Option (List (Int × Int))) : Decidable (maskTruthy m) := by
  unfold maskTruthy
  infer_instance

/-- Modelled from the spec: `View.pad` (spec sections 4.1 and 8,
scenario B): extends each dimension by `(before, after)`, shifts the
offset so retained positions keep their addresses, and masks the added
positions as invalid. -/
def View.pad (v : View) (arg : List (Int × Int)) : View :=
  ⟨(v.shape.zip arg).map (fun p => p.2.1 + p.1 + p.2.2),
   v.strides,
   v.offset - ((arg.zip v.strides).map (fun p => p.1.1 * p.2)).sum,
   some (match v.mask with
     | none => (v.shape.zip arg).map (fun p => (p.2.1, p.2.1 + p.1))
     | some m => (m.zip arg).map (fun p => (p.2.1 + p.1.1, p.2.1 + p.1.2)))⟩

/-- Modelled from the spec: `View.permute` (spec section 4.1): reorders
shape, strides and mask entries by `axis`; fails the contract (no result)
when `axis` is not a permutation of the dimension indices. -/
def View.permute (v : View) (axis : List Nat) : Option View :=
  if axis.Perm (List.range v.shape.length) then
    some ⟨axis.map (fun i => v.shape.getD i 0),
          axis.map (fun i => v.strides.getD i 0),
          v.offset,
          v.mask.map (fun m => axis.map (fun i => m.getD i (0, 0)))⟩
  else none

/-- Modelled from the spec: `View.size()`, the number of logical
positions of the view (spec section 6). -/
def View.size (v : View) : Int := prodL v.shape

/-- `ShapeTracker` (shapetracker.py line 51): an ordered stack of views,
`views[0]` nearest physical storage, the last view the logical shape. -/
structure ShapeTracker where
  views : List View
deriving DecidableEq

/-- `ShapeTracker.from_shape` (line 65). -/
def ShapeTracker.from_shape (shape : List Int) : ShapeTracker := ⟨[View.create shape]⟩

/-- `ShapeTracker.contiguous` (line 68). -/
def ShapeTracker.contiguous (st : ShapeTracker) : Prop :=
  st.views.length = 1 ∧ (st.views.getD 0 default).contiguous

/-- `ShapeTracker.shape` (line 71): the last view's shape. -/
def ShapeTracker.shape (st : ShapeTracker) : List Int :=
  (st.views.getLast?.map View.shape).getD []

/-- `ShapeTracker.size` (line 74). -/
def ShapeTracker.size (st : ShapeTracker) : Int :=
  (st.views.getLast?.getD default).size

/-- Mask conjuncts of `expr_node_mask` (lines 12-18), iterating the
reversed dims with the accumulated radix. -/
def maskConds : List (Int × (Int × Int)) → Int → Node → List Node
  | [], _, _ => []
  | (d, xy) :: rest, acc, idx =>
      (if xy = (0, d) then [] else
        [Node.gec (Node.modc (Node.divc idx acc) d) xy.1,
         Node.ltc (Node.modc (Node.divc idx acc) d) xy.2]) ++ maskConds rest (acc * d) idx

/-- `expr_node_mask` (shapetracker.py lines 10-19). -/
def expr_node_mask (v : View) (idx : Node) (valid : Option Node) : Node :=
  let expr0 := match valid with
    | some w => [w]
    | none => []
  match v.mask with
  | none => Node.ands expr0
  | some m => Node.ands (expr0 ++ maskConds ((v.shape.zip m).reverse) 1 idx)

/-- Modelled from the spec: `_merge_dims` is a View-side helper absent
from the tracked source; the spec (section 4.3) describes the flat-index
decomposition as plain mixed-radix over the view's dimensions, so it is
modelled as the identity pairing of shape with strides. -/
def mergeDims (shape strides : List Int) : List (Int × Int) := shape.zip strides

/-- Terms of `expr_node` (lines 26-28), one per reversed dim. -/
def nodeTerms : List (Int × Int) → Int → Node → List Node
  | [], _, _ => []
  | (d, s) :: rest, acc, idx =>
      Node.mulc (Node.modc (Node.divc idx acc) d) s :: nodeTerms rest (acc * d) idx

/-- `expr_node` (shapetracker.py lines 22-29). -/
def expr_node (v : View) (idx : Node) : Node :=
  Node.sum ((if v.offset = 0 then [] else [Node.num v.offset]) ++
    nodeTerms ((mergeDims v.shape v.strides).reverse) 1 idx)

/-- `expr_idxs` (shapetracker.py lines 32-34); the rank assertion is
modelled as an Option result. -/
def expr_idxs (v : View) (idxs : List Node) : Option Node :=
  if idxs.length = v.shape.length then
    some (Node.sum (Node.num v.offset ::
      ((idxs.zip (v.shape.zip v.strides)).filterMap
        (fun p => if p.2.1 ≠ 1 ∧ p.2.2 ≠ 0 then some (Node.mulc p.1 p.2.2) else none))))
  else none

/-- Terms of `idxs_to_idx` (lines 48-49): reversed idxs paired with the
accumulated products of the later dimensions. -/
def flatTerms : List Node → List Int → Int → List Node
  | [], _, _ => []
  | i :: is, [], acc => [Node.mulc i acc]
  | i :: is, d :: ds, acc => Node.mulc i acc :: flatTerms is ds (acc * d)

/-- `idxs_to_idx` (shapetracker.py lines 44-49); the rank assertion is
modelled as an Option result. -/
def idxs_to_idx (shape : List Int) (idxs : List Node) : Option Node :=
  if idxs.length = shape.length then
    some (Node.sum (flatTerms idxs.reverse shape.reverse 1))
  else none

/-- The enumerated index variables from position `k`. -/
def varsFrom : Nat → List Int → List Node
  | _, [] => []
  | k, d :: ds => Node.var k 0 (d - 1) :: varsFrom (k + 1) ds

/-- The per-dimension index variables `idx0..idxn` with ranges
`[0, s_i - 1]` (lines 95 and 119). -/
def defaultIdxs (shape : List Int) : List Node := varsFrom 0 shape

/-- `ShapeTracker._expr_idx` (lines 111-116): fold the views below the
last one storage-inward (the argument list is `views[0:-1]` reversed),
short-circuiting once the accumulated validity is statically zero. -/
def exprFold : List View → Node → Node → Node × Node
  | [], idx, valid => (idx, valid)
  | v :: rest, idx, valid =>
      if nmax valid = 0 then (Node.num (-1), valid)
      else exprFold rest (expr_node v idx) (expr_node_mask v idx (some valid))

/-- `ShapeTracker.expr_idxs` (lines 118-122). -/
def ShapeTracker.exprIdxs (st : ShapeTracker) (idxs : List Node) : Option (Node × Node) :=
  match st.views.getLast? with
  | none => none
  | some last =>
      match expr_idxs last idxs, idxs_to_idx last.shape idxs with
      | some idx, some flat =>
          some (exprFold st.views.dropLast.reverse idx (expr_node_mask last flat none))
      | _, _ => none

/-- `ShapeTracker.expr_idxs` with the default variables (line 119). -/
def ShapeTracker.exprIdxsD (st : ShapeTracker) : Option (Node × Node) :=
  st.exprIdxs (defaultIdxs st.shape)

/-- The key part of a summand as destructured by `real_strides`
(line 100). -/
def termKey : Node → Node
  | Node.mulN a _ => a
  | t => t

/-- The coefficient part of a summand as destructured by `real_strides`
(line 100). -/
def termCoeff : Node → Int
  | Node.mulN _ b => b
  | _ => 1

/-- The summands of the offset expression (line 99). -/
def sumTerms : Node → List Node
  | Node.sumN ns => ns
  | e => [e]

/-- One step of the stride-extraction loop of `real_strides`
(lines 99-102). -/
def strideFold (idxs : List Node) :
    List (Option Int) × List Nat → Node → List (Option Int) × List Nat
  | (ret, bad), t =>
      match (idxs.indexOf? (termKey t)) with
      | some j => (ret.set j (some (termCoeff t)), bad)
      | none => (ret, bad ++ nvars (termKey t))

/-- `ShapeTracker.real_strides` (lines 92-107). -/
def ShapeTracker.real_strides (st : ShapeTracker) (ignore_valid : Bool) :
    Option (List (Option Int)) :=
  match st.views.getLast? with
  | none => none
  | some last =>
      if st.views.length = 1 ∧ last.mask = none then some (last.strides.map some)
      else
        match st.exprIdxsD with
        | none => none
        | some (idx, valid) =>
            let idxs := defaultIdxs st.shape
            let fold := (sumTerms idx).foldl (strideFold idxs)
              (List.replicate st.shape.length none, [])
            some ((List.range st.shape.length).map (fun i =>
              if i ∈ fold.2 ∨ (i ∈ nvars valid ∧ ignore_valid = false) then none
              else if ¬ i ∈ nvars idx then some 0
              else fold.1.getD i none))

/-- `ShapeTracker.real_size` (lines 76-81).  Static bounds are concrete
integers in this model, so the reference's iterative `.max` resolution
reaches an integer in zero steps (modelled from the spec, sections 3 and
6: every expression variant exposes static integer bounds). -/
def ShapeTracker.real_size (st : ShapeTracker) : Option Int :=
  if (0 : Int) ∈ st.shape then some 0
  else match st.exprIdxsD with
    | none => none
    | some (idx, _) => some (nmax idx + 1)

/-- `merge_views` (shapetracker.py lines 36-42): `View.create` of the
inner shape, extracted strides, outer offset and inner mask. -/
def merge_views (vm2 vm1 : View) : Option View :=
  if vm1.contiguous ∧ vm1.shape = vm2.shape then some vm2
  else if vm2.contiguous then some vm1
  else if maskTruthy vm2.mask ∨ vm1.offset ≠ 0 then none
  else
    match (ShapeTracker.mk [vm2, vm1]).real_strides false with
    | none => none
    | some strides =>
        if (none : Option Int) ∈ strides then none
        else some ⟨vm1.shape, strides.map (fun s => s.getD 0), vm2.offset, vm1.mask⟩

/-- `ShapeTracker.simplify` (lines 132-135). -/
def ShapeTracker.simplify (st : ShapeTracker) : ShapeTracker :=
  if h : 2 ≤ st.views.length then
    match merge_views (st.views.getD (st.views.length - 2) default)
        (st.views.getD (st.views.length - 1) default) with
    | some nv => ShapeTracker.simplify ⟨st.views.dropLast.dropLast ++ [nv]⟩
    | none => st
  else st
termination_by st.views.length
decreasing_by
  simp only [List.length_append, List.length_dropLast, List.length_cons, List.length_nil]
  omega

/-- `ShapeTracker.__add__` (lines 55-58): append the other tracker's
views one at a time, simplifying after every single append. -/
def ShapeTracker.add (a b : ShapeTracker) : ShapeTracker :=
  b.views.foldl (fun ret v => (ShapeTracker.mk (ret.views ++ [v])).simplify) a

/-- `ShapeTracker.pad` (line 139). -/
def ShapeTracker.pad (st : ShapeTracker) (arg : List (Int × Int)) : ShapeTracker :=
  ⟨st.views.dropLast ++ [(st.views.getLast?.getD default).pad arg]⟩

/-- `ShapeTracker.permute` (line 142); the View-side contract failure is
propagated as no result. -/
def ShapeTracker.permute (st : ShapeTracker) (axis : List Nat) : Option ShapeTracker :=
  match (st.views.getLast?.getD default).permute axis with
  | none => none
  | some v => some ⟨st.views.dropLast ++ [v]⟩

/-- Valuation of the index variables from a concrete index list. -/
def listRho (xs : List Int) : Nat → Int := fun i => xs.getD i 0

/-- Componentwise range check of an index list against a shape. -/
def inRangeB : List Int → List Int → Bool
  | [], [] => true
  | x :: xs, d :: ds => decide (0 ≤ x) && decide (x < d) && inRangeB xs ds
  | _, _ => false

/-- Row-major flattening of a per-dimension index list. -/
def flattenIdx : List Int → List Int → Int
  | x :: xs, d :: ds => x * prodL ds + flattenIdx xs ds
  | _, _ => 0

/-- Dot product of an index list with a stride list. -/
def dotL : List Int → List Int → Int
  | x :: xs, s :: ss => x * s + dotL xs ss
  | _, _ => 0

/-- Semantic address contribution of a view's dimensions: mixed-radix
decomposition of a flat index, weighted by the strides. -/
def addrSem : List Int → List Int → Int → Int
  | d :: ds, s :: ss, a => a / prodL ds % d * s + addrSem ds ss a
  | _, _, _ => 0

/-- Semantic address of a view at a flat index. -/
def semAddr (v : View) (a : Int) : Int := v.offset + addrSem v.shape v.strides a

/-- Semantic mask check of a view's dimensions at a flat index. -/
def maskSem : List Int → List (Int × Int) → Int → Bool
  | d :: ds, xy :: ms, a =>
      (if xy = (0, d) then true
       else decide (xy.1 ≤ a / prodL ds % d) && decide (a / prodL ds % d < xy.2))
      && maskSem ds ms a
  | _, _, _ => true

/-- Semantic validity of a view at a flat index. -/
def semMask (v : View) (a : Int) : Bool :=
  match v.mask with
  | none => true
  | some m => maskSem v.shape m a

/-- The spec's structural invariant on a view (section 3): strides and
mask have the same rank as the shape. -/
def ViewWF (v : View) : Prop :=
  v.strides.length = v.shape.length ∧ ∀ m, v.mask = some m → m.length = v.shape.length

theorem inRangeB_lengths : ∀ {xs ds : List Int}, inRangeB xs ds = true →
    xs.length = ds.length
  | [], [], _ => rfl
  | x :: xs, d :: ds, h => by
      simp only [inRangeB, Bool.and_eq_true] at h
      simpa [List.length_cons] using inRangeB_lengths h.2
  | [], _ :: _, h => by simp [inRangeB] at h
  | _ :: _, [], h => by simp [inRangeB] at h

theorem inRangeB_dims_pos : ∀ {xs ds : List Int}, inRangeB xs ds = true →
    ∀ d ∈ ds, 0 < d
  | [], [], _ => by simp
  | x :: xs, d :: ds, h => by
      simp only [inRangeB, Bool.and_eq_true, decide_eq_true_eq] at h
      intro d' hd'
      rcases List.mem_cons.mp hd' with hd' | hd'
      · subst hd'; omega
      · exact inRangeB_dims_pos h.2 d' hd'
  | [], _ :: _, h => by simp [inRangeB] at h
  | _ :: _, [], h => by simp [inRangeB] at h

theorem prodL_pos : ∀ {ds : List Int}, (∀ d ∈ ds, 0 < d) → 0 < prodL ds
  | [], _ => by simp [prodL]
  | d :: ds, h => by
      simp only [prodL]
      have h1 : 0 < d := h d (by simp)
      have h2 : 0 < prodL ds := prodL_pos (fun x hx => h x (by simp [hx]))
      positivity

theorem prodL_nonneg : ∀ {ds : List Int}, (∀ d ∈ ds, 0 < d) → 0 ≤ prodL ds :=
  fun h => le_of_lt (prodL_pos h)

theorem flattenIdx_range : ∀ {xs ds : List Int}, inRangeB xs ds = true →
    0 ≤ flattenIdx xs ds ∧ flattenIdx xs ds < prodL ds
  | [], [], _ => by simp [flattenIdx, prodL]
  | x :: xs, d :: ds, h => by
      simp only [inRangeB, Bool.and_eq_true, decide_eq_true_eq] at h
      have ih := flattenIdx_range h.2
      have hpos : 0 < prodL ds := prodL_pos (inRangeB_dims_pos h.2)
      simp only [flattenIdx, prodL]
      constructor
      · have : 0 ≤ x * prodL ds := mul_nonneg h.1.1 (le_of_lt hpos)
        omega
      · have hx : x ≤ d - 1 := by omega
        have : x * prodL ds ≤ (d - 1) * prodL ds :=
          mul_le_mul_of_nonneg_right hx (le_of_lt hpos)
        nlinarith [ih.1, ih.2]
  | [], _ :: _, h => by simp [inRangeB] at h
  | _ :: _, [], h => by simp [inRangeB] at h

theorem decompL0 {a P d : Int} (hP : 0 < P) (hd : 0 < d) :
    a % (d * P) = a / P % d * P + a % P := by
  have h1 : a = a / P % d * P + a % P + d * P * (a / P / d) := by
    have e1 : a % P + P * (a / P) = a := Int.emod_add_ediv a P
    have e2 : a / P % d + d * (a / P / d) = a / P := Int.emod_add_ediv (a / P) d
    calc a = a % P + P * (a / P) := e1.symm
      _ = a % P + P * (a / P % d + d * (a / P / d)) := by rw [e2]
      _ = a / P % d * P + a % P + d * P * (a / P / d) := by ring
  have h2 : 0 ≤ a / P % d * P + a % P := by
    have hm1 : 0 ≤ a / P % d := Int.emod_nonneg _ (by omega)
    have hm2 : 0 ≤ a % P := Int.emod_nonneg _ (by omega)
    have : 0 ≤ a / P % d * P := mul_nonneg hm1 (le_of_lt hP)
    omega
  have h3 : a / P % d * P + a % P < d * P := by
    have hm1 : a / P % d < d := Int.emod_lt_of_pos _ hd
    have hm2 : a % P < P := Int.emod_lt_of_pos _ hP
    have hm3 : a / P % d ≤ d - 1 := by omega
    have : a / P % d * P ≤ (d - 1) * P := mul_le_mul_of_nonneg_right hm3 (le_of_lt hP)
    nlinarith
  calc a % (d * P) = (a / P % d * P + a % P + d * P * (a / P / d)) % (d * P) := by rw [← h1]
    _ = (a / P % d * P + a % P) % (d * P) := by
        rw [Int.add_mul_emod_self_left]
    _ = a / P % d * P + a % P := Int.emod_eq_of_lt h2 h3

theorem addrSem_period : ∀ (ds ss : List Int) (a q : Int), (∀ d ∈ ds, 0 < d) →
    addrSem ds ss (q * prodL ds + a) = addrSem ds ss a
  | [], ss, a, q, _ => by cases ss <;> simp [addrSem]
  | d :: ds, [], a, q, _ => by simp [addrSem]
  | d :: ds, s :: ss, a, q, h => by
      have hd : 0 < d := h d (by simp)
      have hP : 0 < prodL ds := prodL_pos (fun x hx => h x (by simp [hx]))
      simp only [addrSem, prodL]
      have e1 : q * (d * prodL ds) + a = a + (q * d) * prodL ds := by ring
      rw [e1, Int.add_mul_ediv_right _ _ (by omega : prodL ds ≠ 0)]
      have e2 : (a / prodL ds + q * d) % d = a / prodL ds % d := by
        have : a / prodL ds + q * d = a / prodL ds + d * q := by ring
        rw [this, Int.add_mul_emod_self_left]
      rw [e2]
      have e3 : a + q * d * prodL ds = (q * d) * prodL ds + a := by ring
      rw [e3, addrSem_period ds ss a (q * d) (fun x hx => h x (by simp [hx]))]

theorem addrSem_flatten : ∀ (ds ss xs : List Int), inRangeB xs ds = true →
    addrSem ds ss (flattenIdx xs ds) = dotL xs ss
  | [], ss, xs, h => by
      have := inRangeB_lengths h
      cases xs
      · cases ss <;> simp [addrSem, dotL]
      · simp at this
  | d :: ds, [], xs, h => by
      cases xs
      · simp [inRangeB] at h
      · simp [addrSem, dotL]
  | d :: ds, s :: ss, xs, h => by
      cases xs with
      | nil => simp [inRangeB] at h
      | cons x xs' =>
          simp only [inRangeB, Bool.and_eq_true, decide_eq_true_eq] at h
          have hpos : 0 < prodL ds := prodL_pos (inRangeB_dims_pos h.2)
          have hr := flattenIdx_range h.2
          simp only [addrSem, flattenIdx, dotL]
          have e1 : x * prodL ds + flattenIdx xs' ds
              = flattenIdx xs' ds + x * prodL ds := by ring
          rw [e1, Int.add_mul_ediv_right _ _ (by omega : prodL ds ≠ 0),
              Int.ediv_eq_zero_of_lt hr.1 hr.2]
          have e2 : (0 + x) % d = x := by
            rw [zero_add]
            exact Int.emod_eq_of_lt h.1.1 h.1.2
          rw [e2]
          have e3 : flattenIdx xs' ds + x * prodL ds = x * prodL ds + flattenIdx xs' ds := by
            ring
          rw [e3, addrSem_period ds ss _ x (inRangeB_dims_pos h.2),
              addrSem_flatten ds ss xs' h.2]

theorem addrSem_recompose : ∀ (ds : List Int) (a : Int), (∀ d ∈ ds, 0 < d) → 0 ≤ a →
    addrSem ds (stridesForShape ds) a = a % prodL ds
  | [], a, _, ha => by
      simp [addrSem, prodL, Int.emod_one]
  | d :: ds, a, h, ha => by
      have hd : 0 < d := h d (by simp)
      have hP : 0 < prodL ds := prodL_pos (fun x hx => h x (by simp [hx]))
      simp only [addrSem, stridesForShape, prodL]
      rw [addrSem_recompose ds a (fun x hx => h x (by simp [hx])) ha]
      exact (decompL0 hP hd).symm

/-- Valuation bounds for the enumerated variables of a shape. -/
def RhoBounds (ρ : Nat → Int) : Nat → List Int → Prop
  | _, [] => True
  | k, d :: ds => (0 ≤ ρ k ∧ ρ k ≤ d - 1) ∧ RhoBounds ρ (k + 1) ds

/-- Flat row-major value of the enumerated variables of a shape. -/
def flatFrom (ρ : Nat → Int) : Nat → List Int → Int
  | _, [] => 0
  | k, d :: ds => ρ k * prodL ds + flatFrom ρ (k + 1) ds

/-- Dot product of the enumerated variables with a stride list. -/
def dotFrom (ρ : Nat → Int) : Nat → List Int → List Int → Int
  | k, d :: ds, s :: ss => ρ k * s + dotFrom ρ (k + 1) ds ss
  | _, _, _ => 0

theorem varsFrom_length : ∀ (k : Nat) (ds : List Int), (varsFrom k ds).length = ds.length
  | _, [] => rfl
  | k, d :: ds => by simp [varsFrom, varsFrom_length (k + 1) ds]

theorem nvarsBL_varsFrom : ∀ (k : Nat) (ds : List Int),
    nvarsBL (varsFrom k ds) = (varsFrom k ds).map
      (fun t => match t with | Node.var i lo hi => (i, lo, hi) | _ => (0, 0, 0))
  | _, [] => rfl
  | k, d :: ds => by
      simp [varsFrom, nvarsBL, nvarsB, nvarsBL_varsFrom (k + 1) ds]

theorem InBL_varsFrom : ∀ {ρ : Nat → Int} (k : Nat) (ds : List Int),
    InBL ρ (varsFrom k ds) ↔ RhoBounds ρ k ds
  | ρ, _, [] => by
      constructor
      · intro _
        trivial
      · intro _
        exact InBL_nil
  | ρ, k, d :: ds => by
      simp only [varsFrom, InBL_cons, RhoBounds, InBL_varsFrom (k + 1) ds]
      constructor
      · rintro ⟨h1, h2⟩
        exact ⟨h1 (k, 0, d - 1) (by simp [nvarsB]), h2⟩
      · rintro ⟨h1, h2⟩
        refine ⟨?_, h2⟩
        intro p hp
        simp only [nvarsB, List.mem_singleton] at hp
        subst hp
        exact h1

theorem RhoBounds_dims_pos : ∀ {ρ : Nat → Int} {k : Nat} {ds : List Int},
    RhoBounds ρ k ds → ∀ d ∈ ds, 0 < d
  | ρ, k, [], _, d, hd => by simp at hd
  | ρ, k, d0 :: ds, h, d, hd => by
      rcases List.mem_cons.mp hd with hd | hd
      · subst hd
        rcases h.1 with ⟨h1, h2⟩
        omega
      · exact RhoBounds_dims_pos h.2 d hd

theorem flatFrom_range : ∀ {ρ : Nat → Int} {k : Nat} {ds : List Int},
    RhoBounds ρ k ds → 0 ≤ flatFrom ρ k ds ∧ flatFrom ρ k ds < prodL ds
  | ρ, k, [], _ => by simp [flatFrom, prodL]
  | ρ, k, d :: ds, h => by
      have ih := flatFrom_range h.2
      have hpos : 0 < prodL ds := prodL_pos (RhoBounds_dims_pos h.2)
      rcases h.1 with ⟨h1, h2⟩
      simp only [flatFrom, prodL]
      constructor
      · have : 0 ≤ ρ k * prodL ds := mul_nonneg h1 (le_of_lt hpos)
        omega
      · have : ρ k * prodL ds ≤ (d - 1) * prodL ds :=
          mul_le_mul_of_nonneg_right h2 (le_of_lt hpos)
        nlinarith [ih.1, ih.2]

theorem addrSem_flatFrom : ∀ (ds ss : List Int) {ρ : Nat → Int} (k : Nat),
    RhoBounds ρ k ds → addrSem ds ss (flatFrom ρ k ds) = dotFrom ρ k ds ss
  | [], ss, ρ, k, _ => by cases ss <;> simp [addrSem, dotFrom, flatFrom]
  | d :: ds, [], ρ, k, h => by simp [addrSem, dotFrom]
  | d :: ds, s :: ss, ρ, k, h => by
      have hpos : 0 < prodL ds := prodL_pos (RhoBounds_dims_pos h.2)
      have hr := flatFrom_range h.2
      rcases h.1 with ⟨h1, h2⟩
      simp only [addrSem, flatFrom, dotFrom]
      have e1 : ρ k * prodL ds + flatFrom ρ (k + 1) ds
          = flatFrom ρ (k + 1) ds + ρ k * prodL ds := by ring
      rw [e1, Int.add_mul_ediv_right _ _ (by omega : prodL ds ≠ 0),
          Int.ediv_eq_zero_of_lt hr.1 hr.2]
      have e2 : (0 + ρ k) % d = ρ k := by
        rw [zero_add]
        exact Int.emod_eq_of_lt h1 (by omega)
      rw [e2]
      have e3 : flatFrom ρ (k + 1) ds + ρ k * prodL ds
          = ρ k * prodL ds + flatFrom ρ (k + 1) ds := by ring
      rw [e3, addrSem_period ds ss _ (ρ k) (RhoBounds_dims_pos h.2),
          addrSem_flatFrom ds ss (k + 1) h.2]

theorem prodL_append : ∀ (l1 l2 : List Int), prodL (l1 ++ l2) = prodL l1 * prodL l2
  | [], l2 => by simp [prodL]
  | d :: l1, l2 => by
      have : prodL ((d :: l1) ++ l2) = d * prodL (l1 ++ l2) := rfl
      rw [this, prodL_append l1 l2]
      simp only [prodL]
      ring

theorem prodL_reverse : ∀ l : List Int, prodL l.reverse = prodL l
  | [] => rfl
  | d :: l => by
      simp only [List.reverse_cons, prodL_append, prodL, prodL_reverse l]
      ring

theorem nodeTerms_append : ∀ (l1 l2 : List (Int × Int)) (acc : Int) (idx : Node),
    nodeTerms (l1 ++ l2) acc idx =
      nodeTerms l1 acc idx ++ nodeTerms l2 (acc * prodL (l1.map Prod.fst)) idx
  | [], l2, acc, idx => by simp [nodeTerms, prodL]
  | (d, s) :: l1, l2, acc, idx => by
      have e0 : nodeTerms (((d, s) :: l1) ++ l2) acc idx
          = Node.mulc (Node.modc (Node.divc idx acc) d) s ::
              nodeTerms (l1 ++ l2) (acc * d) idx := rfl
      rw [e0, nodeTerms_append l1 l2 (acc * d) idx]
      simp only [nodeTerms, List.map_cons, prodL, List.cons_append]
      have e : acc * d * prodL (l1.map Prod.fst) = acc * (d * prodL (l1.map Prod.fst)) := by
        ring
      rw [e]

theorem nodeTerms_rev_eval (ρ : Nat → Int) (idx : Node) (h : InB ρ idx) :
    ∀ (ds ss : List Int), ss.length = ds.length →
    sumEval ρ (nodeTerms ((ds.zip ss).reverse) 1 idx) = addrSem ds ss (evalN ρ idx) := by
  intro ds
  induction ds with
  | nil => intro ss hlen; cases ss <;> simp_all [nodeTerms, addrSem, sumEval]
  | cons d ds ih =>
      intro ss hlen
      cases ss with
      | nil => simp at hlen
      | cons s ss =>
          simp only [List.length_cons] at hlen
          have hlen' : ss.length = ds.length := by omega
          simp only [List.zip_cons_cons, List.reverse_cons]
          rw [nodeTerms_append]
          rw [sumEval_append]
          have hmap : (ds.zip ss).reverse.map Prod.fst = ds.reverse := by
            rw [List.map_reverse, List.map_fst_zip ds ss (by omega)]
          rw [hmap, prodL_reverse, ih ss hlen']
          have hone : (1 : Int) * prodL ds = prodL ds := one_mul _
          rw [hone]
          have hterm : sumEval ρ (nodeTerms [(d, s)] (prodL ds) idx)
              = evalN ρ idx / prodL ds % d * s := by
            simp only [nodeTerms, sumEval]
            have hin2 : InB ρ (Node.divc idx (prodL ds)) :=
              InB_of_subset (divc_varsB idx (prodL ds)) h
            rw [mulc_eval, modc_eval ρ _ d hin2, divc_eval ρ idx (prodL ds) h]
            ring
          rw [hterm]
          simp only [addrSem]
          ring

theorem flatTerms_append : ∀ (i1 : List Node) (d1 : List Int) (i2 : List Node)
    (d2 : List Int) (acc : Int), i1.length = d1.length →
    flatTerms (i1 ++ i2) (d1 ++ d2) acc =
      flatTerms i1 d1 acc ++ flatTerms i2 d2 (acc * prodL d1)
  | [], [], i2, d2, acc, _ => by simp [flatTerms, prodL]
  | i :: i1, d :: d1, i2, d2, acc, hlen => by
      simp only [List.length_cons] at hlen
      have e0 : flatTerms ((i :: i1) ++ i2) ((d :: d1) ++ d2) acc
          = Node.mulc i acc :: flatTerms (i1 ++ i2) (d1 ++ d2) (acc * d) := rfl
      rw [e0, flatTerms_append i1 d1 i2 d2 (acc * d) (by omega)]
      simp only [flatTerms, prodL, List.cons_append]
      have e : acc * d * prodL d1 = acc * (d * prodL d1) := by ring
      rw [e]
  | [], _ :: _, _, _, _, hlen => by simp at hlen
  | _ :: _, [], _, _, _, hlen => by simp at hlen

theorem flatTerms_rev_eval (ρ : Nat → Int) : ∀ (ds : List Int) (k : Nat),
    sumEval ρ (flatTerms (varsFrom k ds).reverse ds.reverse 1) = flatFrom ρ k ds
  | [], k => by simp [varsFrom, flatTerms, flatFrom, sumEval]
  | d :: ds, k => by
      simp only [varsFrom, List.reverse_cons]
      rw [flatTerms_append _ _ _ _ 1 (by simp [varsFrom_length])]
      rw [sumEval_append, flatTerms_rev_eval ρ ds (k + 1)]
      simp only [flatTerms, sumEval, prodL_reverse, one_mul]
      rw [mulc_eval]
      simp only [evalN, flatFrom]
      ring

theorem ltc_BoolLike (a : Node) (b : Int) : BoolLike (Node.ltc a b) := by
  intro ρ
  unfold Node.ltc
  split
  · simp [evalN]
  · split
    · simp [evalN]
    · simp only [evalN]
      split <;> simp

theorem gec_BoolLike (a : Node) (b : Int) : BoolLike (Node.gec a b) := by
  intro ρ
  unfold Node.gec
  split
  · simp [evalN]
  · split
    · simp [evalN]
    · simp only [evalN]
      split <;> simp

theorem maskConds_BoolLike : ∀ (l : List (Int × (Int × Int))) (acc : Int) (idx : Node),
    ∀ c ∈ maskConds l acc idx, BoolLike c
  | [], _, _, c, hc => by simp [maskConds] at hc
  | (d, xy) :: rest, acc, idx, c, hc => by
      simp only [maskConds] at hc
      rcases List.mem_append.mp hc with hc | hc
      · split at hc
        · simp at hc
        · simp only [List.mem_cons, List.mem_singleton] at hc
          rcases hc with hc | hc | hc
          · subst hc; exact gec_BoolLike _ _
          · subst hc; exact ltc_BoolLike _ _
          · simp at hc
      · exact maskConds_BoolLike rest (acc * d) idx c hc

theorem maskConds_varsB : ∀ (l : List (Int × (Int × Int))) (acc : Int) (idx : Node),
    nvarsBL (maskConds l acc idx) ⊆ nvarsB idx
  | [], _, _ => by simp [maskConds, nvarsBL]
  | (d, xy) :: rest, acc, idx => by
      simp only [maskConds]
      intro p hp
      rw [nvarsBL_append] at hp
      rcases List.mem_append.mp hp with hp | hp
      · split at hp
        · simp [nvarsBL] at hp
        · simp only [nvarsBL, List.append_nil, List.mem_append] at hp
          rcases hp with hp | hp
          · exact divc_varsB idx acc (modc_varsB _ d (gec_varsB _ _ hp))
          · exact divc_varsB idx acc (modc_varsB _ d (ltc_varsB _ _ hp))
      · exact maskConds_varsB rest (acc * d) idx hp

theorem maskConds_append : ∀ (l1 l2 : List (Int × (Int × Int))) (acc : Int) (idx : Node),
    maskConds (l1 ++ l2) acc idx =
      maskConds l1 acc idx ++ maskConds l2 (acc * prodL (l1.map Prod.fst)) idx
  | [], l2, acc, idx => by simp [maskConds, prodL]
  | (d, xy) :: l1, l2, acc, idx => by
      have e0 : maskConds (((d, xy) :: l1) ++ l2) acc idx
          = (if xy = (0, d) then [] else
              [Node.gec (Node.modc (Node.divc idx acc) d) xy.1,
               Node.ltc (Node.modc (Node.divc idx acc) d) xy.2]) ++
            maskConds (l1 ++ l2) (acc * d) idx := rfl
      rw [e0, maskConds_append l1 l2 (acc * d) idx]
      simp only [maskConds, List.map_cons, prodL, List.append_assoc]
      have e : acc * d * prodL (l1.map Prod.fst) = acc * (d * prodL (l1.map Prod.fst)) := by
        ring
      rw [e]

theorem maskConds_rev_iff (ρ : Nat → Int) (idx : Node) (h : InB ρ idx) :
    ∀ (ds : List Int) (m : List (Int × Int)), m.length = ds.length →
    ((∀ c ∈ maskConds ((ds.zip m).reverse) 1 idx, evalN ρ c ≠ 0) ↔
      maskSem ds m (evalN ρ idx) = true) := by
  intro ds
  induction ds with
  | nil => intro m hlen; cases m <;> simp_all [maskConds, maskSem]
  | cons d ds ih =>
      intro m hlen
      cases m with
      | nil => simp at hlen
      | cons xy m =>
          simp only [List.length_cons] at hlen
          simp only [List.zip_cons_cons, List.reverse_cons]
          rw [maskConds_append]
          have hmap : (ds.zip m).reverse.map Prod.fst = ds.reverse := by
            rw [List.map_reverse, List.map_fst_zip ds m (by omega)]
          rw [hmap, prodL_reverse]
          constructor
          · intro hall
            have h1 : ∀ c ∈ maskConds ((ds.zip m).reverse) 1 idx, evalN ρ c ≠ 0 :=
              fun c hc => hall c (List.mem_append.mpr (Or.inl hc))
            have h2 : ∀ c ∈ maskConds [(d, xy)] (1 * prodL ds) idx, evalN ρ c ≠ 0 :=
              fun c hc => hall c (List.mem_append.mpr (Or.inr hc))
            simp only [maskSem, Bool.and_eq_true]
            refine ⟨?_, (ih m (by omega)).mp h1⟩
            simp only [maskConds, List.append_nil, one_mul] at h2
            split
            · rfl
            · rename_i hxy
              rw [if_neg hxy] at h2
              have hg := h2 (Node.gec (Node.modc (Node.divc idx (prodL ds)) d) xy.1)
                (by simp)
              have hl := h2 (Node.ltc (Node.modc (Node.divc idx (prodL ds)) d) xy.2)
                (by simp)
              have hin2 : InB ρ (Node.divc idx (prodL ds)) :=
                InB_of_subset (divc_varsB idx (prodL ds)) h
              have hinm : InB ρ (Node.modc (Node.divc idx (prodL ds)) d) :=
                InB_of_subset (modc_varsB _ d) hin2
              rw [gec_eval ρ _ _ hinm] at hg
              rw [ltc_eval ρ _ _ hinm] at hl
              rw [modc_eval ρ _ d hin2, divc_eval ρ idx (prodL ds) h] at hg hl
              simp only [Bool.and_eq_true, decide_eq_true_eq]
              constructor
              · by_contra hco
                simp [hco] at hg
              · by_contra hco
                simp [hco] at hl
          · intro hsem c hc
            simp only [maskSem, Bool.and_eq_true] at hsem
            rcases List.mem_append.mp hc with hc | hc
            · exact ((ih m (by omega)).mpr hsem.2) c hc
            · simp only [maskConds, List.append_nil, one_mul] at hc
              split at hc
              · simp at hc
              · rename_i hxy
                have hin2 : InB ρ (Node.divc idx (prodL ds)) :=
                  InB_of_subset (divc_varsB idx (prodL ds)) h
                have hinm : InB ρ (Node.modc (Node.divc idx (prodL ds)) d) :=
                  InB_of_subset (modc_varsB _ d) hin2
                have hsem1 := hsem.1
                rw [if_neg hxy] at hsem1
                simp only [Bool.and_eq_true, decide_eq_true_eq] at hsem1
                simp only [List.mem_cons, List.mem_singleton] at hc
                rcases hc with hc | hc | hc
                · subst hc
                  rw [gec_eval ρ _ _ hinm, modc_eval ρ _ d hin2,
                      divc_eval ρ idx (prodL ds) h]
                  simp [hsem1.1]
                · subst hc
                  rw [ltc_eval ρ _ _ hinm, modc_eval ρ _ d hin2,
                      divc_eval ρ idx (prodL ds) h]
                  simp [hsem1.2]
                · simp at hc

theorem expr_node_eval (ρ : Nat → Int) (v : View) (idx : Node) (h : InB ρ idx)
    (hlen : v.strides.length = v.shape.length) :
    evalN ρ (expr_node v idx) = semAddr v (evalN ρ idx) := by
  unfold expr_node semAddr mergeDims
  rw [sum_eval, sumEval_append, nodeTerms_rev_eval ρ idx h v.shape v.strides hlen]
  split
  · rename_i h0
    simp [sumEval, h0]
  · simp [sumEval, evalN]

theorem nodeTerms_varsB : ∀ (l : List (Int × Int)) (acc : Int) (idx : Node),
    nvarsBL (nodeTerms l acc idx) ⊆ nvarsB idx
  | [], _, _ => by simp [nodeTerms, nvarsBL]
  | (d, s) :: rest, acc, idx => by
      simp only [nodeTerms, nvarsBL]
      intro p hp
      rcases List.mem_append.mp hp with hp | hp
      · exact divc_varsB idx acc (modc_varsB _ d (mulc_varsB _ s hp))
      · exact nodeTerms_varsB rest (acc * d) idx hp

theorem expr_node_varsB (v : View) (idx : Node) :
    nvarsB (expr_node v idx) ⊆ nvarsB idx := by
  unfold expr_node
  intro p hp
  have h1 := sum_varsB _ hp
  rw [nvarsBL_append] at h1
  rcases List.mem_append.mp h1 with h1 | h1
  · split at h1 <;> simp [nvarsBL, nvarsB] at h1
  · exact nodeTerms_varsB _ 1 idx h1

theorem nodeTerms_Wf : ∀ (l : List (Int × Int)) (acc : Int) (idx : Node), Wf idx →
    ∀ t ∈ nodeTerms l acc idx, Wf t
  | [], _, _, _, t, ht => by simp [nodeTerms] at ht
  | (d, s) :: rest, acc, idx, h, t, ht => by
      simp only [nodeTerms, List.mem_cons] at ht
      rcases ht with ht | ht
      · subst ht
        exact mulc_Wf _ s (modc_Wf _ d (divc_Wf idx acc h))
      · exact nodeTerms_Wf rest (acc * d) idx h t ht

theorem expr_node_Wf (v : View) (idx : Node) (h : Wf idx) : Wf (expr_node v idx) := by
  unfold expr_node
  apply sum_Wf
  intro t ht
  rcases List.mem_append.mp ht with ht | ht
  · split at ht
    · simp at ht
    · simp only [List.mem_singleton] at ht
      subst ht
      exact num_Wf _
  · exact nodeTerms_Wf _ 1 idx h t ht

theorem expr_node_mask_iff (ρ : Nat → Int) (v : View) (idx : Node) (w : Option Node)
    (h : InB ρ idx) (hw : ∀ x, w = some x → InB ρ x)
    (hm : ∀ m, v.mask = some m → m.length = v.shape.length) :
    (evalN ρ (expr_node_mask v idx w) ≠ 0 ↔
      ((∀ x, w = some x → evalN ρ x ≠ 0) ∧ semMask v (evalN ρ idx) = true)) := by
  unfold expr_node_mask semMask
  cases hv : v.mask with
  | none =>
      cases w with
      | none =>
          simp only []
          rw [ands_eval ρ [] InBL_nil]
          simp
      | some x =>
          simp only []
          rw [ands_eval ρ [x] (InBL_cons.mpr ⟨hw x rfl, InBL_nil⟩)]
          simp
  | some m =>
      have hml := hm m hv
      have hconds : InBL ρ (maskConds ((v.shape.zip m).reverse) 1 idx) :=
        fun p hp => h p (maskConds_varsB _ 1 idx hp)
      cases w with
      | none =>
          simp only []
          rw [ands_eval ρ _ (by simpa using hconds)]
          simp only [List.nil_append]
          rw [maskConds_rev_iff ρ idx h v.shape m hml]
          simp
      | some x =>
          simp only []
          have hin : InBL ρ ([x] ++ maskConds ((v.shape.zip m).reverse) 1 idx) := by
            intro p hp
            rw [nvarsBL_append] at hp
            rcases List.mem_append.mp hp with hp | hp
            · exact hw x rfl p (by simpa [nvarsBL] using hp)
            · exact hconds p hp
          rw [ands_eval ρ _ hin]
          constructor
          · intro hall
            refine ⟨?_, ?_⟩
            · intro y hy
              injection hy with hy'
              rw [← hy']
              exact hall x (by simp)
            · rw [← maskConds_rev_iff ρ idx h v.shape m hml]
              intro c hc
              exact hall c (by simp [hc])
          · rintro ⟨h1, h2⟩ c hc
            simp only [List.cons_append, List.mem_cons, List.nil_append] at hc
            rcases hc with hc | hc
            · rw [hc]
              exact h1 x rfl
            · exact (maskConds_rev_iff ρ idx h v.shape m hml).mpr h2 c hc

theorem expr_node_mask_BoolLike (v : View) (idx : Node) (w : Option Node)
    (hw : ∀ x, w = some x → BoolLike x) : BoolLike (expr_node_mask v idx w) := by
  unfold expr_node_mask
  cases w with
  | none =>
      cases v.mask with
      | none =>
          apply ands_BoolLike
          intro x hx
          simp at hx
      | some m =>
          apply ands_BoolLike
          intro x hx
          simp only [List.nil_append] at hx
          exact maskConds_BoolLike _ 1 idx x hx
  | some y =>
      cases v.mask with
      | none =>
          apply ands_BoolLike
          intro x hx
          simp only [List.mem_singleton] at hx
          subst hx
          exact hw x rfl
      | some m =>
          apply ands_BoolLike
          intro x hx
          simp only [List.cons_append, List.mem_cons, List.nil_append] at hx
          rcases hx with hx | hx
          · subst hx
            exact hw x rfl
          · exact maskConds_BoolLike _ 1 idx x hx

theorem expr_node_mask_varsB (v : View) (idx : Node) (w : Option Node) :
    nvarsB (expr_node_mask v idx w) ⊆
      (match w with | some x => nvarsB x | none => []) ++ nvarsB idx := by
  unfold expr_node_mask
  cases v.mask with
  | none =>
      intro p hp
      have h1 := ands_varsB _ hp
      cases w with
      | none => simp [nvarsBL] at h1
      | some x =>
          simp only [nvarsBL, List.append_nil] at h1
          simp [h1]
  | some m =>
      intro p hp
      have h1 := ands_varsB _ hp
      cases w with
      | none =>
          simp only [List.nil_append] at h1
          have := maskConds_varsB _ 1 idx h1
          simp [this]
      | some x =>
          rw [nvarsBL_append] at h1
          rcases List.mem_append.mp h1 with h1 | h1
          · simp only [nvarsBL, List.append_nil] at h1
            simp [h1]
          · have := maskConds_varsB _ 1 idx h1
            simp [this]

theorem exprIdxsTerms_eval (ρ : Nat → Int) : ∀ (ds ss : List Int) (k : Nat),
    RhoBounds ρ k ds →
    sumEval ρ (((varsFrom k ds).zip (ds.zip ss)).filterMap
      (fun p => if p.2.1 ≠ 1 ∧ p.2.2 ≠ 0 then some (Node.mulc p.1 p.2.2) else none))
      = dotFrom ρ k ds ss
  | [], ss, k, _ => by simp [varsFrom, dotFrom, sumEval]
  | d :: ds, [], k, h => by simp [varsFrom, dotFrom, sumEval]
  | d :: ds, s :: ss, k, h => by
      simp only [varsFrom, List.zip_cons_cons]
      by_cases hcond : d ≠ 1 ∧ s ≠ 0
      · simp only [List.filterMap_cons, if_pos hcond]
        simp only [sumEval, mulc_eval, evalN, dotFrom]
        rw [exprIdxsTerms_eval ρ ds ss (k + 1) h.2]
      · simp only [List.filterMap_cons, if_neg hcond]
        rw [exprIdxsTerms_eval ρ ds ss (k + 1) h.2]
        simp only [dotFrom]
        have hz : ρ k * s = 0 := by
          rcases not_and_or.mp hcond with hc | hc
          · have hd : d = 1 := by omega
            have := h.1
            subst hd
            have : ρ k = 0 := by omega
            simp [this]
          · have hs : s = 0 := by omega
            simp [hs]
        omega

theorem expr_idxs_eval (ρ : Nat → Int) (v : View) (k : Nat) (h : RhoBounds ρ k v.shape) :
    ∃ e, expr_idxs v (varsFrom k v.shape) = some e ∧
      evalN ρ e = v.offset + dotFrom ρ k v.shape v.strides := by
  unfold expr_idxs
  rw [if_pos (varsFrom_length k v.shape)]
  refine ⟨_, rfl, ?_⟩
  rw [sum_eval]
  simp only [sumEval, evalN]
  rw [exprIdxsTerms_eval ρ v.shape v.strides k h]

theorem idxs_to_idx_eval (ρ : Nat → Int) (ds : List Int) (k : Nat) :
    ∃ e, idxs_to_idx ds (varsFrom k ds) = some e ∧ evalN ρ e = flatFrom ρ k ds := by
  unfold idxs_to_idx
  rw [if_pos (varsFrom_length k ds)]
  exact ⟨_, rfl, by rw [sum_eval, flatTerms_rev_eval]⟩

theorem flatTerms_shape : ∀ (il : List Node) (dl : List Int) (acc : Int),
    ∀ t ∈ flatTerms il dl acc, ∃ i ∈ il, ∃ acc', t = Node.mulc i acc'
  | [], _, _, t, ht => by simp [flatTerms] at ht
  | i :: il, [], acc, t, ht => by
      simp only [flatTerms, List.mem_singleton] at ht
      exact ⟨i, by simp, acc, ht⟩
  | i :: il, d :: dl, acc, t, ht => by
      simp only [flatTerms, List.mem_cons] at ht
      rcases ht with ht | ht
      · exact ⟨i, by simp, acc, ht⟩
      · rcases flatTerms_shape il dl (acc * d) t ht with ⟨i', hi', acc', he⟩
        exact ⟨i', by simp [hi'], acc', he⟩

theorem expr_idxs_varsB {v : View} {idxs : List Node} {e : Node}
    (h : expr_idxs v idxs = some e) : nvarsB e ⊆ nvarsBL idxs := by
  unfold expr_idxs at h
  split at h
  · simp only [Option.some.injEq] at h
    subst h
    intro p hp
    have h1 := sum_varsB _ hp
    rcases (nvarsBL_mem _ p).mp h1 with ⟨t, ht, hpt⟩
    rcases List.mem_cons.mp ht with ht | ht
    · subst ht
      simp [nvarsB] at hpt
    · rcases List.mem_filterMap.mp ht with ⟨q, hq, he⟩
      split at he
      · simp only [Option.some.injEq] at he
        subst he
        have := mulc_varsB q.1 q.2.2 hpt
        exact (nvarsBL_mem idxs p).mpr ⟨q.1, (List.mem_zip hq).1, this⟩
      · simp at he
  · simp at h

theorem idxs_to_idx_varsB {shape : List Int} {idxs : List Node} {e : Node}
    (h : idxs_to_idx shape idxs = some e) : nvarsB e ⊆ nvarsBL idxs := by
  unfold idxs_to_idx at h
  split at h
  · simp only [Option.some.injEq] at h
    subst h
    intro p hp
    have h1 := sum_varsB _ hp
    rcases (nvarsBL_mem _ p).mp h1 with ⟨t, ht, hpt⟩
    rcases flatTerms_shape _ _ _ t ht with ⟨i, hi, acc', he⟩
    subst he
    have h2 := mulc_varsB i acc' hpt
    exact (nvarsBL_mem idxs p).mpr ⟨i, List.mem_reverse.mp hi, h2⟩
  · simp at h

theorem varsFrom_Wf : ∀ (k : Nat) (ds : List Int), ∀ t ∈ varsFrom k ds, Wf t
  | _, [], t, ht => by simp [varsFrom] at ht
  | k, d :: ds, t, ht => by
      simp only [varsFrom, List.mem_cons] at ht
      rcases ht with ht | ht
      · subst ht
        exact var_Wf _ _ _
      · exact varsFrom_Wf (k + 1) ds t ht

theorem expr_idxs_Wf {v : View} {idxs : List Node} {e : Node}
    (hidxs : ∀ t ∈ idxs, Wf t) (h : expr_idxs v idxs = some e) : Wf e := by
  unfold expr_idxs at h
  split at h
  · simp only [Option.some.injEq] at h
    subst h
    apply sum_Wf
    intro t ht
    rcases List.mem_cons.mp ht with ht | ht
    · subst ht
      exact num_Wf _
    · rcases List.mem_filterMap.mp ht with ⟨q, hq, he⟩
      split at he
      · simp only [Option.some.injEq] at he
        subst he
        exact mulc_Wf q.1 q.2.2 (hidxs q.1 (List.mem_zip hq).1)
      · simp at he
  · simp at h

theorem idxs_to_idx_Wf {shape : List Int} {idxs : List Node} {e : Node}
    (hidxs : ∀ t ∈ idxs, Wf t) (h : idxs_to_idx shape idxs = some e) : Wf e := by
  unfold idxs_to_idx at h
  split at h
  · simp only [Option.some.injEq] at h
    subst h
    apply sum_Wf
    intro t ht
    rcases flatTerms_shape _ _ _ t ht with ⟨i, hi, acc', he⟩
    subst he
    exact mulc_Wf i acc' (hidxs i (List.mem_reverse.mp hi))
  · simp at h

/-- Semantic fold of the views below the top one (listed top-to-storage):
feed the flat address inward, conjoin the mask checks. -/
def denote : List View → Int → Int × Bool
  | [], a => (a, true)
  | v :: rest, a =>
      ((denote rest (semAddr v a)).1, semMask v a && (denote rest (semAddr v a)).2)

theorem exprFold_varsB : ∀ (l : List View) (idx valid : Node),
    nvarsB (exprFold l idx valid).1 ⊆ nvarsB idx ++ nvarsB valid ∧
    nvarsB (exprFold l idx valid).2 ⊆ nvarsB idx ++ nvarsB valid
  | [], idx, valid => by
      simp only [exprFold]
      constructor
      · intro p hp; simp [hp]
      · intro p hp; simp [hp]
  | v :: rest, idx, valid => by
      simp only [exprFold]
      split
      · constructor
        · intro p hp; simp [nvarsB] at hp
        · intro p hp; simp [hp]
      · have ih := exprFold_varsB rest (expr_node v idx) (expr_node_mask v idx (some valid))
        constructor
        · intro p hp
          have h1 := ih.1 hp
          rcases List.mem_append.mp h1 with h1 | h1
          · exact List.mem_append.mpr (Or.inl (expr_node_varsB v idx h1))
          · have h2 := expr_node_mask_varsB v idx (some valid) h1
            rcases List.mem_append.mp h2 with h2 | h2
            · exact List.mem_append.mpr (Or.inr h2)
            · exact List.mem_append.mpr (Or.inl h2)
        · intro p hp
          have h1 := ih.2 hp
          rcases List.mem_append.mp h1 with h1 | h1
          · exact List.mem_append.mpr (Or.inl (expr_node_varsB v idx h1))
          · have h2 := expr_node_mask_varsB v idx (some valid) h1
            rcases List.mem_append.mp h2 with h2 | h2
            · exact List.mem_append.mpr (Or.inr h2)
            · exact List.mem_append.mpr (Or.inl h2)

theorem exprFold_Wf : ∀ (l : List View) (idx valid : Node), Wf idx →
    Wf (exprFold l idx valid).1
  | [], idx, valid, h => h
  | v :: rest, idx, valid, h => by
      simp only [exprFold]
      split
      · exact num_Wf _
      · exact exprFold_Wf rest _ _ (expr_node_Wf v idx h)

theorem exprFold_BoolLike : ∀ (l : List View) (idx valid : Node), BoolLike valid →
    BoolLike (exprFold l idx valid).2
  | [], idx, valid, h => h
  | v :: rest, idx, valid, h => by
      simp only [exprFold]
      split
      · exact h
      · exact exprFold_BoolLike rest _ _
          (expr_node_mask_BoolLike v idx (some valid)
            (fun x hx => by cases hx; exact h))

theorem exprFold_denote (ρ : Nat → Int) : ∀ (l : List View) (idx valid : Node),
    InB ρ idx → InB ρ valid → BoolLike valid →
    (∀ v ∈ l, ViewWF v) →
    ((evalN ρ (exprFold l idx valid).2 ≠ 0) ↔
      (evalN ρ valid ≠ 0 ∧ (denote l (evalN ρ idx)).2 = true)) ∧
    ((evalN ρ (exprFold l idx valid).2 ≠ 0) →
      evalN ρ (exprFold l idx valid).1 = (denote l (evalN ρ idx)).1)
  | [], idx, valid, hidx, hvalid, hbool, hwf => by
      constructor
      · simp [exprFold, denote]
      · intro _
        rfl
  | v :: rest, idx, valid, hidx, hvalid, hbool, hwf => by
      simp only [exprFold]
      split
      · rename_i hsc
        have hb := boundSound valid ρ hvalid
        have h0 : evalN ρ valid = 0 := by
          rcases hbool ρ with h' | h' <;> omega
        constructor
        · simp [h0]
        · intro hc
          simp [h0] at hc
      · rename_i hsc
        have hwfv := hwf v (by simp)
        have hidx' : InB ρ (expr_node v idx) :=
          fun p hp => hidx p (expr_node_varsB v idx hp)
        have hvalid' : InB ρ (expr_node_mask v idx (some valid)) := by
          intro p hp
          have h2 := expr_node_mask_varsB v idx (some valid) hp
          rcases List.mem_append.mp h2 with h2 | h2
          · exact hvalid p h2
          · exact hidx p h2
        have hbool' : BoolLike (expr_node_mask v idx (some valid)) :=
          expr_node_mask_BoolLike v idx (some valid) (fun x hx => by cases hx; exact hbool)
        have ih := exprFold_denote ρ rest (expr_node v idx)
          (expr_node_mask v idx (some valid)) hidx' hvalid' hbool'
          (fun u hu => hwf u (by simp [hu]))
        have hev : evalN ρ (expr_node v idx) = semAddr v (evalN ρ idx) :=
          expr_node_eval ρ v idx hidx hwfv.1
        have hmv : (evalN ρ (expr_node_mask v idx (some valid)) ≠ 0 ↔
            ((∀ x, (some valid) = some x → evalN ρ x ≠ 0) ∧
              semMask v (evalN ρ idx) = true)) :=
          expr_node_mask_iff ρ v idx (some valid) hidx
            (fun x hx => by cases hx; exact hvalid) hwfv.2
        rw [hev] at ih
        constructor
        · rw [ih.1, hmv]
          simp only [denote, Bool.and_eq_true]
          constructor
          · rintro ⟨⟨h1, h2⟩, h3⟩
            exact ⟨h1 valid rfl, h2, h3⟩
          · rintro ⟨h1, h2, h3⟩
            exact ⟨⟨fun x hx => by cases hx; exact h1, h2⟩, h3⟩
        · intro hval
          simp only [denote]
          exact ih.2 hval

theorem shape_concat (init : List View) (last : View) :
    (ShapeTracker.mk (init ++ [last])).shape = last.shape := by
  unfold ShapeTracker.shape
  rw [List.getLast?_concat]
  rfl

theorem exprIdxsD_concat (init : List View) (last : View) :
    (ShapeTracker.mk (init ++ [last])).exprIdxsD =
      match expr_idxs last (varsFrom 0 last.shape),
          idxs_to_idx last.shape (varsFrom 0 last.shape) with
      | some idx, some flat =>
          some (exprFold init.reverse idx (expr_node_mask last flat none))
      | _, _ => none := by
  unfold ShapeTracker.exprIdxsD ShapeTracker.exprIdxs
  rw [shape_concat, List.getLast?_concat, List.dropLast_concat]
  rfl

/-- Master characterization of `expr_idxs` with the default variables:
existence, variable bounds, well-formedness and the semantic reading in
terms of `denote`. -/
theorem exprIdxsD_denote (ρ : Nat → Int) (init : List View) (last : View)
    (hwf : ∀ v ∈ init ++ [last], ViewWF v)
    (h : RhoBounds ρ 0 last.shape) :
    ∃ idx valid, (ShapeTracker.mk (init ++ [last])).exprIdxsD = some (idx, valid) ∧
      nvarsB idx ⊆ nvarsBL (varsFrom 0 last.shape) ∧
      nvarsB valid ⊆ nvarsBL (varsFrom 0 last.shape) ∧
      Wf idx ∧ BoolLike valid ∧
      ((evalN ρ valid ≠ 0) ↔ (semMask last (flatFrom ρ 0 last.shape) = true ∧
        (denote init.reverse
          (last.offset + dotFrom ρ 0 last.shape last.strides)).2 = true)) ∧
      ((evalN ρ valid ≠ 0) →
        evalN ρ idx = (denote init.reverse
          (last.offset + dotFrom ρ 0 last.shape last.strides)).1) := by
  rcases expr_idxs_eval ρ last 0 h with ⟨e0, he0, he0v⟩
  rcases idxs_to_idx_eval ρ last.shape 0 with ⟨f0, hf0, hf0v⟩
  have hlast : ViewWF last := hwf last (by simp)
  have hrho : InBL ρ (varsFrom 0 last.shape) := (InBL_varsFrom 0 last.shape).mpr h
  have hie0 : InB ρ e0 := fun p hp => hrho p (expr_idxs_varsB he0 hp)
  have hif0 : InB ρ f0 := fun p hp => hrho p (idxs_to_idx_varsB hf0 hp)
  have hv0B : BoolLike (expr_node_mask last f0 none) :=
    expr_node_mask_BoolLike last f0 none (fun x hx => by cases hx)
  have hv0in : InB ρ (expr_node_mask last f0 none) := by
    intro p hp
    have h2 := expr_node_mask_varsB last f0 none hp
    rcases List.mem_append.mp h2 with h2 | h2
    · simp at h2
    · exact hif0 p h2
  have hv0iff := expr_node_mask_iff ρ last f0 none hif0 (fun x hx => by cases hx) hlast.2
  have hfold := exprFold_denote ρ init.reverse e0 (expr_node_mask last f0 none)
    hie0 hv0in hv0B (fun u hu => hwf u (by
      simp only [List.mem_append]
      exact Or.inl (List.mem_reverse.mp hu)))
  refine ⟨(exprFold init.reverse e0 (expr_node_mask last f0 none)).1,
    (exprFold init.reverse e0 (expr_node_mask last f0 none)).2, ?_, ?_, ?_, ?_, ?_, ?_, ?_⟩
  · rw [exprIdxsD_concat, he0, hf0]
  · intro p hp
    have h1 := (exprFold_varsB init.reverse e0 (expr_node_mask last f0 none)).1 hp
    rcases List.mem_append.mp h1 with h1 | h1
    · exact expr_idxs_varsB he0 h1
    · have h2 := expr_node_mask_varsB last f0 none h1
      rcases List.mem_append.mp h2 with h2 | h2
      · simp at h2
      · exact idxs_to_idx_varsB hf0 h2
  · intro p hp
    have h1 := (exprFold_varsB init.reverse e0 (expr_node_mask last f0 none)).2 hp
    rcases List.mem_append.mp h1 with h1 | h1
    · exact expr_idxs_varsB he0 h1
    · have h2 := expr_node_mask_varsB last f0 none h1
      rcases List.mem_append.mp h2 with h2 | h2
      · simp at h2
      · exact idxs_to_idx_varsB hf0 h2
  · exact exprFold_Wf _ _ _ (expr_idxs_Wf (varsFrom_Wf 0 last.shape) he0)
  · exact exprFold_BoolLike _ _ _ hv0B
  · rw [hfold.1, hv0iff]
    rw [hf0v, he0v]
    constructor
    · rintro ⟨⟨_, h2⟩, h3⟩
      exact ⟨h2, h3⟩
    · rintro ⟨h2, h3⟩
      exact ⟨⟨(fun x hx => by cases hx), h2⟩, h3⟩
  · intro hval
    rw [hfold.2 hval, he0v]

theorem simplify_two (st : ShapeTracker) (h : 2 ≤ st.views.length) :
    st.simplify = match merge_views (st.views.getD (st.views.length - 2) default)
        (st.views.getD (st.views.length - 1) default) with
      | some nv => ShapeTracker.simplify ⟨st.views.dropLast.dropLast ++ [nv]⟩
      | none => st := by
  rw [ShapeTracker.simplify]
  rw [dif_pos h]

theorem simplify_small (st : ShapeTracker) (h : ¬ 2 ≤ st.views.length) :
    st.simplify = st := by
  rw [ShapeTracker.simplify]
  rw [dif_neg h]

theorem merge_views_shape {vm2 vm1 v : View} (h : merge_views vm2 vm1 = some v) :
    v.shape = vm1.shape := by
  unfold merge_views at h
  split at h
  · rename_i hc
    simp only [Option.some.injEq] at h
    subst h
    exact hc.2.symm
  · split at h
    · simp only [Option.some.injEq] at h
      subst h
      rfl
    · split at h
      · simp at h
      · split at h
        · simp at h
        · split at h
          · simp at h
          · simp only [Option.some.injEq] at h
            subst h
            rfl

theorem getD_last {l : List View} (h : 1 ≤ l.length) :
    l.getD (l.length - 1) default = l.getLast?.getD default := by
  rw [List.getLast?_eq_getElem?, List.getD_eq_getElem?_getD]

theorem shape_eq_last (st : ShapeTracker) (h : 1 ≤ st.views.length) :
    st.shape = (st.views.getD (st.views.length - 1) default).shape := by
  unfold ShapeTracker.shape
  rw [getD_last h]
  cases hl : st.views.getLast? with
  | none =>
      rw [List.getLast?_eq_none_iff] at hl
      rw [hl] at h
      simp at h
  | some v => simp

theorem simplify_shape (st : ShapeTracker) : st.simplify.shape = st.shape := by
  by_cases h : 2 ≤ st.views.length
  · rw [simplify_two st h]
    split
    · rename_i nv hmerge
      have hs := merge_views_shape hmerge
      have hlen : (st.views.dropLast.dropLast ++ [nv]).length = st.views.length - 1 := by
        simp [List.length_dropLast]
        omega
      have ih := simplify_shape ⟨st.views.dropLast.dropLast ++ [nv]⟩
      rw [ih, shape_concat, hs, shape_eq_last st (by omega)]
    · rfl
  · rw [simplify_small st h]
termination_by st.views.length
decreasing_by
  simp only [List.length_append, List.length_dropLast, List.length_cons, List.length_nil]
  omega

/-- Claim C2: the case behaviour of `merge_views` on an adjacent pair:
(1) a contiguous inner view of equal shape is eliminated, leaving the
outer view; (2) otherwise a contiguous outer view is eliminated, leaving
the inner view; (3) otherwise a (truthy) mask on the outer view or a
nonzero inner offset rejects the merge. -/
theorem claim_C2 (vm2 vm1 : View) :
    (vm1.contiguous ∧ vm1.shape = vm2.shape → merge_views vm2 vm1 = some vm2) ∧
    (¬ (vm1.contiguous ∧ vm1.shape = vm2.shape) → vm2.contiguous →
      merge_views vm2 vm1 = some vm1) ∧
    (¬ (vm1.contiguous ∧ vm1.shape = vm2.shape) → ¬ vm2.contiguous →
      (maskTruthy vm2.mask ∨ vm1.offset ≠ 0) → merge_views vm2 vm1 = none) := by
  refine ⟨?_, ?_, ?_⟩
  · intro h1
    unfold merge_views
    rw [if_pos h1]
  · intro h1 h2
    unfold merge_views
    rw [if_neg h1, if_pos h2]
  · intro h1 h2 h3
    unfold merge_views
    rw [if_neg h1, if_neg h2, if_pos h3]

theorem claim_C2_witness :
    merge_views ⟨[2], [5], 3, none⟩ (View.create [2]) = some ⟨[2], [5], 3, none⟩ ∧
    merge_views (View.create [2]) ⟨[2], [5], 1, none⟩ = some ⟨[2], [5], 1, none⟩ ∧
    merge_views ⟨[2], [5], 0, some [(0, 1)]⟩ ⟨[2], [1], 7, none⟩ = none :=
  ⟨(claim_C2 ⟨[2], [5], 3, none⟩ (View.create [2])).1 (by decide),
   (claim_C2 (View.create [2]) ⟨[2], [5], 1, none⟩).2.1 (by decide) (by decide),
   (claim_C2 ⟨[2], [5], 0, some [(0, 1)]⟩ ⟨[2], [1], 7, none⟩).2.2
     (by decide) (by decide) (by decide)⟩

theorem size_eq_prod (st : ShapeTracker) : st.size = prodL st.shape := by
  unfold ShapeTracker.size ShapeTracker.shape View.size
  cases st.views.getLast? <;> simp [prodL]

/-- Claim C10: simplification preserves the logical shape (every
successful merge carries the inner view's shape), so the shape and size
queries are unaffected by `simplify`. -/
theorem claim_C10 (st : ShapeTracker) :
    st.simplify.shape = st.shape ∧ st.simplify.size = st.size := by
  refine ⟨simplify_shape st, ?_⟩
  rw [size_eq_prod, size_eq_prod, simplify_shape st]

/-- Claim C9: the expression-derivation calls fail (return no result,
modelling the assertion) exactly when the number of index expressions
differs from the rank of the (last view's) shape. -/
theorem claim_C9 (st : ShapeTracker) (v : View) (idxs : List Node)
    (h : st.views ≠ []) :
    ((expr_idxs v idxs).isSome ↔ idxs.length = v.shape.length) ∧
    ((st.exprIdxs idxs).isSome ↔ idxs.length = st.shape.length) := by
  constructor
  · unfold expr_idxs
    split
    · simp [*]
    · simp [*]
  · unfold ShapeTracker.exprIdxs
    cases hl : st.views.getLast? with
    | none =>
        rw [List.getLast?_eq_none_iff] at hl
        exact absurd hl h
    | some last =>
        have hshape : st.shape = last.shape := by
          unfold ShapeTracker.shape
          rw [hl]
          rfl
        rw [hshape]
        unfold expr_idxs idxs_to_idx
        by_cases hlen : idxs.length = last.shape.length
        · simp [hlen]
        · simp [hlen]

theorem claim_C9_witness :
    ((expr_idxs (View.create [3]) [Node.num 0]).isSome ↔
      ([Node.num 0] : List Node).length = (View.create [3]).shape.length) ∧
    (((ShapeTracker.from_shape [2]).exprIdxs [Node.num 0]).isSome ↔
      ([Node.num 0] : List Node).length = (ShapeTracker.from_shape [2]).shape.length) :=
  claim_C9 (ShapeTracker.from_shape [2]) (View.create [3]) [Node.num 0] (by decide)

/-- Claim C8: the expression fold short-circuits to the constant sentinel
offset `-1` with the accumulated validity as soon as the validity's
statically-known maximum is zero (and such a validity indeed evaluates to
zero, an always-invalid result); otherwise each view's derived offset is
fed into the next view down the stack and validities accumulate by
conjunction. -/
theorem claim_C8 (v : View) (rest : List View) (idx valid : Node) (ρ : Nat → Int) :
    (nmax valid = 0 → exprFold (v :: rest) idx valid = (Node.num (-1), valid)) ∧
    (nmax valid ≠ 0 → exprFold (v :: rest) idx valid =
      exprFold rest (expr_node v idx) (expr_node_mask v idx (some valid))) ∧
    (nmax valid = 0 → BoolLike valid → InB ρ valid → evalN ρ valid = 0) := by
  refine ⟨?_, ?_, ?_⟩
  · intro h
    simp [exprFold, h]
  · intro h
    simp [exprFold, h]
  · intro h hb hin
    have := boundSound valid ρ hin
    rcases hb ρ with h' | h' <;> omega

theorem claim_C8_witness :
    exprFold [View.create [2]] (Node.num 7) (Node.num 0) = (Node.num (-1), Node.num 0) ∧
    exprFold [View.create [2]] (Node.num 7) (Node.num 1) =
      exprFold [] (expr_node (View.create [2]) (Node.num 7))
        (expr_node_mask (View.create [2]) (Node.num 7) (some (Node.num 1))) ∧
    evalN (fun _ => 0) (Node.num 0) = 0 :=
  ⟨(claim_C8 (View.create [2]) [] (Node.num 7) (Node.num 0) (fun _ => 0)).1 (by decide),
   (claim_C8 (View.create [2]) [] (Node.num 7) (Node.num 1) (fun _ => 0)).2.1 (by decide),
   (claim_C8 (View.create [2]) [] (Node.num 7) (Node.num 0) (fun _ => 0)).2.2 (by decide)
     (fun ρ => Or.inl (by simp [evalN]))
     (fun p hp => by simp [nvarsB] at hp)⟩

theorem exprIdxsD_isSome (init : List View) (last : View) :
    ∃ idx valid, (ShapeTracker.mk (init ++ [last])).exprIdxsD = some (idx, valid) := by
  rw [exprIdxsD_concat]
  unfold expr_idxs idxs_to_idx
  rw [if_pos (varsFrom_length 0 last.shape), if_pos (varsFrom_length 0 last.shape)]
  exact ⟨_, _, rfl⟩

/-- Claim C6 (amended): `real_size` returns 0 as soon as the shape has a
zero dimension; otherwise it returns the statically-resolved maximum of
the derived offset expression plus one, a length that covers every
address the tracker can produce at an in-range index (minimality is not
guaranteed: see the counterexample). -/
theorem claim_C6 (init : List View) (last : View)
    (hwf : ∀ v ∈ init ++ [last], ViewWF v) :
    ((0:Int) ∈ (ShapeTracker.mk (init ++ [last])).shape →
      (ShapeTracker.mk (init ++ [last])).real_size = some 0) ∧
    (¬ (0:Int) ∈ (ShapeTracker.mk (init ++ [last])).shape →
      ∃ idx valid, (ShapeTracker.mk (init ++ [last])).exprIdxsD = some (idx, valid) ∧
        (ShapeTracker.mk (init ++ [last])).real_size = some (nmax idx + 1) ∧
        ∀ ρ, RhoBounds ρ 0 (ShapeTracker.mk (init ++ [last])).shape →
          evalN ρ idx < nmax idx + 1) := by
  constructor
  · intro h
    unfold ShapeTracker.real_size
    rw [if_pos h]
  · intro h
    rcases exprIdxsD_isSome init last with ⟨idx, valid, hp⟩
    refine ⟨idx, valid, hp, ?_, ?_⟩
    · unfold ShapeTracker.real_size
      rw [if_neg h, hp]
    · intro ρ hρ
      rw [shape_concat] at hρ
      rcases exprIdxsD_denote ρ init last hwf hρ with
        ⟨idx', valid', hp', hsub, _, _, _, _, _⟩
      rw [hp'] at hp
      simp only [Option.some.injEq, Prod.mk.injEq] at hp
      have hin : InB ρ idx := by
        rw [← hp.1]
        exact fun p hq => ((InBL_varsFrom 0 last.shape).mpr hρ) p (hsub hq)
      have := boundSound idx ρ hin
      omega

def padEx : ShapeTracker := (ShapeTracker.from_shape [4]).pad [(1, 1)]

/-- The derived offset/validity pair of the padded example tracker. -/
def padExPair : Node × Node := (padEx.exprIdxsD).getD (Node.num 0, Node.num 0)

/-- The largest address the padded example tracker produces at a valid
in-range index. -/
def padExCover : Int :=
  ((List.range 6).map (fun n => ((n : Int)))).foldl
    (fun m x => if evalN (fun _ => x) padExPair.2 != 0
      then max m (evalN (fun _ => x) padExPair.1) else m) (-1)

/-- Claim C6 counterexample: the padded tracker `pad((1,1))` over shape
`(4,)` reports `real_size = 5`, but the largest address produced at any
valid index of its shape `(6,)` is 3, so the minimal covering buffer
length is 4, not 5. -/
theorem claim_C6_cex : padEx.real_size = some 5 ∧ padExCover = 3 := by decide

theorem claim_C6_witness :
    ((0:Int) ∈ (ShapeTracker.mk ([] ++ [View.create [2]])).shape →
      (ShapeTracker.mk ([] ++ [View.create [2]])).real_size = some 0) ∧
    (¬ (0:Int) ∈ (ShapeTracker.mk ([] ++ [View.create [2]])).shape →
      ∃ idx valid,
        (ShapeTracker.mk ([] ++ [View.create [2]])).exprIdxsD = some (idx, valid) ∧
        (ShapeTracker.mk ([] ++ [View.create [2]])).real_size = some (nmax idx + 1) ∧
        ∀ ρ, RhoBounds ρ 0 (ShapeTracker.mk ([] ++ [View.create [2]])).shape →
          evalN ρ idx < nmax idx + 1) :=
  claim_C6 [] (View.create [2]) (fun v hv => by
    simp only [List.nil_append, List.mem_singleton] at hv
    subst hv
    exact ⟨rfl, fun m hm => by cases hm⟩)

/-- The inverse permutation: position of each index in `p`. -/
def invPerm (p : List Nat) (n : Nat) : List Nat :=
  (List.range n).map (fun i => p.indexOf i)

theorem perm_mem_lt {p : List Nat} {n : Nat} (hp : p.Perm (List.range n)) :
    ∀ i, i ∈ p ↔ i < n := fun i => by
  rw [hp.mem_iff, List.mem_range]

theorem invPerm_perm {p : List Nat} {n : Nat} (hp : p.Perm (List.range n)) :
    (invPerm p n).Perm (List.range n) := by
  have hnd : p.Nodup := hp.nodup_iff.mpr (List.nodup_range n)
  have hlen : p.length = n := by
    have := hp.length_eq
    simpa using this
  apply (List.perm_ext_iff_of_nodup ?_ (List.nodup_range n)).mpr
  · intro j
    simp only [invPerm, List.mem_map, List.mem_range]
    constructor
    · rintro ⟨i, hi, he⟩
      have hmem : i ∈ p := (perm_mem_lt hp i).mpr hi
      have := List.indexOf_lt_length.mpr hmem
      omega
    · intro hj
      have hjp : j < p.length := by omega
      refine ⟨p[j], ?_, ?_⟩
      · exact (perm_mem_lt hp p[j]).mp (by simp)
      · exact List.indexOf_getElem hnd j hjp
  · apply List.Nodup.map_on _ (List.nodup_range n)
    intro x hx y hy he
    simp only [List.mem_range] at hx hy
    have hxm : x ∈ p := (perm_mem_lt hp x).mpr hx
    have hym : y ∈ p := (perm_mem_lt hp y).mpr hy
    have hx' := List.getElem_indexOf (List.indexOf_lt_length.mpr hxm)
    have hy' := List.getElem_indexOf (List.indexOf_lt_length.mpr hym)
    rw [← hx', ← hy']
    congr 1

theorem map_getD_range {α : Type} (d : α) : ∀ l : List α,
    (List.range l.length).map (fun i => l.getD i d) = l
  | [] => by simp
  | a :: l => by
      have hfun : ((fun i => (a :: l).getD i d) ∘ Nat.succ) = fun i => l.getD i d := by
        funext i
        simp [Function.comp, List.getD_cons_succ]
      rw [List.length_cons, List.range_succ_eq_map, List.map_cons, List.map_map, hfun,
          map_getD_range d l, List.getD_cons_zero]

theorem perm_roundtrip_list {α : Type} (d : α) (l : List α) (p : List Nat)
    (hp : p.Perm (List.range l.length)) :
    (invPerm p l.length).map (fun j => (p.map (fun i => l.getD i d)).getD j d) = l := by
  have hnd : p.Nodup := hp.nodup_iff.mpr (List.nodup_range _)
  have hlen : p.length = l.length := by simpa using hp.length_eq
  unfold invPerm
  rw [List.map_map]
  have hstep : ∀ i ∈ List.range l.length,
      ((fun j => (p.map (fun i => l.getD i d)).getD j d) ∘ fun i => p.indexOf i) i
        = l.getD i d := by
    intro i hi
    simp only [List.mem_range] at hi
    have hmem : i ∈ p := (perm_mem_lt hp i).mpr hi
    have hidx : p.indexOf i < p.length := List.indexOf_lt_length.mpr hmem
    have hidx2 : p.indexOf i < (p.map (fun i => l.getD i d)).length := by
      simpa using hidx
    simp only [Function.comp]
    rw [List.getD_eq_getElem _ d hidx2, List.getElem_map, List.getElem_indexOf hidx]
  rw [List.map_congr_left hstep, map_getD_range d l]

theorem view_permute_roundtrip (v : View) (p : List Nat) (hwf : ViewWF v)
    (hp : p.Perm (List.range v.shape.length)) :
    ∃ v1, v.permute p = some v1 ∧
      v1.permute (invPerm p v.shape.length) = some v := by
  obtain ⟨vs, vst, vo, vm⟩ := v
  have hwf1 : vst.length = vs.length := hwf.1
  unfold View.permute
  rw [if_pos hp]
  refine ⟨_, rfl, ?_⟩
  have hlen1 : (p.map (fun i => vs.getD i 0)).length = vs.length := by
    simpa using hp.length_eq
  rw [if_pos (by rw [hlen1]; exact invPerm_perm hp)]
  simp only [Option.some.injEq]
  have hshape := perm_roundtrip_list 0 vs p hp
  have hstrides := perm_roundtrip_list 0 vst p (by rw [hwf1]; exact hp)
  rw [hwf1] at hstrides
  cases vm with
  | none =>
      simp only [Option.map_none']
      rw [hshape, hstrides]
  | some m =>
      have hml : m.length = vs.length := hwf.2 m rfl
      have hmask := perm_roundtrip_list (0, 0) m p (by rw [hml]; exact hp)
      rw [hml] at hmask
      simp only [Option.map_some']
      rw [hshape, hstrides, hmask]

/-- C5: Permute round-trip: for every tracker whose view stack is nonempty
with a well-formed last view, and every permutation `p` of the tracker's
dimension indices, `permute p` followed by `permute (invPerm p)` succeeds
and yields a tracker with identical derived offset/validity expressions
(here the view stack is in fact restored exactly, which is stronger than
required). -/
theorem claim_C5 (st : ShapeTracker) (p : List Nat)
    (hne : st.views ≠ [])
    (hwf : ViewWF (st.views.getLast hne))
    (hp : p.Perm (List.range st.shape.length)) :
    ∃ st1 st2, st.permute p = some st1 ∧
      st1.permute (invPerm p st.shape.length) = some st2 ∧
      st2.exprIdxsD = st.exprIdxsD := by
  have hlast : st.views.getLast? = some (st.views.getLast hne) :=
    List.getLast?_eq_getLast _ hne
  have hshape : st.shape = (st.views.getLast hne).shape := by
    unfold ShapeTracker.shape
    rw [hlast]
    rfl
  obtain ⟨v1, hv1, hv2⟩ :=
    view_permute_roundtrip (st.views.getLast hne) p hwf (by rw [← hshape]; exact hp)
  refine ⟨⟨st.views.dropLast ++ [v1]⟩, st, ?_, ?_, rfl⟩
  · unfold ShapeTracker.permute
    rw [hlast]
    simp only [Option.getD_some]
    rw [hv1]
  · unfold ShapeTracker.permute
    simp only [List.getLast?_concat, Option.getD_some]
    rw [hshape, hv2]
    simp only [Option.some.injEq]
    congr 1
    rw [List.dropLast_concat, List.dropLast_append_getLast hne]

theorem claim_C5_witness :
    ∃ st1 st2, (ShapeTracker.from_shape [2, 3]).permute [1, 0] = some st1 ∧
      st1.permute (invPerm [1, 0] (ShapeTracker.from_shape [2, 3]).shape.length)
        = some st2 ∧
      st2.exprIdxsD = (ShapeTracker.from_shape [2, 3]).exprIdxsD :=
  claim_C5 (ShapeTracker.from_shape [2, 3]) [1, 0]
    (by decide)
    ⟨by decide, fun m h => Option.noConfusion h⟩
    (by decide)

theorem getD_set_self {α : Type} (l : List α) (i : Nat) (a d : α) (h : i < l.length) :
    (l.set i a).getD i d = a := by
  rw [List.getD_eq_getElem _ _ (by simpa using h), List.getElem_set_self]

theorem getD_set_ne {α : Type} (l : List α) (j i : Nat) (a d : α) (h : i ≠ j) :
    (l.set j a).getD i d = l.getD i d := by
  by_cases hi : i < l.length
  · rw [List.getD_eq_getElem _ _ (by simpa using hi), List.getD_eq_getElem _ _ hi,
        List.getElem_set_ne (Ne.symm h)]
  · have hi' : l.length ≤ i := Nat.le_of_not_lt hi
    rw [List.getD_eq_getElem?_getD, List.getD_eq_getElem?_getD,
        List.getElem?_eq_none (by simpa using hi'), List.getElem?_eq_none hi']

theorem getD_replicate_self {α : Type} (n i : Nat) (d : α) :
    (List.replicate n d).getD i d = d := by
  by_cases hi : i < n
  · rw [List.getD_eq_getElem _ _ (by simpa using hi), List.getElem_replicate]
  · rw [List.getD_eq_getElem?_getD,
        List.getElem?_eq_none (by simpa using Nat.le_of_not_lt hi)]
    rfl

theorem indexOf?_spec {α : Type} [DecidableEq α] (d : α) (l : List α) (a : α) (j : Nat)
    (h : l.indexOf? a = some j) : j < l.length ∧ l.getD j d = a := by
  unfold List.indexOf? at h
  rw [List.findIdx?_eq_some_iff_findIdx_eq] at h
  obtain ⟨hlt, hfi⟩ := h
  refine ⟨hlt, ?_⟩
  have hw : List.findIdx (fun x => x == a) l < l.length := by rw [hfi]; exact hlt
  have hg := @List.findIdx_getElem _ (fun x => x == a) l hw
  simp only [hfi] at hg
  rw [List.getD_eq_getElem _ _ hlt]
  exact eq_of_beq hg

theorem varsFrom_getD (dflt : Node) : ∀ (k : Nat) (ds : List Int) (j : Nat),
    j < ds.length →
    (varsFrom k ds).getD j dflt = Node.var (k + j) 0 (ds.getD j 0 - 1)
  | _, [], j, h => by simp at h
  | k, d :: ds, 0, _ => by simp [varsFrom]
  | k, d :: ds, j + 1, h => by
      simp only [varsFrom, List.getD_cons_succ]
      rw [varsFrom_getD dflt (k + 1) ds j (by simpa using h)]
      have he : k + 1 + j = k + (j + 1) := by omega
      rw [he]

theorem termKey_nvars : ∀ t : Node, nvars (termKey t) = nvars t := by
  intro t
  cases t <;> rfl

theorem splitKey_termKey_var (i : Nat) (lo hi : Int) :
    ∀ t : Node, termKey t = Node.var i lo hi → splitKey t = termKey t := by
  intro t
  cases t with
  | num b => intro h; exact Node.noConfusion h
  | var j lo' hi' => intro _; rfl
  | sumN ns => intro _; rfl
  | mulN a c =>
      intro h
      have ha : a = Node.var i lo hi := h
      rw [show termKey (Node.mulN a c) = a from rfl, ha]
      rfl
  | divN a c => intro _; rfl
  | modN a c => intro _; rfl
  | ltN a c => intro _; rfl
  | geN a c => intro _; rfl
  | andN ns => intro _; rfl

theorem termDiff_found (ρ ρ' : Nat → Int) (i : Nat) (lo hi : Int) :
    ∀ t : Node, termKey t = Node.var i lo hi →
      evalN ρ t - evalN ρ' t = termCoeff t * (ρ i - ρ' i) := by
  intro t
  cases t with
  | num b => intro h; exact Node.noConfusion h
  | var j lo' hi' =>
      intro h
      injection h with h1 _ _
      subst h1
      show ρ j - ρ' j = 1 * (ρ j - ρ' j)
      ring
  | sumN ns => intro h; exact Node.noConfusion h
  | mulN a c =>
      intro h
      have ha : a = Node.var i lo hi := h
      subst ha
      show ρ i * c - ρ' i * c = c * (ρ i - ρ' i)
      ring
  | divN a c => intro h; exact Node.noConfusion h
  | modN a c => intro h; exact Node.noConfusion h
  | ltN a c => intro h; exact Node.noConfusion h
  | geN a c => intro h; exact Node.noConfusion h
  | andN ns => intro h; exact Node.noConfusion h

theorem termDiff_other (ρ ρ' : Nat → Int) (i : Nat)
    (hagree : ∀ j, j ≠ i → ρ j = ρ' j) (t : Node) (hni : i ∉ nvars t) :
    evalN ρ t = evalN ρ' t := by
  apply evalCongr
  intro p hp
  by_cases hpi : p.1 = i
  · exfalso
    apply hni
    rw [← hpi]
    exact List.mem_map_of_mem _ hp
  · exact hagree p.1 hpi

theorem sumEval_eq_of_terms (ρ ρ' : Nat → Int) :
    ∀ ts : List Node, (∀ t ∈ ts, evalN ρ t = evalN ρ' t) →
      sumEval ρ ts = sumEval ρ' ts
  | [], _ => rfl
  | t :: ts, h => by
      simp only [sumEval]
      rw [h t (by simp), sumEval_eq_of_terms ρ ρ' ts (fun u hu => h u (by simp [hu]))]

theorem filter_key_unique {α β : Type} (key : α → β) (p : α → Bool) :
    ∀ (ts : List α), (ts.map key).Nodup → ∀ t0 ∈ ts, p t0 = true →
      (∀ t ∈ ts, p t = true → key t = key t0) → ts.filter p = [t0]
  | [], _, t0, h0, _, _ => by simp at h0
  | t :: ts, hnd, t0, h0, hp0, hk => by
      simp only [List.map_cons, List.nodup_cons] at hnd
      rcases List.mem_cons.mp h0 with h0 | h0
      · subst h0
        rw [List.filter_cons_of_pos hp0]
        have hnil : ts.filter p = [] := by
          rw [List.filter_eq_nil_iff]
          intro u hu hpu
          exact hnd.1 ((hk u (by simp [hu]) hpu) ▸ List.mem_map_of_mem key hu)
        rw [hnil]
      · have hpt : p t = false := by
          by_contra hc
          have hpt : p t = true := by simpa using hc
          have hkt := hk t (by simp) hpt
          exact hnd.1 (hkt ▸ List.mem_map_of_mem key h0)
        rw [List.filter_cons_of_neg (by simp [hpt])]
        exact filter_key_unique key p ts hnd.2 t0 h0 hp0
          (fun u hu hpu => hk u (by simp [hu]) hpu)

theorem dotFrom_sub (ρ ρ' : Nat → Int) (i : Nat)
    (hagree : ∀ j, j ≠ i → ρ j = ρ' j) :
    ∀ (k : Nat) (ds ss : List Int), ds.length = ss.length →
      dotFrom ρ k ds ss - dotFrom ρ' k ds ss =
        if k ≤ i ∧ i - k < ds.length then (ρ i - ρ' i) * ss.getD (i - k) 0 else 0
  | k, [], [], _ => by simp [dotFrom]
  | k, [], s :: ss, h => by simp at h
  | k, d :: ds, [], h => by simp at h
  | k, d :: ds, s :: ss, hlen => by
      simp only [dotFrom]
      have hrec := dotFrom_sub ρ ρ' i hagree (k + 1) ds ss (by simpa using hlen)
      by_cases hki : k = i
      · subst hki
        have hno : ¬(k + 1 ≤ k ∧ k - (k + 1) < ds.length) := by omega
        rw [show ρ k * s + dotFrom ρ (k + 1) ds ss - (ρ' k * s + dotFrom ρ' (k + 1) ds ss)
            = (ρ k - ρ' k) * s + (dotFrom ρ (k + 1) ds ss - dotFrom ρ' (k + 1) ds ss)
            from by ring, hrec, if_neg hno,
          if_pos (⟨Nat.le_refl k, by simp⟩ : k ≤ k ∧ k - k < (d :: ds).length)]
        simp [Nat.sub_self]
      · have hkeq : ρ k = ρ' k := hagree k hki
        rw [show ρ k * s + dotFrom ρ (k + 1) ds ss - (ρ' k * s + dotFrom ρ' (k + 1) ds ss)
            = (ρ k - ρ' k) * s + (dotFrom ρ (k + 1) ds ss - dotFrom ρ' (k + 1) ds ss)
            from by ring, hrec, hkeq]
        by_cases hin : k + 1 ≤ i ∧ i - (k + 1) < ds.length
        · rw [if_pos hin, if_pos (⟨by omega, by simp; omega⟩ : k ≤ i ∧ i - k < (d :: ds).length)]
          have hik : i - k = (i - (k + 1)) + 1 := by omega
          rw [hik, List.getD_cons_succ]
          ring
        · rw [if_neg hin, if_neg (by simp; omega)]
          ring

theorem strideFold_bad (idxs : List Node) :
    ∀ (ts : List Node) (r0 : List (Option Int)) (b0 : List Nat) (i : Nat),
      i ∉ (ts.foldl (strideFold idxs) (r0, b0)).2 →
      i ∉ b0 ∧ ∀ t ∈ ts, idxs.indexOf? (termKey t) = none → i ∉ nvars (termKey t)
  | [], r0, b0, i, h => by
      refine ⟨h, ?_⟩
      intro t ht
      simp at ht
  | t :: ts, r0, b0, i, h => by
      rw [List.foldl_cons] at h
      cases hfind : idxs.indexOf? (termKey t) with
      | some j =>
          rw [show strideFold idxs (r0, b0) t = (r0.set j (some (termCoeff t)), b0) from by
            simp [strideFold, hfind]] at h
          obtain ⟨h1, h2⟩ := strideFold_bad idxs ts _ _ i h
          refine ⟨h1, ?_⟩
          intro u hu hun
          rcases List.mem_cons.mp hu with hu | hu
          · subst hu
            rw [hfind] at hun
            exact Option.noConfusion hun
          · exact h2 u hu hun
      | none =>
          rw [show strideFold idxs (r0, b0) t = (r0, b0 ++ nvars (termKey t)) from by
            simp [strideFold, hfind]] at h
          obtain ⟨h1, h2⟩ := strideFold_bad idxs ts _ _ i h
          rw [List.mem_append] at h1
          push_neg at h1
          refine ⟨h1.1, ?_⟩
          intro u hu hun
          rcases List.mem_cons.mp hu with hu | hu
          · subst hu
            exact h1.2
          · exact h2 u hu hun

theorem strideFold_ret (idxs : List Node) :
    ∀ (ts : List Node) (r0 : List (Option Int)) (b0 : List Nat) (i : Nat) (s : Int),
      idxs.length ≤ r0.length →
      (ts.foldl (strideFold idxs) (r0, b0)).1.getD i none = some s →
      (∃ t ∈ ts, idxs.indexOf? (termKey t) = some i ∧ termCoeff t = s) ∨
      ((∀ t ∈ ts, idxs.indexOf? (termKey t) ≠ some i) ∧ r0.getD i none = some s)
  | [], r0, b0, i, s, _, h => by
      right
      refine ⟨?_, h⟩
      intro t ht
      simp at ht
  | t :: ts, r0, b0, i, s, hlen, h => by
      rw [List.foldl_cons] at h
      cases hfind : idxs.indexOf? (termKey t) with
      | some j =>
          rw [show strideFold idxs (r0, b0) t = (r0.set j (some (termCoeff t)), b0) from by
            simp [strideFold, hfind]] at h
          rcases strideFold_ret idxs ts _ _ i s (by simpa using hlen) h with
            hres | ⟨hnone, hget⟩
          · obtain ⟨u, hu, hufind, hucoeff⟩ := hres
            exact Or.inl ⟨u, by simp [hu], hufind, hucoeff⟩
          · by_cases hji : j = i
            · subst hji
              have hjlt : j < r0.length :=
                lt_of_lt_of_le (indexOf?_spec (Node.num 0) idxs _ _ hfind).1 hlen
              rw [getD_set_self _ _ _ _ hjlt] at hget
              exact Or.inl ⟨t, by simp, hfind, by simpa using hget⟩
            · rw [getD_set_ne _ _ _ _ _ (fun he => hji he.symm)] at hget
              right
              refine ⟨?_, hget⟩
              intro u hu
              rcases List.mem_cons.mp hu with hu | hu
              · subst hu
                rw [hfind]
                intro hc
                injection hc with hc
                exact hji hc
              · exact hnone u hu
      | none =>
          rw [show strideFold idxs (r0, b0) t = (r0, b0 ++ nvars (termKey t)) from by
            simp [strideFold, hfind]] at h
          rcases strideFold_ret idxs ts _ _ i s hlen h with hres | ⟨hnone, hget⟩
          · obtain ⟨u, hu, hufind, hucoeff⟩ := hres
            exact Or.inl ⟨u, by simp [hu], hufind, hucoeff⟩
          · right
            refine ⟨?_, hget⟩
            intro u hu
            rcases List.mem_cons.mp hu with hu | hu
            · subst hu
              rw [hfind]
              exact fun hc => Option.noConfusion hc
            · exact hnone u hu

theorem Wf_sumTerms_keys (idx : Node) (h : Wf idx) :
    ((sumTerms idx).map splitKey).Nodup := by
  cases idx <;> first
    | exact h.2
    | exact List.nodup_singleton _

theorem evalN_sumTerms (ρ : Nat → Int) (idx : Node) :
    evalN ρ idx = sumEval ρ (sumTerms idx) := by
  cases idx <;> simp [sumTerms, sumEval, evalN]

theorem terms_linear (shape : List Int) (ts : List Node) (i : Nat) (s : Int)
    (ρ ρ' : Nat → Int) (hagree : ∀ j, j ≠ i → ρ j = ρ' j)
    (hnd : (ts.map splitKey).Nodup)
    (hnotbad : ∀ t ∈ ts, (varsFrom 0 shape).indexOf? (termKey t) = none →
      i ∉ nvars (termKey t))
    (t0 : Node) (ht0 : t0 ∈ ts)
    (hfound : (varsFrom 0 shape).indexOf? (termKey t0) = some i)
    (hcoeff : termCoeff t0 = s) :
    sumEval ρ ts - sumEval ρ' ts = s * (ρ i - ρ' i) := by
  have hkey : ∀ t ∈ ts, ((varsFrom 0 shape).indexOf? (termKey t) == some i) = true →
      termKey t = Node.var i 0 (shape.getD i 0 - 1) := by
    intro t _ ht
    have hfind : (varsFrom 0 shape).indexOf? (termKey t) = some i := by
      simpa using ht
    have hspec := indexOf?_spec (Node.num 0) _ _ _ hfind
    have hv := varsFrom_getD (Node.num 0) 0 shape i
      (by simpa [varsFrom_length] using hspec.1)
    have hkt : termKey t = Node.var (0 + i) 0 (shape.getD i 0 - 1) := by
      rw [← hspec.2, hv]
    simpa using hkt
  have hsplit1 := sumEval_split ρ
    (fun t => (varsFrom 0 shape).indexOf? (termKey t) == some i) ts
  have hsplit2 := sumEval_split ρ'
    (fun t => (varsFrom 0 shape).indexOf? (termKey t) == some i) ts
  have hfilter : ts.filter
      (fun t => (varsFrom 0 shape).indexOf? (termKey t) == some i) = [t0] := by
    apply filter_key_unique splitKey _ ts hnd t0 ht0 (by simp [hfound])
    intro t ht hpt
    have h1 := hkey t ht hpt
    have h0 := hkey t0 ht0 (by simp [hfound])
    rw [splitKey_termKey_var _ _ _ t h1, splitKey_termKey_var _ _ _ t0 h0, h1, h0]
  have hother : sumEval ρ (ts.filter
      (fun t => !((varsFrom 0 shape).indexOf? (termKey t) == some i))) =
      sumEval ρ' (ts.filter
      (fun t => !((varsFrom 0 shape).indexOf? (termKey t) == some i))) := by
    apply sumEval_eq_of_terms
    intro t ht
    rw [List.mem_filter] at ht
    have hnp : ¬ ((varsFrom 0 shape).indexOf? (termKey t) = some i) := by
      simpa using ht.2
    cases hfind : (varsFrom 0 shape).indexOf? (termKey t) with
    | none =>
        exact termDiff_other ρ ρ' i hagree t
          (termKey_nvars t ▸ hnotbad t ht.1 hfind)
    | some j =>
        have hji : j ≠ i := fun he => hnp (he ▸ hfind)
        have hspec := indexOf?_spec (Node.num 0) _ _ _ hfind
        have hjlt : j < shape.length := by simpa [varsFrom_length] using hspec.1
        have hv := varsFrom_getD (Node.num 0) 0 shape j hjlt
        have hkt : termKey t = Node.var (0 + j) 0 (shape.getD j 0 - 1) := by
          rw [← hspec.2, hv]
        apply termDiff_other ρ ρ' i hagree t
        rw [← termKey_nvars t, hkt]
        simp [nvars, nvarsB]
        omega
  have ht0diff : evalN ρ t0 - evalN ρ' t0 = s * (ρ i - ρ' i) := by
    rw [← hcoeff]
    exact termDiff_found ρ ρ' i 0 (shape.getD i 0 - 1) t0
      (hkey t0 ht0 (by simp [hfound]))
  rw [hsplit1, hsplit2, hfilter, hother]
  simp only [sumEval]
  linarith [ht0diff]

/-- The stride-extraction fold of `real_strides` (lines 97-102) run on the
summands of the derived offset expression. -/
def strideData (idx : Node) (shape : List Int) : List (Option Int) × List Nat :=
  (sumTerms idx).foldl (strideFold (defaultIdxs shape))
    (List.replicate shape.length none, [])

/-- The per-dimension result entry of `real_strides` (lines 104-107). -/
def strideEntry (idx valid : Node) (shape : List Int) (iv : Bool) (i : Nat) :
    Option Int :=
  if i ∈ (strideData idx shape).2 ∨ (i ∈ nvars valid ∧ iv = false) then none
  else if ¬ i ∈ nvars idx then some 0
  else (strideData idx shape).1.getD i none

theorem real_strides_eq (init : List View) (last : View) (iv : Bool) :
    (ShapeTracker.mk (init ++ [last])).real_strides iv =
      if (init ++ [last]).length = 1 ∧ last.mask = none
      then some (last.strides.map some)
      else
        match (ShapeTracker.mk (init ++ [last])).exprIdxsD with
        | none => none
        | some (idx, valid) =>
            some ((List.range last.shape.length).map
              (strideEntry idx valid last.shape iv)) := by
  unfold ShapeTracker.real_strides
  rw [List.getLast?_concat, shape_concat]
  rfl

theorem entry_eval {α : Type} (g : Nat → α) (d : α) (n i : Nat) (h : i < n) :
    ((List.range n).map g).getD i d = g i := by
  rw [List.getD_eq_getElem _ _ (by simpa using h), List.getElem_map,
      List.getElem_range]

theorem strideFold_bad_mono (idxs : List Node) :
    ∀ (ts : List Node) (r0 : List (Option Int)) (b0 : List Nat) (i : Nat),
      i ∈ b0 → i ∈ (ts.foldl (strideFold idxs) (r0, b0)).2
  | [], _, _, _, h => h
  | t :: ts, r0, b0, i, h => by
      rw [List.foldl_cons]
      cases hfind : idxs.indexOf? (termKey t) with
      | some j =>
          rw [show strideFold idxs (r0, b0) t = (r0.set j (some (termCoeff t)), b0) from by
            simp [strideFold, hfind]]
          exact strideFold_bad_mono idxs ts _ _ i h
      | none =>
          rw [show strideFold idxs (r0, b0) t = (r0, b0 ++ nvars (termKey t)) from by
            simp [strideFold, hfind]]
          exact strideFold_bad_mono idxs ts _ _ i (by simp [h])

theorem strideFold_bad_mem (idxs : List Node) :
    ∀ (ts : List Node) (r0 : List (Option Int)) (b0 : List Nat) (t : Node) (i : Nat),
      t ∈ ts → idxs.indexOf? (termKey t) = none → i ∈ nvars (termKey t) →
      i ∈ (ts.foldl (strideFold idxs) (r0, b0)).2
  | [], _, _, t, _, ht, _, _ => by simp at ht
  | u :: ts, r0, b0, t, i, ht, hfind, hvar => by
      rw [List.foldl_cons]
      rcases List.mem_cons.mp ht with ht | ht
      · subst ht
        rw [show strideFold idxs (r0, b0) t = (r0, b0 ++ nvars (termKey t)) from by
          simp [strideFold, hfind]]
        exact strideFold_bad_mono idxs ts _ _ i (by simp [hvar])
      · cases hfindu : idxs.indexOf? (termKey u) with
        | some j =>
            rw [show strideFold idxs (r0, b0) u
                = (r0.set j (some (termCoeff u)), b0) from by
              simp [strideFold, hfindu]]
            exact strideFold_bad_mem idxs ts _ _ t i ht hfind hvar
        | none =>
            rw [show strideFold idxs (r0, b0) u
                = (r0, b0 ++ nvars (termKey u)) from by
              simp [strideFold, hfindu]]
            exact strideFold_bad_mem idxs ts _ _ t i ht hfind hvar

theorem strideFold_bad_sub (idxs : List Node) :
    ∀ (ts : List Node) (r0 : List (Option Int)) (b0 : List Nat) (i : Nat),
      i ∈ (ts.foldl (strideFold idxs) (r0, b0)).2 →
      i ∈ b0 ∨ ∃ t ∈ ts, idxs.indexOf? (termKey t) = none ∧ i ∈ nvars (termKey t)
  | [], _, _, _, h => Or.inl h
  | t :: ts, r0, b0, i, h => by
      rw [List.foldl_cons] at h
      cases hfind : idxs.indexOf? (termKey t) with
      | some j =>
          rw [show strideFold idxs (r0, b0) t = (r0.set j (some (termCoeff t)), b0) from by
            simp [strideFold, hfind]] at h
          rcases strideFold_bad_sub idxs ts _ _ i h with h | ⟨u, hu, h1, h2⟩
          · exact Or.inl h
          · exact Or.inr ⟨u, by simp [hu], h1, h2⟩
      | none =>
          rw [show strideFold idxs (r0, b0) t = (r0, b0 ++ nvars (termKey t)) from by
            simp [strideFold, hfind]] at h
          rcases strideFold_bad_sub idxs ts _ _ i h with h | ⟨u, hu, h1, h2⟩
          · rcases List.mem_append.mp h with h | h
            · exact Or.inl h
            · exact Or.inr ⟨t, by simp, hfind, h⟩
          · exact Or.inr ⟨u, by simp [hu], h1, h2⟩

/-- C4: `real_strides` postcondition: for every tracker (views stacked as
`init ++ [last]`, all well-formed) it returns one entry per logical
dimension; for a single unmasked view the result is exactly that view's
strides; a dimension whose variable occurs in the validity expression is
reported unknown (`none`) unless `ignore_valid` is set; and every definite
entry `some s` is a true linear coefficient of that dimension in the
derived offset expression: changing only that dimension's index changes
the offset by `s` times the change.  Outside the single-unmasked-view
case, a dimension whose variable occurs inside a non-separable combined
term (one whose grouping key is not an index variable) is reported
unknown (`none`), and a dimension whose variable appears in neither the
offset expression, the validity expression (unless ignored) nor such a
term gets entry `0`. -/
theorem claim_C4 (init : List View) (last : View) (iv : Bool)
    (hwf : ∀ v ∈ init ++ [last], ViewWF v) :
    ∃ ret idx valid,
      (ShapeTracker.mk (init ++ [last])).real_strides iv = some ret ∧
      (ShapeTracker.mk (init ++ [last])).exprIdxsD = some (idx, valid) ∧
      ret.length = last.shape.length ∧
      (init = [] ∧ last.mask = none → ret = last.strides.map some) ∧
      (∀ i, i < ret.length → ¬(init = [] ∧ last.mask = none) →
        i ∈ nvars valid → iv = false → ret.getD i none = none) ∧
      (∀ i, i < ret.length → ¬(init = [] ∧ last.mask = none) →
        (∃ t ∈ sumTerms idx, (defaultIdxs last.shape).indexOf? (termKey t) = none ∧
          i ∈ nvars (termKey t)) →
        ret.getD i none = none) ∧
      (∀ i, i < ret.length → ¬(init = [] ∧ last.mask = none) →
        ¬ (∃ t ∈ sumTerms idx, (defaultIdxs last.shape).indexOf? (termKey t) = none ∧
          i ∈ nvars (termKey t)) →
        ¬ (i ∈ nvars valid ∧ iv = false) →
        i ∉ nvars idx →
        ret.getD i none = some 0) ∧
      (∀ i s, i < ret.length → ret.getD i none = some s →
        ∀ ρ ρ', RhoBounds ρ 0 last.shape → RhoBounds ρ' 0 last.shape →
          (∀ j, j ≠ i → ρ j = ρ' j) →
          evalN ρ idx - evalN ρ' idx = s * (ρ i - ρ' i)) := by
  obtain ⟨idx, valid, hsome⟩ := exprIdxsD_isSome init last
  have hwl : last.strides.length = last.shape.length := (hwf last (by simp)).1
  by_cases hsc : init = [] ∧ last.mask = none
  · obtain ⟨hinit, hmask⟩ := hsc
    subst hinit
    have hrs : (ShapeTracker.mk ([] ++ [last])).real_strides iv
        = some (last.strides.map some) := by
      rw [real_strides_eq, if_pos ⟨rfl, hmask⟩]
    refine ⟨last.strides.map some, idx, valid, hrs, hsome, by simp [hwl],
      fun _ => rfl, ?_, ?_, ?_, ?_⟩
    · intro i _ hns _ _
      exact absurd ⟨rfl, hmask⟩ hns
    · intro i _ hns _
      exact absurd ⟨rfl, hmask⟩ hns
    · intro i _ hns _ _ _
      exact absurd ⟨rfl, hmask⟩ hns
    · intro i s hi hentry ρ ρ' hρ hρ' hagree
      have hi' : i < last.strides.length := by simpa using hi
      have hin : i < last.shape.length := by rw [← hwl]; exact hi'
      have hsv : last.strides.getD i 0 = s := by
        rw [List.getD_eq_getElem _ _ (by simpa using hi'), List.getElem_map] at hentry
        rw [List.getD_eq_getElem _ _ hi']
        exact Option.some.inj hentry
      obtain ⟨idx0, valid0, h1, _, _, _, _, hiff, haddr⟩ :=
        exprIdxsD_denote ρ [] last hwf hρ
      rw [hsome] at h1
      have h1' := Option.some.inj h1
      rw [Prod.mk.injEq] at h1'
      obtain ⟨he1, he2⟩ := h1'
      subst he1
      subst he2
      obtain ⟨idx0, valid0, h1b, _, _, _, _, hiff', haddr'⟩ :=
        exprIdxsD_denote ρ' [] last hwf hρ'
      rw [hsome] at h1b
      have h1b' := Option.some.inj h1b
      rw [Prod.mk.injEq] at h1b'
      obtain ⟨he1, he2⟩ := h1b'
      subst he1
      subst he2
      have hv1 : evalN ρ valid ≠ 0 := hiff.mpr ⟨by simp [semMask, hmask], rfl⟩
      have hv2 : evalN ρ' valid ≠ 0 := hiff'.mpr ⟨by simp [semMask, hmask], rfl⟩
      have ha1 := haddr hv1
      have ha2 := haddr' hv2
      have hdot := dotFrom_sub ρ ρ' i hagree 0 last.shape last.strides hwl.symm
      rw [if_pos ⟨Nat.zero_le i, by simpa using hin⟩] at hdot
      have hfin : evalN ρ idx - evalN ρ' idx = (ρ i - ρ' i) * s := by
        rw [ha1, ha2]
        have hd0 : (denote List.nil.reverse
              (last.offset + dotFrom ρ 0 last.shape last.strides)).1
            = last.offset + dotFrom ρ 0 last.shape last.strides := rfl
        have hd0' : (denote List.nil.reverse
              (last.offset + dotFrom ρ' 0 last.shape last.strides)).1
            = last.offset + dotFrom ρ' 0 last.shape last.strides := rfl
        rw [hd0, hd0']
        rw [show last.offset + dotFrom ρ 0 last.shape last.strides -
            (last.offset + dotFrom ρ' 0 last.shape last.strides)
            = dotFrom ρ 0 last.shape last.strides -
              dotFrom ρ' 0 last.shape last.strides from by ring, hdot]
        rw [show i - 0 = i from rfl, hsv]
      rw [hfin]
      ring
  · have hcond : ¬((init ++ [last]).length = 1 ∧ last.mask = none) := by
      intro hc
      apply hsc
      refine ⟨?_, hc.2⟩
      have h1 := hc.1
      rw [List.length_append] at h1
      simp only [List.length_singleton] at h1
      exact List.length_eq_zero.mp (by omega)
    have hrs : (ShapeTracker.mk (init ++ [last])).real_strides iv
        = some ((List.range last.shape.length).map
            (strideEntry idx valid last.shape iv)) := by
      rw [real_strides_eq, if_neg hcond, hsome]
    refine ⟨_, idx, valid, hrs, hsome, by simp, fun hc => absurd hc hsc,
      ?_, ?_, ?_, ?_⟩
    · intro i hi _ hvalid hiv
      have hin : i < last.shape.length := by simpa using hi
      rw [entry_eval _ _ _ _ hin]
      unfold strideEntry
      rw [if_pos (Or.inr ⟨hvalid, hiv⟩)]
    · intro i hi _ hex
      have hin : i < last.shape.length := by simpa using hi
      rw [entry_eval _ _ _ _ hin]
      unfold strideEntry
      obtain ⟨t, ht, hfind, hvar⟩ := hex
      have hbadmem : i ∈ (strideData idx last.shape).2 :=
        strideFold_bad_mem (defaultIdxs last.shape) (sumTerms idx)
          (List.replicate last.shape.length none) [] t i ht hfind hvar
      rw [if_pos (Or.inl hbadmem)]
    · intro i hi _ hnex hnv hnidx
      have hin : i < last.shape.length := by simpa using hi
      rw [entry_eval _ _ _ _ hin]
      unfold strideEntry
      have hnbad : i ∉ (strideData idx last.shape).2 := by
        intro hc
        rcases strideFold_bad_sub (defaultIdxs last.shape) (sumTerms idx)
            (List.replicate last.shape.length none) [] i hc with hc | hc
        · simp at hc
        · exact hnex hc
      rw [if_neg (fun hc => hc.elim hnbad hnv), if_pos hnidx]
    · intro i s hi hentry ρ ρ' hρ hρ' hagree
      have hin : i < last.shape.length := by simpa using hi
      rw [entry_eval _ _ _ _ hin] at hentry
      unfold strideEntry at hentry
      by_cases hbad : i ∈ (strideData idx last.shape).2 ∨
          (i ∈ nvars valid ∧ iv = false)
      · rw [if_pos hbad] at hentry
        exact absurd hentry (by simp)
      · rw [if_neg hbad] at hentry
        by_cases hidx : i ∈ nvars idx
        · rw [if_neg (fun hc => hc hidx)] at hentry
          obtain ⟨idx0, valid0, h1, _, _, hWf, _, _, _⟩ :=
            exprIdxsD_denote ρ init last hwf hρ
          rw [hsome] at h1
          have h1' := Option.some.inj h1
          rw [Prod.mk.injEq] at h1'
          obtain ⟨he1, he2⟩ := h1'
          subst he1
          subst he2
          have hnd := Wf_sumTerms_keys idx hWf
          have hbad' : i ∉ (strideData idx last.shape).2 :=
            fun hc => hbad (Or.inl hc)
          obtain ⟨_, hnotbad⟩ := strideFold_bad (defaultIdxs last.shape)
            (sumTerms idx) (List.replicate last.shape.length none) [] i hbad'
          rcases strideFold_ret (defaultIdxs last.shape) (sumTerms idx)
              (List.replicate last.shape.length none) [] i s
              (by simp [defaultIdxs, varsFrom_length]) hentry with
            hfound | ⟨_, hrep⟩
          · obtain ⟨t0, ht0, ht0find, ht0coeff⟩ := hfound
            rw [evalN_sumTerms ρ idx, evalN_sumTerms ρ' idx]
            exact terms_linear last.shape (sumTerms idx) i s ρ ρ' hagree hnd
              hnotbad t0 ht0 ht0find ht0coeff
          · rw [getD_replicate_self] at hrep
            exact absurd hrep (by simp)
        · rw [if_pos hidx] at hentry
          have hs0 : s = 0 := by simpa using hentry.symm
          have hdiff : evalN ρ idx = evalN ρ' idx := by
            apply evalCongr
            intro p hp
            by_cases hpi : p.1 = i
            · exact absurd (hpi ▸ List.mem_map_of_mem Prod.fst hp) hidx
            · exact hagree p.1 hpi
          rw [hs0, hdiff]
          ring

theorem claim_C4_witness :
    ∃ ret idx valid,
      (ShapeTracker.mk ([] ++ [View.create [2, 3]])).real_strides false = some ret ∧
      (ShapeTracker.mk ([] ++ [View.create [2, 3]])).exprIdxsD = some (idx, valid) ∧
      ret.length = (View.create [2, 3]).shape.length ∧
      (([] : List View) = [] ∧ (View.create [2, 3]).mask = none →
        ret = (View.create [2, 3]).strides.map some) ∧
      (∀ i, i < ret.length →
        ¬(([] : List View) = [] ∧ (View.create [2, 3]).mask = none) →
        i ∈ nvars valid → false = false → ret.getD i none = none) ∧
      (∀ i, i < ret.length →
        ¬(([] : List View) = [] ∧ (View.create [2, 3]).mask = none) →
        (∃ t ∈ sumTerms idx,
          (defaultIdxs (View.create [2, 3]).shape).indexOf? (termKey t) = none ∧
          i ∈ nvars (termKey t)) →
        ret.getD i none = none) ∧
      (∀ i, i < ret.length →
        ¬(([] : List View) = [] ∧ (View.create [2, 3]).mask = none) →
        ¬ (∃ t ∈ sumTerms idx,
          (defaultIdxs (View.create [2, 3]).shape).indexOf? (termKey t) = none ∧
          i ∈ nvars (termKey t)) →
        ¬ (i ∈ nvars valid ∧ false = false) →
        i ∉ nvars idx →
        ret.getD i none = some 0) ∧
      (∀ i s, i < ret.length → ret.getD i none = some s →
        ∀ ρ ρ', RhoBounds ρ 0 (View.create [2, 3]).shape →
          RhoBounds ρ' 0 (View.create [2, 3]).shape →
          (∀ j, j ≠ i → ρ j = ρ' j) →
          evalN ρ idx - evalN ρ' idx = s * (ρ i - ρ' i)) :=
  claim_C4 [] (View.create [2, 3]) false (fun v hv => by
    simp only [List.nil_append, List.mem_singleton] at hv
    subst hv
    exact ⟨by decide, fun m h => Option.noConfusion h⟩)

theorem dotFrom_stridesForShape : ∀ (ρ : Nat → Int) (k : Nat) (ds : List Int),
    dotFrom ρ k ds (stridesForShape ds) = flatFrom ρ k ds
  | _, _, [] => by simp [dotFrom, stridesForShape, flatFrom]
  | ρ, k, d :: ds => by
      simp only [stridesForShape, dotFrom, flatFrom]
      rw [dotFrom_stridesForShape ρ (k + 1) ds]

theorem dotFrom_zero : ∀ (k : Nat) (ds ss : List Int),
    dotFrom (fun _ => 0) k ds ss = 0
  | _, [], ss => by cases ss <;> simp [dotFrom]
  | _, d :: ds, [] => by simp [dotFrom]
  | k, d :: ds, s :: ss => by
      simp only [dotFrom]
      rw [dotFrom_zero (k + 1) ds ss]
      ring

theorem addrSem_zero : ∀ (ds ss : List Int), addrSem ds ss 0 = 0
  | [], ss => by cases ss <;> simp [addrSem]
  | d :: ds, [] => by simp [addrSem]
  | d :: ds, s :: ss => by
      simp only [addrSem]
      rw [addrSem_zero ds ss]
      simp

theorem maskSem_nil_mask : ∀ (ds : List Int) (a : Int), maskSem ds [] a = true := by
  intro ds a
  cases ds <;> rfl

theorem varsFrom_fst_lt : ∀ (k : Nat) (ds : List Int) (p : Nat × Int × Int),
    p ∈ nvarsBL (varsFrom k ds) → p.1 < k + ds.length
  | _, [], p, hp => by simp [varsFrom, nvarsBL] at hp
  | k, d :: ds, p, hp => by
      simp only [varsFrom, nvarsBL, nvarsB, List.mem_append] at hp
      rcases hp with hp | hp
      · simp only [List.mem_singleton] at hp
        subst hp
        simp
      · have := varsFrom_fst_lt (k + 1) ds p hp
        simp only [List.length_cons]
        omega

theorem zeroRho_bounds : ∀ (k : Nat) (ds : List Int), (∀ d ∈ ds, 0 < d) →
    RhoBounds (fun _ => 0) k ds
  | _, [], _ => trivial
  | k, d :: ds, h => by
      refine ⟨⟨le_refl 0, ?_⟩, zeroRho_bounds (k + 1) ds (fun x hx => h x (by simp [hx]))⟩
      have := h d (by simp)
      show (0 : Int) ≤ d - 1
      omega

/-- Truncation of a valuation to the first `n` coordinates. -/
def cutRho (ρ : Nat → Int) (n : Nat) : Nat → Int := fun j => if j < n then ρ j else 0

/-- Partial sum of the first `n` values of an integer sequence. -/
def sumTo (f : Nat → Int) : Nat → Int
  | 0 => 0
  | n + 1 => sumTo f n + f n

theorem sumTo_congr : ∀ (n : Nat) (f g : Nat → Int), (∀ j, j < n → f j = g j) →
    sumTo f n = sumTo g n
  | 0, _, _, _ => rfl
  | n + 1, f, g, h => by
      simp only [sumTo]
      rw [sumTo_congr n f g (fun j hj => h j (by omega)), h n (by omega)]

theorem sumTo_peel : ∀ (n : Nat) (f : Nat → Int),
    sumTo f (n + 1) = f 0 + sumTo (fun j => f (j + 1)) n
  | 0, f => by simp [sumTo]
  | n + 1, f => by
      rw [show sumTo f (n + 1 + 1) = sumTo f (n + 1) + f (n + 1) from rfl,
        sumTo_peel n f,
        show sumTo (fun j => f (j + 1)) (n + 1)
          = sumTo (fun j => f (j + 1)) n + f (n + 1) from rfl]
      ring

theorem dotFrom_sumTo (ρ : Nat → Int) : ∀ (ds ss : List Int) (k : Nat),
    ds.length = ss.length →
    dotFrom ρ k ds ss = sumTo (fun j => ss.getD j 0 * ρ (k + j)) ds.length
  | [], [], _, _ => rfl
  | [], s :: ss, k, h => by simp at h
  | d :: ds, [], k, h => by simp at h
  | d :: ds, s :: ss, k, hlen => by
      simp only [dotFrom, List.length_cons]
      rw [sumTo_peel, dotFrom_sumTo ρ ds ss (k + 1) (by simpa using hlen)]
      rw [sumTo_congr ds.length (fun j => ss.getD j 0 * ρ (k + 1 + j))
        (fun j => (s :: ss).getD (j + 1) 0 * ρ (k + (j + 1)))
        (fun j _ => by
          show ss.getD j 0 * ρ (k + 1 + j) = (s :: ss).getD (j + 1) 0 * ρ (k + (j + 1))
          rw [List.getD_cons_succ, show k + 1 + j = k + (j + 1) from by omega])]
      simp only [List.getD_cons_zero, Nat.add_zero]
      ring

theorem eval_telescope (idx : Node) (c : Nat → Int) :
    ∀ (n : Nat) (ρ ρ' : Nat → Int),
      (∀ i, i < n → ∀ σ σ' : Nat → Int, (∀ j, j ≠ i → σ j = σ' j) →
        evalN σ idx - evalN σ' idx = c i * (σ i - σ' i)) →
      (∀ j, n ≤ j → ρ j = ρ' j) →
      evalN ρ idx - evalN ρ' idx = sumTo (fun j => c j * (ρ j - ρ' j)) n
  | 0, ρ, ρ', _, htail => by
      rw [evalCongr idx ρ ρ' (fun p _ => htail p.1 (Nat.zero_le _))]
      simp [sumTo]
  | n + 1, ρ, ρ', hlin, htail => by
      have h1 : evalN ρ idx - evalN (Function.update ρ n (ρ' n)) idx
          = c n * (ρ n - ρ' n) := by
        have := hlin n (by omega) ρ (Function.update ρ n (ρ' n))
          (fun j hj => (Function.update_noteq hj _ _).symm)
        rwa [Function.update_same] at this
      have h2 := eval_telescope idx c n (Function.update ρ n (ρ' n)) ρ'
        (fun i hi σ σ' hσ => hlin i (by omega) σ σ' hσ)
        (fun j hj => by
          by_cases hjn : j = n
          · subst hjn
            exact Function.update_same _ _ _
          · rw [Function.update_noteq hjn]
            exact htail j (by omega))
      have h3 : sumTo (fun j => c j * (Function.update ρ n (ρ' n) j - ρ' j)) n
          = sumTo (fun j => c j * (ρ j - ρ' j)) n := by
        apply sumTo_congr
        intro j hj
        rw [Function.update_noteq (by omega)]
      rw [h3] at h2
      rw [show sumTo (fun j => c j * (ρ j - ρ' j)) (n + 1)
        = sumTo (fun j => c j * (ρ j - ρ' j)) n + c n * (ρ n - ρ' n) from rfl]
      omega

theorem strideEntry_linear (idx valid : Node) (shape : List Int) (iv : Bool)
    (hWf : Wf idx) (i : Nat) (s : Int)
    (hentry : strideEntry idx valid shape iv i = some s)
    (ρ ρ' : Nat → Int) (hagree : ∀ j, j ≠ i → ρ j = ρ' j) :
    evalN ρ idx - evalN ρ' idx = s * (ρ i - ρ' i) := by
  unfold strideEntry at hentry
  by_cases hbad : i ∈ (strideData idx shape).2 ∨ (i ∈ nvars valid ∧ iv = false)
  · rw [if_pos hbad] at hentry
    exact absurd hentry (by simp)
  · rw [if_neg hbad] at hentry
    by_cases hidx : i ∈ nvars idx
    · rw [if_neg (fun hc => hc hidx)] at hentry
      have hnd := Wf_sumTerms_keys idx hWf
      have hbad' : i ∉ (strideData idx shape).2 := fun hc => hbad (Or.inl hc)
      obtain ⟨_, hnotbad⟩ := strideFold_bad (defaultIdxs shape)
        (sumTerms idx) (List.replicate shape.length none) [] i hbad'
      rcases strideFold_ret (defaultIdxs shape) (sumTerms idx)
          (List.replicate shape.length none) [] i s
          (by simp [defaultIdxs, varsFrom_length]) hentry with
        hfound | ⟨_, hrep⟩
      · obtain ⟨t0, ht0, ht0find, ht0coeff⟩ := hfound
        rw [evalN_sumTerms ρ idx, evalN_sumTerms ρ' idx]
        exact terms_linear shape (sumTerms idx) i s ρ ρ' hagree hnd
          hnotbad t0 ht0 ht0find ht0coeff
      · rw [getD_replicate_self] at hrep
        exact absurd hrep (by simp)
    · rw [if_pos hidx] at hentry
      have hs0 : s = 0 := by simpa using hentry.symm
      have hdiff : evalN ρ idx = evalN ρ' idx := by
        apply evalCongr
        intro p hp
        by_cases hpi : p.1 = i
        · exact absurd (hpi ▸ List.mem_map_of_mem Prod.fst hp) hidx
        · exact hagree p.1 hpi
      rw [hs0, hdiff]
      ring

theorem opt_eq_some_getD : ∀ (o : Option Int), o ≠ none → o = some (o.getD 0) := by
  intro o h
  cases o with
  | none => exact absurd rfl h
  | some a => rfl

/-- C1 counterexample: with `vm2 = View.create [4]` (contiguous) and
`vm1 = ⟨[1], [0], 100, none⟩`, `merge_views` returns `vm1` (outer-contiguous
case), yet at the only index (which is valid under the inner view) the
two-view composition addresses physical cell `0` while the merged single
view addresses cell `100`: the merged expressions do not equal the composed
ones. -/
theorem claim_C1_cex :
    merge_views (View.create [4]) ⟨[1], [0], 100, none⟩
        = some ⟨[1], [0], 100, none⟩ ∧
    ((ShapeTracker.mk [View.create [4], ⟨[1], [0], 100, none⟩]).exprIdxsD.map
      (fun p => (evalN (fun _ => 0) p.1, evalN (fun _ => 0) p.2)))
      = some (0, 1) ∧
    ((ShapeTracker.mk [(⟨[1], [0], 100, none⟩ : View)]).exprIdxsD.map
      (fun p => (evalN (fun _ => 0) p.1, evalN (fun _ => 0) p.2)))
      = some (100, 1) := by
  refine ⟨by decide, by decide, by decide⟩

/-- Merge soundness core, with an address-range proviso: if
`merge_views vm2 vm1` returns a view `v` then, for every in-range index
valuation whose inner-view address lies inside the outer view's index
space, the validity expressions of the single merged view and of the
two-view composition agree, and where valid the offset expressions
agree. -/
theorem merge_sound (vm2 vm1 v : View)
    (hwf2 : ViewWF vm2) (hwf1 : ViewWF vm1)
    (hpos2 : ∀ d ∈ vm2.shape, 0 < d)
    (hm : merge_views vm2 vm1 = some v) :
    ∃ idx2 valid2 idx1 valid1,
      (ShapeTracker.mk [vm2, vm1]).exprIdxsD = some (idx2, valid2) ∧
      (ShapeTracker.mk [v]).exprIdxsD = some (idx1, valid1) ∧
      ∀ ρ, RhoBounds ρ 0 vm1.shape →
        0 ≤ vm1.offset + dotFrom ρ 0 vm1.shape vm1.strides →
        vm1.offset + dotFrom ρ 0 vm1.shape vm1.strides < prodL vm2.shape →
        ((evalN ρ valid1 ≠ 0 ↔ evalN ρ valid2 ≠ 0) ∧
         (evalN ρ valid2 ≠ 0 → evalN ρ idx1 = evalN ρ idx2)) := by
  have hwfT2 : ∀ u ∈ [vm2] ++ [vm1], ViewWF u := by
    intro u hu
    rcases List.mem_cons.mp hu with hu | hu
    · subst hu; exact hwf2
    · rcases List.mem_singleton.mp hu with hu
      subst hu; exact hwf1
  obtain ⟨e0, he0⟩ : ∃ e, expr_idxs vm1 (varsFrom 0 vm1.shape) = some e := by
    unfold expr_idxs
    rw [if_pos (varsFrom_length 0 vm1.shape)]
    exact ⟨_, rfl⟩
  obtain ⟨f0, hf0⟩ : ∃ f, idxs_to_idx vm1.shape (varsFrom 0 vm1.shape) = some f := by
    unfold idxs_to_idx
    rw [if_pos (varsFrom_length 0 vm1.shape)]
    exact ⟨_, rfl⟩
  have hstruct : (ShapeTracker.mk ([vm2] ++ [vm1])).exprIdxsD
      = some (exprFold [vm2] e0 (expr_node_mask vm1 f0 none)) := by
    rw [exprIdxsD_concat, he0, hf0]
    rfl
  have hstructL : (ShapeTracker.mk [vm2, vm1]).exprIdxsD
      = some (exprFold [vm2] e0 (expr_node_mask vm1 f0 none)) := hstruct
  unfold merge_views at hm
  by_cases h1 : vm1.contiguous ∧ vm1.shape = vm2.shape
  · -- case 1: inner contiguous with matching shape, v = vm2
    rw [if_pos h1] at hm
    have hveq : vm2 = v := Option.some.inj hm
    subst hveq
    obtain ⟨hcont, hsh⟩ := h1
    obtain ⟨hoff1, hmask1, hstr1⟩ := hcont
    obtain ⟨idx1, valid1, hs1⟩ := exprIdxsD_isSome [] vm2
    refine ⟨_, _, idx1, valid1, (by rw [hstructL]), hs1, ?_⟩
    intro ρ hρ hlo hhi
    have hρ2 : RhoBounds ρ 0 vm2.shape := hsh ▸ hρ
    obtain ⟨idxA, validA, hA, _, _, _, _, hiffA, haddrA⟩ :=
      exprIdxsD_denote ρ [vm2] vm1 hwfT2 hρ
    rw [hstruct] at hA
    have hA' := Option.some.inj hA
    rw [show (exprFold [vm2] e0 (expr_node_mask vm1 f0 none)).1 = idxA from
          congrArg Prod.fst hA',
        show (exprFold [vm2] e0 (expr_node_mask vm1 f0 none)).2 = validA from
          congrArg Prod.snd hA']
    obtain ⟨idxB, validB, hB, _, _, _, _, hiffB, haddrB⟩ :=
      exprIdxsD_denote ρ [] vm2 (by intro u hu
                                    rcases List.mem_singleton.mp hu with hu
                                    subst hu; exact hwf2) hρ2
    rw [hs1] at hB
    have hB' := Option.some.inj hB
    rw [show idx1 = idxB from congrArg Prod.fst hB',
        show valid1 = validB from congrArg Prod.snd hB']
    have ha : vm1.offset + dotFrom ρ 0 vm1.shape vm1.strides
        = flatFrom ρ 0 vm1.shape := by
      rw [hoff1, hstr1, dotFrom_stridesForShape]
      ring
    have hsm1 : semMask vm1 (flatFrom ρ 0 vm1.shape) = true := by
      simp [semMask, hmask1]
    have hden2 : (denote [vm2].reverse
        (vm1.offset + dotFrom ρ 0 vm1.shape vm1.strides)).2
        = semMask vm2 (flatFrom ρ 0 vm1.shape) := by
      rw [ha]
      show (semMask vm2 (flatFrom ρ 0 vm1.shape) && true)
          = semMask vm2 (flatFrom ρ 0 vm1.shape)
      rw [Bool.and_true]
    have hden1 : (denote [vm2].reverse
        (vm1.offset + dotFrom ρ 0 vm1.shape vm1.strides)).1
        = semAddr vm2 (flatFrom ρ 0 vm1.shape) := by
      rw [ha]
      rfl
    have hflat : flatFrom ρ 0 vm1.shape = flatFrom ρ 0 vm2.shape := by rw [hsh]
    constructor
    · rw [hiffA, hiffB, hden2, hsm1]
      constructor
      · rintro ⟨hx, -⟩
        exact ⟨rfl, by rw [hflat]; exact hx⟩
      · rintro ⟨-, hx⟩
        exact ⟨by rw [← hflat]; exact hx, rfl⟩
    · intro hv2
      have hv1 : evalN ρ validB ≠ 0 := by
        rw [hiffB]
        have hx := (hiffA.mp hv2).2
        rw [hden2] at hx
        exact ⟨by rw [hflat] at hx; exact hx, rfl⟩
      rw [haddrA hv2, haddrB hv1, hden1]
      show (denote [].reverse (vm2.offset + dotFrom ρ 0 vm2.shape vm2.strides)).1
          = semAddr vm2 (flatFrom ρ 0 vm1.shape)
      rw [hflat]
      show vm2.offset + dotFrom ρ 0 vm2.shape vm2.strides
          = semAddr vm2 (flatFrom ρ 0 vm2.shape)
      unfold semAddr
      rw [addrSem_flatFrom vm2.shape vm2.strides 0 hρ2]
  · rw [if_neg h1] at hm
    by_cases h2 : vm2.contiguous
    · -- case 2: outer contiguous, v = vm1
      rw [if_pos h2] at hm
      have hveq : vm1 = v := Option.some.inj hm
      subst hveq
      obtain ⟨hoff2, hmask2, hstr2⟩ := h2
      obtain ⟨idx1, valid1, hs1⟩ := exprIdxsD_isSome [] vm1
      refine ⟨_, _, idx1, valid1, (by rw [hstructL]), hs1, ?_⟩
      intro ρ hρ hlo hhi
      obtain ⟨idxA, validA, hA, _, _, _, _, hiffA, haddrA⟩ :=
        exprIdxsD_denote ρ [vm2] vm1 hwfT2 hρ
      rw [hstruct] at hA
      have hA' := Option.some.inj hA
      rw [show (exprFold [vm2] e0 (expr_node_mask vm1 f0 none)).1 = idxA from
            congrArg Prod.fst hA',
          show (exprFold [vm2] e0 (expr_node_mask vm1 f0 none)).2 = validA from
            congrArg Prod.snd hA']
      obtain ⟨idxB, validB, hB, _, _, _, _, hiffB, haddrB⟩ :=
        exprIdxsD_denote ρ [] vm1 (by intro u hu
                                      rcases List.mem_singleton.mp hu with hu
                                      subst hu; exact hwf1) hρ
      rw [hs1] at hB
      have hB' := Option.some.inj hB
      rw [show idx1 = idxB from congrArg Prod.fst hB',
          show valid1 = validB from congrArg Prod.snd hB']
      have hden2 : (denote [vm2].reverse
          (vm1.offset + dotFrom ρ 0 vm1.shape vm1.strides)).2 = true := by
        show (semMask vm2 (vm1.offset + dotFrom ρ 0 vm1.shape vm1.strides)
            && (denote [] (semAddr vm2
              (vm1.offset + dotFrom ρ 0 vm1.shape vm1.strides))).2) = true
        rw [show semMask vm2 (vm1.offset + dotFrom ρ 0 vm1.shape vm1.strides)
            = true from by simp [semMask, hmask2]]
        rfl
      constructor
      · rw [hiffA, hiffB, hden2]
        constructor
        · rintro ⟨hx, -⟩
          exact ⟨hx, rfl⟩
        · rintro ⟨hx, -⟩
          exact ⟨hx, rfl⟩
      · intro hv2
        have hv1 : evalN ρ validB ≠ 0 := by
          rw [hiffB]
          exact ⟨(hiffA.mp hv2).1, rfl⟩
        rw [haddrA hv2, haddrB hv1]
        show vm1.offset + dotFrom ρ 0 vm1.shape vm1.strides
            = (denote [vm2].reverse (vm1.offset + dotFrom ρ 0 vm1.shape vm1.strides)).1
        show vm1.offset + dotFrom ρ 0 vm1.shape vm1.strides
            = semAddr vm2 (vm1.offset + dotFrom ρ 0 vm1.shape vm1.strides)
        unfold semAddr
        rw [hoff2, hstr2,
          addrSem_recompose vm2.shape _ hpos2 hlo,
          Int.emod_eq_of_lt hlo hhi]
        ring
    · rw [if_neg h2] at hm
      by_cases h3 : maskTruthy vm2.mask ∨ vm1.offset ≠ 0
      · rw [if_pos h3] at hm
        exact Option.noConfusion hm
      · rw [if_neg h3] at hm
        push_neg at h3
        obtain ⟨hmask2, hoff1⟩ := h3
        have hmask2' : vm2.mask = none ∨ vm2.mask = some [] := by
          unfold maskTruthy at hmask2
          push_neg at hmask2
          by_cases hn : vm2.mask = none
          · exact Or.inl hn
          · exact Or.inr (hmask2 hn)
        cases hrs' : (ShapeTracker.mk [vm2, vm1]).real_strides false with
        | none =>
            rw [hrs'] at hm
            exact Option.noConfusion hm
        | some sl =>
            rw [hrs'] at hm
            have hm2 : (if (none : Option Int) ∈ sl then (none : Option View)
                else some ⟨vm1.shape, sl.map (fun s => s.getD 0),
                  vm2.offset, vm1.mask⟩) = some v := hm
            by_cases h4 : (none : Option Int) ∈ sl
            · rw [if_pos h4] at hm2
              exact Option.noConfusion hm2
            · rw [if_neg h4] at hm2
              have hveq : (⟨vm1.shape, sl.map (fun s => s.getD 0),
                  vm2.offset, vm1.mask⟩ : View) = v := Option.some.inj hm2
              subst hveq
              obtain ⟨idx1, valid1, hs1⟩ := exprIdxsD_isSome []
                ⟨vm1.shape, sl.map (fun s => s.getD 0), vm2.offset, vm1.mask⟩
              have hsmv2 : ∀ x : Int, semMask vm2 x = true := by
                intro x
                rcases hmask2' with h | h
                · simp [semMask, h]
                · simp [semMask, h, maskSem_nil_mask]
              have hden2 : ∀ x : Int, (denote [vm2].reverse x).2 = true := by
                intro x
                show (semMask vm2 x && (denote [] (semAddr vm2 x)).2) = true
                rw [hsmv2]
                rfl
              have hrs2 : (ShapeTracker.mk ([vm2] ++ [vm1])).real_strides false
                  = some sl := hrs'
              rw [real_strides_eq, if_neg (by simp)] at hrs2
              by_cases hsc : nmax (expr_node_mask vm1 f0 none) = 0
              · -- short-circuit: the composed validity is statically zero,
                -- so no valuation is valid on either side
                have hpair : exprFold [vm2] e0 (expr_node_mask vm1 f0 none)
                    = (Node.num (-1), expr_node_mask vm1 f0 none) := by
                  simp [exprFold, hsc]
                have hstruct2 : (ShapeTracker.mk ([vm2] ++ [vm1])).exprIdxsD
                    = some (Node.num (-1), expr_node_mask vm1 f0 none) := by
                  rw [hstruct, hpair]
                rw [hstruct2] at hrs2
                have hsl : some ((List.range vm1.shape.length).map
                    (strideEntry (Node.num (-1)) (expr_node_mask vm1 f0 none)
                      vm1.shape false)) = some sl := hrs2
                have hlen_sl : sl.length = vm1.shape.length := by
                  rw [← Option.some.inj hsl]
                  simp
                refine ⟨_, _, idx1, valid1, (by rw [hstructL]), hs1, ?_⟩
                intro ρ hρ hlo hhi
                obtain ⟨idxA, validA, hA, _, _, _, _, hiffA, haddrA⟩ :=
                  exprIdxsD_denote ρ [vm2] vm1 hwfT2 hρ
                rw [hstruct] at hA
                have hA' := Option.some.inj hA
                rw [show (exprFold [vm2] e0 (expr_node_mask vm1 f0 none)).1 = idxA from
                      congrArg Prod.fst hA',
                    show (exprFold [vm2] e0 (expr_node_mask vm1 f0 none)).2 = validA from
                      congrArg Prod.snd hA']
                obtain ⟨idxB, validB, hB, _, _, _, _, hiffB, haddrB⟩ :=
                  exprIdxsD_denote ρ []
                    ⟨vm1.shape, sl.map (fun s => s.getD 0), vm2.offset, vm1.mask⟩
                    (by intro u hu
                        rcases List.mem_singleton.mp hu with hu
                        subst hu
                        exact ⟨by simp [hlen_sl], fun m hm3 => hwf1.2 m hm3⟩) hρ
                rw [hs1] at hB
                have hB' := Option.some.inj hB
                rw [show idx1 = idxB from congrArg Prod.fst hB',
                    show valid1 = validB from congrArg Prod.snd hB']
                have hvalidA : validA = expr_node_mask vm1 f0 none := by
                  have h := congrArg Prod.snd hA'
                  rw [hpair] at h
                  exact h.symm
                have hInBw : InB ρ (expr_node_mask vm1 f0 none) := by
                  intro p hp
                  have h2 := expr_node_mask_varsB vm1 f0 none hp
                  rcases List.mem_append.mp h2 with h2 | h2
                  · simp at h2
                  · exact ((InBL_varsFrom 0 vm1.shape).mpr hρ) p
                      (idxs_to_idx_varsB hf0 h2)
                have hBoolw : BoolLike (expr_node_mask vm1 f0 none) :=
                  expr_node_mask_BoolLike vm1 f0 none
                    (fun x hx => Option.noConfusion hx)
                have hw00 : evalN ρ (expr_node_mask vm1 f0 none) = 0 := by
                  have hb := (boundSound _ ρ hInBw).2
                  rw [hsc] at hb
                  rcases hBoolw ρ with h | h
                  · exact h
                  · omega
                have hnotA : ¬ (evalN ρ validA ≠ 0) := by
                  rw [hvalidA]
                  exact fun hc => hc hw00
                have hsm1f : ¬ (semMask vm1 (flatFrom ρ 0 vm1.shape) = true) :=
                  fun hc => hnotA (hiffA.mpr ⟨hc, hden2 _⟩)
                have hnotB : ¬ (evalN ρ validB ≠ 0) :=
                  fun hc => hsm1f ((hiffB.mp hc).1)
                exact ⟨⟨fun hc => absurd hc hnotB, fun hc => absurd hc hnotA⟩,
                  fun hv2 => absurd hv2 hnotA⟩
              · -- normal fold: the composed offset is genuinely linear in the
                -- index variables with the extracted strides as coefficients
                have hpair : exprFold [vm2] e0 (expr_node_mask vm1 f0 none)
                    = (expr_node vm2 e0,
                       expr_node_mask vm2 e0 (some (expr_node_mask vm1 f0 none))) := by
                  simp [exprFold, hsc]
                have hstruct2 : (ShapeTracker.mk ([vm2] ++ [vm1])).exprIdxsD
                    = some (expr_node vm2 e0,
                        expr_node_mask vm2 e0 (some (expr_node_mask vm1 f0 none))) := by
                  rw [hstruct, hpair]
                rw [hstruct2] at hrs2
                have hsl : some ((List.range vm1.shape.length).map
                    (strideEntry (expr_node vm2 e0)
                      (expr_node_mask vm2 e0 (some (expr_node_mask vm1 f0 none)))
                      vm1.shape false)) = some sl := hrs2
                have hslv : sl = (List.range vm1.shape.length).map
                    (strideEntry (expr_node vm2 e0)
                      (expr_node_mask vm2 e0 (some (expr_node_mask vm1 f0 none)))
                      vm1.shape false) := (Option.some.inj hsl).symm
                have hlen_sl : sl.length = vm1.shape.length := by
                  rw [hslv]
                  simp
                have centry : ∀ j, j < vm1.shape.length →
                    strideEntry (expr_node vm2 e0)
                      (expr_node_mask vm2 e0 (some (expr_node_mask vm1 f0 none)))
                      vm1.shape false j
                    = some ((strideEntry (expr_node vm2 e0)
                        (expr_node_mask vm2 e0 (some (expr_node_mask vm1 f0 none)))
                        vm1.shape false j).getD 0) := by
                  intro j hj
                  have hmem : strideEntry (expr_node vm2 e0)
                      (expr_node_mask vm2 e0 (some (expr_node_mask vm1 f0 none)))
                      vm1.shape false j ∈ sl := by
                    rw [hslv]
                    exact List.mem_map_of_mem _ (List.mem_range.mpr hj)
                  exact opt_eq_some_getD _ (fun hc => h4 (hc ▸ hmem))
                have cstrides : ∀ j, j < vm1.shape.length →
                    (sl.map (fun s => s.getD 0)).getD j 0
                    = (strideEntry (expr_node vm2 e0)
                        (expr_node_mask vm2 e0 (some (expr_node_mask vm1 f0 none)))
                        vm1.shape false j).getD 0 := by
                  intro j hj
                  rw [hslv, List.map_map, entry_eval _ _ _ _ hj]
                  rfl
                refine ⟨_, _, idx1, valid1, (by rw [hstructL]), hs1, ?_⟩
                intro ρ hρ hlo hhi
                obtain ⟨idxA, validA, hA, hsubA, _, hWfA, _, hiffA, haddrA⟩ :=
                  exprIdxsD_denote ρ [vm2] vm1 hwfT2 hρ
                rw [hstruct] at hA
                have hA' := Option.some.inj hA
                rw [show (exprFold [vm2] e0 (expr_node_mask vm1 f0 none)).1 = idxA from
                      congrArg Prod.fst hA',
                    show (exprFold [vm2] e0 (expr_node_mask vm1 f0 none)).2 = validA from
                      congrArg Prod.snd hA']
                obtain ⟨idxB, validB, hB, _, _, _, _, hiffB, haddrB⟩ :=
                  exprIdxsD_denote ρ []
                    ⟨vm1.shape, sl.map (fun s => s.getD 0), vm2.offset, vm1.mask⟩
                    (by intro u hu
                        rcases List.mem_singleton.mp hu with hu
                        subst hu
                        exact ⟨by simp [hlen_sl], fun m hm3 => hwf1.2 m hm3⟩) hρ
                rw [hs1] at hB
                have hB' := Option.some.inj hB
                rw [show idx1 = idxB from congrArg Prod.fst hB',
                    show valid1 = validB from congrArg Prod.snd hB']
                have hidxA : idxA = expr_node vm2 e0 := by
                  have h := congrArg Prod.fst hA'
                  rw [hpair] at h
                  exact h.symm
                have hiffFinal : (evalN ρ validB ≠ 0) ↔ (evalN ρ validA ≠ 0) := by
                  rw [hiffB, hiffA]
                  constructor
                  · rintro ⟨hx, -⟩
                    exact ⟨hx, hden2 _⟩
                  · rintro ⟨hx, -⟩
                    exact ⟨hx, rfl⟩
                refine ⟨hiffFinal, fun hv2 => ?_⟩
                have hv1 : evalN ρ validB ≠ 0 := hiffFinal.mpr hv2
                have hL : evalN ρ idxB
                    = vm2.offset + dotFrom ρ 0 vm1.shape
                        (sl.map (fun s => s.getD 0)) := by
                  rw [haddrB hv1]
                  rfl
                have hWfA' : Wf (expr_node vm2 e0) := hidxA ▸ hWfA
                have hsubA' : nvarsB (expr_node vm2 e0)
                    ⊆ nvarsBL (varsFrom 0 vm1.shape) := hidxA ▸ hsubA
                have hvars : ∀ p ∈ nvarsB (expr_node vm2 e0),
                    p.1 < vm1.shape.length := fun p hp => by
                  simpa using varsFrom_fst_lt 0 vm1.shape p (hsubA' hp)
                have e1 : evalN ρ (expr_node vm2 e0)
                    = evalN (cutRho ρ vm1.shape.length) (expr_node vm2 e0) := by
                  apply evalCongr
                  intro p hp
                  show ρ p.1 = cutRho ρ vm1.shape.length p.1
                  unfold cutRho
                  rw [if_pos (hvars p hp)]
                have htel := eval_telescope (expr_node vm2 e0)
                  (fun j => (strideEntry (expr_node vm2 e0)
                      (expr_node_mask vm2 e0 (some (expr_node_mask vm1 f0 none)))
                      vm1.shape false j).getD 0)
                  vm1.shape.length (cutRho ρ vm1.shape.length) (fun _ => 0)
                  (fun i hi σ σ' hσ => strideEntry_linear (expr_node vm2 e0)
                    (expr_node_mask vm2 e0 (some (expr_node_mask vm1 f0 none)))
                    vm1.shape false hWfA' i _ (centry i hi) σ σ' hσ)
                  (fun j hj => by
                    show cutRho ρ vm1.shape.length j = 0
                    unfold cutRho
                    rw [if_neg (by omega)])
                have hbase : evalN (fun _ => 0) (expr_node vm2 e0) = vm2.offset := by
                  have hInB0 : InB (fun _ => 0) e0 := fun p hp =>
                    ((InBL_varsFrom 0 vm1.shape).mpr
                      (zeroRho_bounds 0 vm1.shape (RhoBounds_dims_pos hρ))) p
                      (expr_idxs_varsB he0 hp)
                  rw [expr_node_eval (fun _ => 0) vm2 e0 hInB0 hwf2.1]
                  obtain ⟨e0x, he0x, hev0⟩ := expr_idxs_eval (fun _ => 0) vm1 0
                    (zeroRho_bounds 0 vm1.shape (RhoBounds_dims_pos hρ))
                  have he00 : e0x = e0 := Option.some.inj (he0x.symm.trans he0)
                  rw [← he00, hev0, hoff1, dotFrom_zero]
                  simp [semAddr, addrSem_zero]
                have hsum : dotFrom ρ 0 vm1.shape (sl.map (fun s => s.getD 0))
                    = sumTo (fun j => (strideEntry (expr_node vm2 e0)
                        (expr_node_mask vm2 e0 (some (expr_node_mask vm1 f0 none)))
                        vm1.shape false j).getD 0
                      * (cutRho ρ vm1.shape.length j - (fun _ => 0) j))
                      vm1.shape.length := by
                  rw [dotFrom_sumTo ρ vm1.shape _ 0 (by simp [hlen_sl])]
                  apply sumTo_congr
                  intro j hj
                  show (sl.map (fun s => s.getD 0)).getD j 0 * ρ (0 + j) = _
                  rw [cstrides j hj]
                  show _ = (strideEntry (expr_node vm2 e0)
                      (expr_node_mask vm2 e0 (some (expr_node_mask vm1 f0 none)))
                      vm1.shape false j).getD 0
                    * (cutRho ρ vm1.shape.length j - 0)
                  unfold cutRho
                  rw [if_pos hj]
                  rw [show (0 : Nat) + j = j from by omega]
                  ring
                rw [hL, hidxA, e1]
                linarith [htel, hbase, hsum]

/-- C1 (amended): merge soundness with an address-range proviso.  If
`merge_views vm2 vm1` returns a view `v` then, for every in-range index
valuation whose inner-view address lies inside the outer view's index
space (`0 ≤ addr < prod vm2.shape` — the proviso the counterexample
forces), the validity expressions of the single merged view and of the
two-view composition agree, and where valid the offset expressions
agree. -/
theorem claim_C1 (vm2 vm1 v : View)
    (hwf2 : ViewWF vm2) (hwf1 : ViewWF vm1)
    (hpos2 : ∀ d ∈ vm2.shape, 0 < d)
    (hm : merge_views vm2 vm1 = some v) :
    ∃ idx2 valid2 idx1 valid1,
      (ShapeTracker.mk [vm2, vm1]).exprIdxsD = some (idx2, valid2) ∧
      (ShapeTracker.mk [v]).exprIdxsD = some (idx1, valid1) ∧
      ∀ ρ, RhoBounds ρ 0 vm1.shape →
        0 ≤ vm1.offset + dotFrom ρ 0 vm1.shape vm1.strides →
        vm1.offset + dotFrom ρ 0 vm1.shape vm1.strides < prodL vm2.shape →
        ((evalN ρ valid1 ≠ 0 ↔ evalN ρ valid2 ≠ 0) ∧
         (evalN ρ valid2 ≠ 0 → evalN ρ idx1 = evalN ρ idx2)) :=
  merge_sound vm2 vm1 v hwf2 hwf1 hpos2 hm

theorem claim_C1_witness :
    ∃ idx2 valid2 idx1 valid1,
      (ShapeTracker.mk [View.create [4], ⟨[2], [1], 1, none⟩]).exprIdxsD
        = some (idx2, valid2) ∧
      (ShapeTracker.mk [(⟨[2], [1], 1, none⟩ : View)]).exprIdxsD
        = some (idx1, valid1) ∧
      ∀ ρ, RhoBounds ρ 0 (⟨[2], [1], 1, none⟩ : View).shape →
        0 ≤ (⟨[2], [1], 1, none⟩ : View).offset +
          dotFrom ρ 0 (⟨[2], [1], 1, none⟩ : View).shape
            (⟨[2], [1], 1, none⟩ : View).strides →
        (⟨[2], [1], 1, none⟩ : View).offset +
          dotFrom ρ 0 (⟨[2], [1], 1, none⟩ : View).shape
            (⟨[2], [1], 1, none⟩ : View).strides
          < prodL (View.create [4]).shape →
        ((evalN ρ valid1 ≠ 0 ↔ evalN ρ valid2 ≠ 0) ∧
         (evalN ρ valid2 ≠ 0 → evalN ρ idx1 = evalN ρ idx2)) :=
  claim_C1 (View.create [4]) ⟨[2], [1], 1, none⟩ ⟨[2], [1], 1, none⟩
    ⟨by decide, fun m h => Option.noConfusion h⟩
    ⟨by decide, fun m h => Option.noConfusion h⟩
    (by decide)
    (by decide)

/-- C3 counterexample: composing the single-view trackers over
`View.create [4]` and `⟨[1], [0], 100, none⟩` with `__add__` triggers the
outer-contiguous merge, and the composed tracker addresses cell `100` at
the only (valid) index while the genuine nesting of the two transforms
addresses cell `0`: the composition does not preserve the derived
expressions. -/
theorem claim_C3_cex :
    (ShapeTracker.mk [View.create [4]]).add
        (ShapeTracker.mk [⟨[1], [0], 100, none⟩])
      = ShapeTracker.mk [(⟨[1], [0], 100, none⟩ : View)] ∧
    (((ShapeTracker.mk [View.create [4]]).add
        (ShapeTracker.mk [⟨[1], [0], 100, none⟩])).exprIdxsD.map
      (fun p => (evalN (fun _ => 0) p.1, evalN (fun _ => 0) p.2)))
      = some (100, 1) ∧
    ((ShapeTracker.mk [View.create [4], ⟨[1], [0], 100, none⟩]).exprIdxsD.map
      (fun p => (evalN (fun _ => 0) p.1, evalN (fun _ => 0) p.2)))
      = some (0, 1) := by
  have hadd : (ShapeTracker.mk [View.create [4]]).add
      (ShapeTracker.mk [⟨[1], [0], 100, none⟩])
      = ShapeTracker.mk [(⟨[1], [0], 100, none⟩ : View)] := by
    show ShapeTracker.simplify
        (ShapeTracker.mk [View.create [4], ⟨[1], [0], 100, none⟩]) = _
    rw [simplify_two _ (by decide),
      show (ShapeTracker.mk [View.create [4], ⟨[1], [0], 100, none⟩]).views.getD
        ((ShapeTracker.mk [View.create [4],
          ⟨[1], [0], 100, none⟩]).views.length - 2) default
        = View.create [4] from rfl,
      show (ShapeTracker.mk [View.create [4], ⟨[1], [0], 100, none⟩]).views.getD
        ((ShapeTracker.mk [View.create [4],
          ⟨[1], [0], 100, none⟩]).views.length - 1) default
        = ⟨[1], [0], 100, none⟩ from rfl,
      show merge_views (View.create [4]) ⟨[1], [0], 100, none⟩
        = some ⟨[1], [0], 100, none⟩ from by decide]
    show ShapeTracker.simplify (ShapeTracker.mk [(⟨[1], [0], 100, none⟩ : View)])
        = ShapeTracker.mk [(⟨[1], [0], 100, none⟩ : View)]
    rw [simplify_small _ (by decide)]
  refine ⟨hadd, ?_, by decide⟩
  rw [hadd]
  decide

/-- Pointwise agreement of two index valuations from position `k` up
transfers `RhoBounds`. -/
theorem RhoBounds_congr : ∀ (k : Nat) (ds : List Int) (ρ ρ' : Nat → Int),
    (∀ j, k ≤ j → ρ j = ρ' j) → RhoBounds ρ k ds → RhoBounds ρ' k ds
  | _, [], _, _, _, _ => True.intro
  | k, d :: ds, ρ, ρ', hagree, h => by
      refine ⟨?_, RhoBounds_congr (k + 1) ds ρ ρ'
        (fun j hj => hagree j (by omega)) h.2⟩
      rw [← hagree k (le_refl k)]
      exact h.1

/-- Pointwise agreement of two index valuations from position `k` up
transfers the flat row-major value. -/
theorem flatFrom_congr : ∀ (k : Nat) (ds : List Int) (ρ ρ' : Nat → Int),
    (∀ j, k ≤ j → ρ j = ρ' j) → flatFrom ρ k ds = flatFrom ρ' k ds
  | _, [], _, _, _ => rfl
  | k, d :: ds, ρ, ρ', hagree => by
      show ρ k * prodL ds + flatFrom ρ (k + 1) ds
          = ρ' k * prodL ds + flatFrom ρ' (k + 1) ds
      rw [hagree k (le_refl k),
        flatFrom_congr (k + 1) ds ρ ρ' (fun j hj => hagree j (by omega))]

/-- Mixed-radix decoding: every flat address inside a positive shape's
index space is the flat row-major value of some in-range valuation. -/
theorem exists_decode : ∀ (ds : List Int) (k : Nat) (x : Int), (∀ d ∈ ds, 0 < d) →
    0 ≤ x → x < prodL ds → ∃ ρ, RhoBounds ρ k ds ∧ flatFrom ρ k ds = x
  | [], k, x, _, hlo, hhi => by
      refine ⟨fun _ => 0, True.intro, ?_⟩
      show (0 : Int) = x
      have hp : prodL ([] : List Int) = 1 := rfl
      omega
  | d :: ds, k, x, hpos, hlo, hhi => by
      have hd : 0 < d := hpos d (List.mem_cons_self d ds)
      have hP : 0 < prodL ds := prodL_pos (fun u hu => hpos u (List.mem_cons_of_mem d hu))
      have hrlo : 0 ≤ x % prodL ds := Int.emod_nonneg x (by omega)
      have hrhi : x % prodL ds < prodL ds := Int.emod_lt_of_pos x hP
      obtain ⟨ρ', hb', hf'⟩ := exists_decode ds (k + 1) (x % prodL ds)
        (fun u hu => hpos u (List.mem_cons_of_mem d hu)) hrlo hrhi
      have hq0 : 0 ≤ x / prodL ds := Int.ediv_nonneg hlo (le_of_lt hP)
      have hqd : x / prodL ds < d := by
        rw [Int.ediv_lt_iff_lt_mul hP]
        have hx : x < prodL (d :: ds) := hhi
        rw [show prodL (d :: ds) = d * prodL ds from rfl] at hx
        exact hx
      refine ⟨fun j => if j = k then x / prodL ds else ρ' j, ⟨?_, ?_⟩, ?_⟩
      · show 0 ≤ (if k = k then x / prodL ds else ρ' k)
            ∧ (if k = k then x / prodL ds else ρ' k) ≤ d - 1
        rw [if_pos rfl]
        omega
      · exact RhoBounds_congr (k + 1) ds ρ' _
          (fun j hj => by
            show ρ' j = if j = k then x / prodL ds else ρ' j
            rw [if_neg (by omega)]) hb'
      · show (if k = k then x / prodL ds else ρ' k) * prodL ds
            + flatFrom (fun j => if j = k then x / prodL ds else ρ' j) (k + 1) ds = x
        rw [if_pos rfl,
          ← flatFrom_congr (k + 1) ds ρ'
            (fun j => if j = k then x / prodL ds else ρ' j)
            (fun j hj => by
              show ρ' j = if j = k then x / prodL ds else ρ' j
              rw [if_neg (by omega)]),
          hf']
        have hdm := Int.ediv_add_emod x (prodL ds)
        linarith

/-- A successful `merge_views` preserves the structural view invariant. -/
theorem merge_views_wf {vm2 vm1 c : View} (hm : merge_views vm2 vm1 = some c)
    (hwf2 : ViewWF vm2) (hwf1 : ViewWF vm1) : ViewWF c := by
  unfold merge_views at hm
  by_cases h1 : vm1.contiguous ∧ vm1.shape = vm2.shape
  · rw [if_pos h1] at hm
    have h := Option.some.inj hm
    subst h
    exact hwf2
  · rw [if_neg h1] at hm
    by_cases h2 : vm2.contiguous
    · rw [if_pos h2] at hm
      have h := Option.some.inj hm
      subst h
      exact hwf1
    · rw [if_neg h2] at hm
      by_cases h3 : maskTruthy vm2.mask ∨ vm1.offset ≠ 0
      · rw [if_pos h3] at hm
        exact Option.noConfusion hm
      · rw [if_neg h3] at hm
        cases hrs' : (ShapeTracker.mk [vm2, vm1]).real_strides false with
        | none =>
            rw [hrs'] at hm
            exact Option.noConfusion hm
        | some sl =>
            rw [hrs'] at hm
            have hm2 : (if (none : Option Int) ∈ sl then (none : Option View)
                else some ⟨vm1.shape, sl.map (fun s => s.getD 0),
                  vm2.offset, vm1.mask⟩) = some c := hm
            by_cases h4 : (none : Option Int) ∈ sl
            · rw [if_pos h4] at hm2
              exact Option.noConfusion hm2
            · rw [if_neg h4] at hm2
              have hveq : (⟨vm1.shape, sl.map (fun s => s.getD 0),
                  vm2.offset, vm1.mask⟩ : View) = c := Option.some.inj hm2
              have hrs2 : (ShapeTracker.mk ([vm2] ++ [vm1])).real_strides false
                  = some sl := hrs'
              rw [real_strides_eq, if_neg (by simp)] at hrs2
              obtain ⟨idx, valid, hsome⟩ := exprIdxsD_isSome [vm2] vm1
              rw [hsome] at hrs2
              have hsl : some ((List.range vm1.shape.length).map
                  (strideEntry idx valid vm1.shape false)) = some sl := hrs2
              have hlen_sl : sl.length = vm1.shape.length := by
                rw [← Option.some.inj hsl]
                simp
              rw [← hveq]
              exact ⟨by simp [hlen_sl], fun m hm3 => hwf1.2 m hm3⟩

/-- Semantic reading of a sound merge at one in-range valuation whose
inner address obeys the range proviso: the merged view's mask equals the
conjunction of the two masks, and its address equals the composed
address wherever valid. -/
theorem merge_facts (vm2 vm1 c : View)
    (hwf2 : ViewWF vm2) (hwf1 : ViewWF vm1)
    (hpos2 : ∀ d ∈ vm2.shape, 0 < d)
    (hm : merge_views vm2 vm1 = some c)
    (ρ : Nat → Int) (hρ : RhoBounds ρ 0 vm1.shape)
    (hlo : 0 ≤ vm1.offset + dotFrom ρ 0 vm1.shape vm1.strides)
    (hhi : vm1.offset + dotFrom ρ 0 vm1.shape vm1.strides < prodL vm2.shape) :
    ((semMask vm1 (flatFrom ρ 0 vm1.shape) = true ∧
      semMask vm2 (vm1.offset + dotFrom ρ 0 vm1.shape vm1.strides) = true) ↔
      semMask c (flatFrom ρ 0 vm1.shape) = true) ∧
    (semMask c (flatFrom ρ 0 vm1.shape) = true →
     semAddr vm2 (vm1.offset + dotFrom ρ 0 vm1.shape vm1.strides)
       = c.offset + dotFrom ρ 0 vm1.shape c.strides) := by
  have hshc : c.shape = vm1.shape := merge_views_shape hm
  have hρc : RhoBounds ρ 0 c.shape := by
    rw [hshc]
    exact hρ
  obtain ⟨idx2, valid2, idx1, valid1, hs2, hs1, hequiv⟩ :=
    merge_sound vm2 vm1 c hwf2 hwf1 hpos2 hm
  obtain ⟨hiffE, haddrE⟩ := hequiv ρ hρ hlo hhi
  have hwfT2 : ∀ u ∈ [vm2] ++ [vm1], ViewWF u := by
    intro u hu
    rcases List.mem_cons.mp hu with hu | hu
    · subst hu
      exact hwf2
    · rcases List.mem_singleton.mp hu with hu
      subst hu
      exact hwf1
  obtain ⟨idxA, validA, hA, _, _, _, _, hiffA, haddrA⟩ :=
    exprIdxsD_denote ρ [vm2] vm1 hwfT2 hρ
  have hA2 : (ShapeTracker.mk [vm2, vm1]).exprIdxsD = some (idxA, validA) := hA
  have hpA := Option.some.inj (hs2.symm.trans hA2)
  have heA1 : idx2 = idxA := congrArg Prod.fst hpA
  have heA2 : valid2 = validA := congrArg Prod.snd hpA
  subst heA1
  subst heA2
  obtain ⟨idxB, validB, hB, _, _, _, _, hiffB, haddrB⟩ :=
    exprIdxsD_denote ρ [] c (by
      intro u hu
      rcases List.mem_singleton.mp hu with hu
      subst hu
      exact merge_views_wf hm hwf2 hwf1) hρc
  have hB2 : (ShapeTracker.mk [c]).exprIdxsD = some (idxB, validB) := hB
  have hpB := Option.some.inj (hs1.symm.trans hB2)
  have heB1 : idx1 = idxB := congrArg Prod.fst hpB
  have heB2 : valid1 = validB := congrArg Prod.snd hpB
  subst heB1
  subst heB2
  rw [hshc] at hiffB haddrB
  have hden2 : ∀ y : Int, (denote [vm2].reverse y).2
      = (semMask vm2 y && true) := fun y => rfl
  constructor
  · constructor
    · rintro ⟨h1m, h2m⟩
      have hv2 : evalN ρ valid2 ≠ 0 := by
        rw [hiffA]
        refine ⟨h1m, ?_⟩
        rw [hden2, h2m]
        rfl
      have hv1 : evalN ρ valid1 ≠ 0 := hiffE.mpr hv2
      exact (hiffB.mp hv1).1
    · intro h3m
      have hv1 : evalN ρ valid1 ≠ 0 := by
        rw [hiffB]
        exact ⟨h3m, rfl⟩
      have hv2 : evalN ρ valid2 ≠ 0 := hiffE.mp hv1
      obtain ⟨h1m, h2m⟩ := hiffA.mp hv2
      rw [hden2] at h2m
      refine ⟨h1m, ?_⟩
      simpa using h2m
  · intro h3m
    have hv1 : evalN ρ valid1 ≠ 0 := by
      rw [hiffB]
      exact ⟨h3m, rfl⟩
    have hv2 : evalN ρ valid2 ≠ 0 := hiffE.mp hv1
    have ha2 := haddrA hv2
    have ha1 := haddrB hv1
    have haE := haddrE hv2
    rw [show (denote [vm2].reverse
          (vm1.offset + dotFrom ρ 0 vm1.shape vm1.strides)).1
        = semAddr vm2 (vm1.offset + dotFrom ρ 0 vm1.shape vm1.strides)
      from rfl] at ha2
    rw [show (denote ([] : List View).reverse
          (c.offset + dotFrom ρ 0 vm1.shape c.strides)).1
        = c.offset + dotFrom ρ 0 vm1.shape c.strides from rfl] at ha1
    rw [← ha2, ← haE, ha1]

/-- Pointwise denotational agreement of two view stacks (listed
top-to-storage) at one flat address: equal validity, and equal physical
address wherever valid. -/
def dEquivAt (l1 l2 : List View) (x : Int) : Prop :=
  (denote l1 x).2 = (denote l2 x).2 ∧
  ((denote l1 x).2 = true → (denote l1 x).1 = (denote l2 x).1)

theorem dEquivAt_refl (l : List View) (x : Int) : dEquivAt l l x :=
  ⟨rfl, fun _ => rfl⟩

theorem dEquivAt_symm {l1 l2 : List View} {x : Int} (h : dEquivAt l1 l2 x) :
    dEquivAt l2 l1 x := by
  obtain ⟨h1, h2⟩ := h
  exact ⟨h1.symm, fun hv => (h2 (by rw [h1]; exact hv)).symm⟩

theorem dEquivAt_trans {l1 l2 l3 : List View} {x : Int}
    (h : dEquivAt l1 l2 x) (h2 : dEquivAt l2 l3 x) : dEquivAt l1 l3 x := by
  obtain ⟨ha, hb⟩ := h
  obtain ⟨hc, hd⟩ := h2
  exact ⟨ha.trans hc, fun hv => (hb hv).trans (hd (by rw [← ha]; exact hv))⟩

theorem dEquivAt_cons (v : View) {l1 l2 : List View} {x : Int}
    (h : dEquivAt l1 l2 (semAddr v x)) : dEquivAt (v :: l1) (v :: l2) x := by
  obtain ⟨h1, h2⟩ := h
  constructor
  · show (semMask v x && (denote l1 (semAddr v x)).2)
        = (semMask v x && (denote l2 (semAddr v x)).2)
    rw [h1]
  · intro hv
    have hv2 : (semMask v x && (denote l1 (semAddr v x)).2) = true := hv
    show (denote l1 (semAddr v x)).1 = (denote l2 (semAddr v x)).1
    exact h2 ((Bool.and_eq_true _ _).mp hv2).2

/-- Soundness of one merged step inside an arbitrary stack: when the
flat address is in range and the inner address obeys the range proviso,
replacing the two adjacent views by their merge leaves the denotation
unchanged. -/
theorem merge_step_dequiv (vm2 vm1 c : View) (rest : List View)
    (hwf2 : ViewWF vm2) (hwf1 : ViewWF vm1)
    (hpos2 : ∀ d ∈ vm2.shape, 0 < d) (hpos1 : ∀ d ∈ vm1.shape, 0 < d)
    (hm : merge_views vm2 vm1 = some c) (x : Int)
    (hx0 : 0 ≤ x) (hx1 : x < prodL vm1.shape)
    (hp0 : 0 ≤ semAddr vm1 x) (hp1 : semAddr vm1 x < prodL vm2.shape) :
    dEquivAt (vm1 :: vm2 :: rest) (c :: rest) x := by
  obtain ⟨ρ, hρ, hflat⟩ := exists_decode vm1.shape 0 x hpos1 hx0 hx1
  subst hflat
  have hsem : semAddr vm1 (flatFrom ρ 0 vm1.shape)
      = vm1.offset + dotFrom ρ 0 vm1.shape vm1.strides := by
    unfold semAddr
    rw [addrSem_flatFrom vm1.shape vm1.strides 0 hρ]
  have hshc : c.shape = vm1.shape := merge_views_shape hm
  have hsemc : semAddr c (flatFrom ρ 0 vm1.shape)
      = c.offset + dotFrom ρ 0 vm1.shape c.strides := by
    unfold semAddr
    rw [hshc, addrSem_flatFrom vm1.shape c.strides 0 hρ]
  obtain ⟨hF1, hF2⟩ := merge_facts vm2 vm1 c hwf2 hwf1 hpos2 hm ρ hρ
    (by rw [← hsem]; exact hp0) (by rw [← hsem]; exact hp1)
  constructor
  · show (semMask vm1 (flatFrom ρ 0 vm1.shape)
        && (denote (vm2 :: rest) (semAddr vm1 (flatFrom ρ 0 vm1.shape))).2)
      = (semMask c (flatFrom ρ 0 vm1.shape)
        && (denote rest (semAddr c (flatFrom ρ 0 vm1.shape))).2)
    rw [show (denote (vm2 :: rest) (semAddr vm1 (flatFrom ρ 0 vm1.shape))).2
        = (semMask vm2 (semAddr vm1 (flatFrom ρ 0 vm1.shape))
          && (denote rest (semAddr vm2 (semAddr vm1 (flatFrom ρ 0 vm1.shape)))).2)
      from rfl]
    by_cases hm1 : semMask vm1 (flatFrom ρ 0 vm1.shape) = true
    · by_cases hm2 : semMask vm2 (semAddr vm1 (flatFrom ρ 0 vm1.shape)) = true
      · have hm2' : semMask vm2 (vm1.offset + dotFrom ρ 0 vm1.shape vm1.strides)
            = true := by
          rw [← hsem]
          exact hm2
        have hcm : semMask c (flatFrom ρ 0 vm1.shape) = true := hF1.mp ⟨hm1, hm2'⟩
        have haeq : semAddr vm2 (semAddr vm1 (flatFrom ρ 0 vm1.shape))
            = semAddr c (flatFrom ρ 0 vm1.shape) := by
          rw [hsem, hsemc]
          exact hF2 hcm
        rw [hm1, hm2, hcm, haeq]
        simp
      · have hm2f : semMask vm2 (semAddr vm1 (flatFrom ρ 0 vm1.shape)) = false :=
          Bool.eq_false_iff.mpr hm2
        have hcm : semMask c (flatFrom ρ 0 vm1.shape) = false := by
          rw [Bool.eq_false_iff]
          intro hc
          have h2 := (hF1.mpr hc).2
          exact hm2 (by rw [hsem]; exact h2)
        rw [hm2f, hcm]
        simp
    · have hm1f : semMask vm1 (flatFrom ρ 0 vm1.shape) = false :=
        Bool.eq_false_iff.mpr hm1
      have hcm : semMask c (flatFrom ρ 0 vm1.shape) = false := by
        rw [Bool.eq_false_iff]
        intro hc
        exact hm1 (hF1.mpr hc).1
      rw [hm1f, hcm]
      simp
  · intro hv
    have hv2 : (semMask vm1 (flatFrom ρ 0 vm1.shape)
        && (semMask vm2 (semAddr vm1 (flatFrom ρ 0 vm1.shape))
          && (denote rest (semAddr vm2 (semAddr vm1 (flatFrom ρ 0 vm1.shape)))).2))
        = true := hv
    have hm1 := ((Bool.and_eq_true _ _).mp hv2).1
    have hm2 := ((Bool.and_eq_true _ _).mp ((Bool.and_eq_true _ _).mp hv2).2).1
    have hm2' : semMask vm2 (vm1.offset + dotFrom ρ 0 vm1.shape vm1.strides)
        = true := by
      rw [← hsem]
      exact hm2
    have hcm : semMask c (flatFrom ρ 0 vm1.shape) = true := hF1.mp ⟨hm1, hm2'⟩
    have haeq : semAddr vm2 (semAddr vm1 (flatFrom ρ 0 vm1.shape))
        = semAddr c (flatFrom ρ 0 vm1.shape) := by
      rw [hsem, hsemc]
      exact hF2 hcm
    show (denote rest (semAddr vm2 (semAddr vm1 (flatFrom ρ 0 vm1.shape)))).1
        = (denote rest (semAddr c (flatFrom ρ 0 vm1.shape))).1
    rw [haeq]

/-- Decomposition of a stack of at least two views into its prefix and
the two views that `simplify` inspects. -/
theorem views_split (l : List View) (h : 2 ≤ l.length) :
    l = l.dropLast.dropLast
      ++ [l.getD (l.length - 2) default, l.getD (l.length - 1) default] := by
  have hne : l ≠ [] := by
    intro hc
    rw [hc] at h
    simp at h
  have hne' : l.dropLast ≠ [] := by
    intro hc
    have hlc := congrArg List.length hc
    rw [List.length_dropLast] at hlc
    simp at hlc
    omega
  have e1 : l.getD (l.length - 1) default = l.getLast hne := by
    rw [List.getD_eq_getElem _ _ (by omega), List.getLast_eq_getElem]
  have e2 : l.dropLast.getLast hne' = l.getD (l.length - 2) default := by
    rw [List.getD_eq_getElem _ _ (by omega), List.getLast_eq_getElem]
    rw [List.getElem_dropLast]
    congr 1
    rw [List.length_dropLast]
    omega
  calc l = l.dropLast ++ [l.getLast hne] := (List.dropLast_append_getLast hne).symm
    _ = (l.dropLast.dropLast ++ [l.dropLast.getLast hne']) ++ [l.getLast hne] := by
        rw [List.dropLast_append_getLast hne']
    _ = l.dropLast.dropLast
        ++ [l.getD (l.length - 2) default, l.getD (l.length - 1) default] := by
        rw [e2, e1]
        simp

/-- The address-range provisos of the merges that `simplify` performs,
collected along its recursion at one flat input address: each performed
merge's inner address must lie inside the outer view's index space (the
range proviso that makes the merge sound, forced by the C1
counterexample). -/
def SimpRangedAddr (x : Int) (st : ShapeTracker) : Prop :=
  if h : 2 ≤ st.views.length then
    match merge_views (st.views.getD (st.views.length - 2) default)
        (st.views.getD (st.views.length - 1) default) with
    | some nv =>
        (0 ≤ semAddr (st.views.getD (st.views.length - 1) default) x ∧
         semAddr (st.views.getD (st.views.length - 1) default) x
           < prodL (st.views.getD (st.views.length - 2) default).shape) ∧
        SimpRangedAddr x ⟨st.views.dropLast.dropLast ++ [nv]⟩
    | none => True
  else True
termination_by st.views.length
decreasing_by
  simp only [List.length_append, List.length_dropLast, List.length_cons, List.length_nil]
  omega

theorem SimpRangedAddr_two (x : Int) (st : ShapeTracker) (h : 2 ≤ st.views.length) :
    SimpRangedAddr x st
      = (match merge_views (st.views.getD (st.views.length - 2) default)
            (st.views.getD (st.views.length - 1) default) with
        | some nv =>
            (0 ≤ semAddr (st.views.getD (st.views.length - 1) default) x ∧
             semAddr (st.views.getD (st.views.length - 1) default) x
               < prodL (st.views.getD (st.views.length - 2) default).shape) ∧
            SimpRangedAddr x ⟨st.views.dropLast.dropLast ++ [nv]⟩
        | none => True) := by
  rw [SimpRangedAddr]
  rw [dif_pos h]

theorem SimpRangedAddr_small (x : Int) (st : ShapeTracker)
    (h : ¬ 2 ≤ st.views.length) : SimpRangedAddr x st = True := by
  rw [SimpRangedAddr]
  rw [dif_neg h]

/-- Structural invariants preserved by `simplify`: well-formed views,
positive dimensions and non-emptiness of the stack. -/
theorem simplify_props : ∀ (n : Nat) (st : ShapeTracker), st.views.length = n →
    (∀ u ∈ st.views, ViewWF u) → (∀ u ∈ st.views, ∀ d ∈ u.shape, 0 < d) →
    (∀ u ∈ st.simplify.views, ViewWF u) ∧
    (∀ u ∈ st.simplify.views, ∀ d ∈ u.shape, 0 < d) ∧
    (st.views ≠ [] → st.simplify.views ≠ []) := by
  intro n
  induction n using Nat.strong_induction_on with
  | _ n ih =>
    intro st hlen hwf hpos
    by_cases h2 : 2 ≤ st.views.length
    · have hma : st.views.getD (st.views.length - 2) default ∈ st.views := by
        rw [List.getD_eq_getElem _ _ (by omega)]
        exact List.getElem_mem _
      have hmb : st.views.getD (st.views.length - 1) default ∈ st.views := by
        rw [List.getD_eq_getElem _ _ (by omega)]
        exact List.getElem_mem _
      cases hmv : merge_views (st.views.getD (st.views.length - 2) default)
          (st.views.getD (st.views.length - 1) default) with
      | none =>
          have hsimst : st.simplify = st := by
            rw [simplify_two st h2, hmv]
          rw [hsimst]
          exact ⟨hwf, hpos, fun h => h⟩
      | some c =>
          have hsimst : st.simplify = ShapeTracker.simplify
              (ShapeTracker.mk (st.views.dropLast.dropLast ++ [c])) := by
            rw [simplify_two st h2, hmv]
          have hddsub : ∀ u ∈ st.views.dropLast.dropLast, u ∈ st.views :=
            fun u hu => (List.dropLast_sublist st.views).subset
              ((List.dropLast_sublist st.views.dropLast).subset hu)
          have hwfQ : ∀ u ∈ (ShapeTracker.mk
              (st.views.dropLast.dropLast ++ [c])).views, ViewWF u := by
            intro u hu
            rcases List.mem_append.mp hu with hu | hu
            · exact hwf u (hddsub u hu)
            · rw [List.mem_singleton] at hu
              subst hu
              exact merge_views_wf hmv (hwf _ hma) (hwf _ hmb)
          have hposQ : ∀ u ∈ (ShapeTracker.mk
              (st.views.dropLast.dropLast ++ [c])).views, ∀ d ∈ u.shape, 0 < d := by
            intro u hu
            rcases List.mem_append.mp hu with hu | hu
            · exact hpos u (hddsub u hu)
            · rw [List.mem_singleton] at hu
              subst hu
              intro d hd
              rw [merge_views_shape hmv] at hd
              exact hpos _ hmb d hd
          have hlt : (ShapeTracker.mk
              (st.views.dropLast.dropLast ++ [c])).views.length < n := by
            show (st.views.dropLast.dropLast ++ [c]).length < n
            rw [List.length_append]
            simp only [List.length_dropLast, List.length_singleton]
            omega
          have hthis := ih _ hlt
            (ShapeTracker.mk (st.views.dropLast.dropLast ++ [c])) rfl hwfQ hposQ
          rw [hsimst]
          refine ⟨hthis.1, hthis.2.1, fun _ => hthis.2.2 ?_⟩
          show st.views.dropLast.dropLast ++ [c] ≠ []
          simp
    · rw [simplify_small st h2]
      exact ⟨hwf, hpos, fun h => h⟩

/-- Denotational soundness of `simplify` under the collected range
provisos: at every in-range flat address satisfying `SimpRangedAddr`,
the simplified stack denotes exactly as the original stack. -/
theorem simplify_dequiv : ∀ (n : Nat) (st : ShapeTracker), st.views.length = n →
    (∀ u ∈ st.views, ViewWF u) → (∀ u ∈ st.views, ∀ d ∈ u.shape, 0 < d) →
    ∀ x : Int, 0 ≤ x → x < prodL st.shape → SimpRangedAddr x st →
    dEquivAt st.simplify.views.reverse st.views.reverse x := by
  intro n
  induction n using Nat.strong_induction_on with
  | _ n ih =>
    intro st hlen hwf hpos x hx0 hx1 hr
    by_cases h2 : 2 ≤ st.views.length
    · have hsplit := views_split st.views h2
      have hma : st.views.getD (st.views.length - 2) default ∈ st.views := by
        rw [List.getD_eq_getElem _ _ (by omega)]
        exact List.getElem_mem _
      have hmb : st.views.getD (st.views.length - 1) default ∈ st.views := by
        rw [List.getD_eq_getElem _ _ (by omega)]
        exact List.getElem_mem _
      have hshape : st.shape
          = (st.views.getD (st.views.length - 1) default).shape :=
        shape_eq_last st (by omega)
      cases hmv : merge_views (st.views.getD (st.views.length - 2) default)
          (st.views.getD (st.views.length - 1) default) with
      | none =>
          have hsimst : st.simplify = st := by
            rw [simplify_two st h2, hmv]
          rw [hsimst]
          exact dEquivAt_refl _ _
      | some c =>
          have hsimst : st.simplify = ShapeTracker.simplify
              (ShapeTracker.mk (st.views.dropLast.dropLast ++ [c])) := by
            rw [simplify_two st h2, hmv]
          have hr2 := hr
          rw [SimpRangedAddr_two x st h2, hmv] at hr2
          have hr3 : ((0 ≤ semAddr (st.views.getD (st.views.length - 1) default) x ∧
              semAddr (st.views.getD (st.views.length - 1) default) x
                < prodL (st.views.getD (st.views.length - 2) default).shape) ∧
              SimpRangedAddr x
                (ShapeTracker.mk (st.views.dropLast.dropLast ++ [c]))) := hr2
          obtain ⟨⟨hp0, hp1⟩, hrec⟩ := hr3
          have hddsub : ∀ u ∈ st.views.dropLast.dropLast, u ∈ st.views :=
            fun u hu => (List.dropLast_sublist st.views).subset
              ((List.dropLast_sublist st.views.dropLast).subset hu)
          have hwfQ : ∀ u ∈ (ShapeTracker.mk
              (st.views.dropLast.dropLast ++ [c])).views, ViewWF u := by
            intro u hu
            rcases List.mem_append.mp hu with hu | hu
            · exact hwf u (hddsub u hu)
            · rw [List.mem_singleton] at hu
              subst hu
              exact merge_views_wf hmv (hwf _ hma) (hwf _ hmb)
          have hposQ : ∀ u ∈ (ShapeTracker.mk
              (st.views.dropLast.dropLast ++ [c])).views, ∀ d ∈ u.shape, 0 < d := by
            intro u hu
            rcases List.mem_append.mp hu with hu | hu
            · exact hpos u (hddsub u hu)
            · rw [List.mem_singleton] at hu
              subst hu
              intro d hd
              rw [merge_views_shape hmv] at hd
              exact hpos _ hmb d hd
          have hlt : (ShapeTracker.mk
              (st.views.dropLast.dropLast ++ [c])).views.length < n := by
            show (st.views.dropLast.dropLast ++ [c]).length < n
            rw [List.length_append]
            simp only [List.length_dropLast, List.length_singleton]
            omega
          have hx1' : x < prodL (ShapeTracker.mk
              (st.views.dropLast.dropLast ++ [c])).shape := by
            rw [shape_concat, merge_views_shape hmv, ← hshape]
            exact hx1
          have ih1 := ih _ hlt
            (ShapeTracker.mk (st.views.dropLast.dropLast ++ [c])) rfl hwfQ hposQ
            x hx0 hx1' hrec
          have hstep := merge_step_dequiv
            (st.views.getD (st.views.length - 2) default)
            (st.views.getD (st.views.length - 1) default) c
            st.views.dropLast.dropLast.reverse
            (hwf _ hma) (hwf _ hmb) (hpos _ hma) (hpos _ hmb) hmv x hx0
            (by rw [← hshape]; exact hx1) hp0 hp1
          have hrev1 : st.views.reverse
              = st.views.getD (st.views.length - 1) default
                :: st.views.getD (st.views.length - 2) default
                :: st.views.dropLast.dropLast.reverse := by
            conv_lhs => rw [hsplit]
            simp
          have hrev2 : (ShapeTracker.mk
              (st.views.dropLast.dropLast ++ [c])).views.reverse
              = c :: st.views.dropLast.dropLast.reverse := by
            show (st.views.dropLast.dropLast ++ [c]).reverse = _
            simp
          rw [hsimst, hrev1]
          rw [hrev2] at ih1
          exact dEquivAt_trans ih1 (dEquivAt_symm hstep)
    · rw [simplify_small st h2]
      exact dEquivAt_refl _ _

/-- Shape of a tracker only depends on the nonempty suffix of its view
stack. -/
theorem shape_append_right (l1 l2 : List View) (h : l2 ≠ []) :
    (ShapeTracker.mk (l1 ++ l2)).shape = (ShapeTracker.mk l2).shape := by
  unfold ShapeTracker.shape
  rw [List.getLast?_append]
  cases hgl : l2.getLast? with
  | none =>
      rw [List.getLast?_eq_none_iff] at hgl
      exact absurd hgl h
  | some v => rfl

/-- The fold of `__add__` (line 57): append the other tracker's views
one at a time, re-running `simplify` after every single append. -/
def addFold (s : ShapeTracker) (bs : List View) : ShapeTracker :=
  bs.foldl (fun ret v => (ShapeTracker.mk (ret.views ++ [v])).simplify) s

theorem addFold_cons (s : ShapeTracker) (v : View) (bs : List View) :
    addFold s (v :: bs)
      = addFold ((ShapeTracker.mk (s.views ++ [v])).simplify) bs := rfl

/-- Structural invariants along the `__add__` fold: well-formed views,
positive dimensions, and (for a nonempty appended list) non-emptiness
and the final shape. -/
theorem addFold_props : ∀ (bs : List View) (s : ShapeTracker),
    (∀ u ∈ s.views, ViewWF u) → (∀ u ∈ s.views, ∀ d ∈ u.shape, 0 < d) →
    (∀ u ∈ bs, ViewWF u) → (∀ u ∈ bs, ∀ d ∈ u.shape, 0 < d) →
    (∀ u ∈ (addFold s bs).views, ViewWF u) ∧
    (∀ u ∈ (addFold s bs).views, ∀ d ∈ u.shape, 0 < d) ∧
    (bs ≠ [] → (addFold s bs).views ≠ [] ∧
      (addFold s bs).shape = (ShapeTracker.mk (s.views ++ bs)).shape)
  | [], s, hwfs, hposs, _, _ => ⟨hwfs, hposs, fun h => absurd rfl h⟩
  | v :: bs, s, hwfs, hposs, hwfbs, hposbs => by
      rw [addFold_cons]
      have hwfs1 : ∀ u ∈ (ShapeTracker.mk (s.views ++ [v])).views, ViewWF u := by
        intro u hu
        rcases List.mem_append.mp hu with hu | hu
        · exact hwfs u hu
        · rw [List.mem_singleton] at hu
          subst hu
          exact hwfbs u (List.mem_cons_self u bs)
      have hposs1 : ∀ u ∈ (ShapeTracker.mk (s.views ++ [v])).views,
          ∀ d ∈ u.shape, 0 < d := by
        intro u hu
        rcases List.mem_append.mp hu with hu | hu
        · exact hposs u hu
        · rw [List.mem_singleton] at hu
          subst hu
          exact hposbs u (List.mem_cons_self u bs)
      have hprops := simplify_props ((ShapeTracker.mk (s.views ++ [v])).views.length)
        (ShapeTracker.mk (s.views ++ [v])) rfl hwfs1 hposs1
      have ihp := addFold_props bs ((ShapeTracker.mk (s.views ++ [v])).simplify)
        hprops.1 hprops.2.1
        (fun u hu => hwfbs u (List.mem_cons_of_mem v hu))
        (fun u hu => hposbs u (List.mem_cons_of_mem v hu))
      refine ⟨ihp.1, ihp.2.1, fun _ => ?_⟩
      by_cases hbs : bs = []
      · subst hbs
        constructor
        · show ((ShapeTracker.mk (s.views ++ [v])).simplify).views ≠ []
          refine hprops.2.2 ?_
          show s.views ++ [v] ≠ []
          simp
        · show ((ShapeTracker.mk (s.views ++ [v])).simplify).shape
              = (ShapeTracker.mk (s.views ++ [v])).shape
          exact simplify_shape (ShapeTracker.mk (s.views ++ [v]))
      · obtain ⟨hne, hsh⟩ := ihp.2.2 hbs
        refine ⟨hne, ?_⟩
        rw [hsh,
          shape_append_right ((ShapeTracker.mk (s.views ++ [v])).simplify).views bs hbs,
          shape_append_right s.views (v :: bs) (List.cons_ne_nil v bs)]
        show (ShapeTracker.mk bs).shape = (ShapeTracker.mk ([v] ++ bs)).shape
        rw [shape_append_right [v] bs hbs]

/-- The accumulated address-range provisos of every merge performed by
the `__add__` fold, threaded down the appended views to a base
predicate on the address reaching the already-folded tracker. -/
def AddRanged : (Int → Prop) → ShapeTracker → List View → Int → Prop
  | P, _, [], x => P x
  | P, s, v :: bs, x =>
      AddRanged (fun y => (SimpRangedAddr y (ShapeTracker.mk (s.views ++ [v])) ∧
          0 ≤ y ∧ y < prodL v.shape) ∧ P (semAddr v y))
        ((ShapeTracker.mk (s.views ++ [v])).simplify) bs x

/-- Denotational soundness of the `__add__` fold: under the accumulated
range provisos, folding the views onto `s` denotes as stacking them onto
any tracker `r` that agrees with `s` wherever the base predicate holds. -/
theorem add_dequiv : ∀ (bs : List View) (s r : ShapeTracker) (P : Int → Prop),
    (∀ x, P x → dEquivAt s.views.reverse r.views.reverse x) →
    (∀ u ∈ s.views, ViewWF u) → (∀ u ∈ s.views, ∀ d ∈ u.shape, 0 < d) →
    (∀ u ∈ bs, ViewWF u) → (∀ u ∈ bs, ∀ d ∈ u.shape, 0 < d) →
    ∀ x, AddRanged P s bs x →
      dEquivAt (addFold s bs).views.reverse (r.views ++ bs).reverse x
  | [], s, r, P, hbase, _, _, _, _, x, hx => by
      rw [List.append_nil]
      exact hbase x hx
  | v :: bs, s, r, P, hbase, hwfs, hposs, hwfbs, hposbs, x, hx => by
      rw [addFold_cons]
      have hwfs1 : ∀ u ∈ (ShapeTracker.mk (s.views ++ [v])).views, ViewWF u := by
        intro u hu
        rcases List.mem_append.mp hu with hu | hu
        · exact hwfs u hu
        · rw [List.mem_singleton] at hu
          subst hu
          exact hwfbs u (List.mem_cons_self u bs)
      have hposs1 : ∀ u ∈ (ShapeTracker.mk (s.views ++ [v])).views,
          ∀ d ∈ u.shape, 0 < d := by
        intro u hu
        rcases List.mem_append.mp hu with hu | hu
        · exact hposs u hu
        · rw [List.mem_singleton] at hu
          subst hu
          exact hposbs u (List.mem_cons_self u bs)
      have hprops := simplify_props ((ShapeTracker.mk (s.views ++ [v])).views.length)
        (ShapeTracker.mk (s.views ++ [v])) rfl hwfs1 hposs1
      have hbase' : ∀ y, ((SimpRangedAddr y (ShapeTracker.mk (s.views ++ [v])) ∧
            0 ≤ y ∧ y < prodL v.shape) ∧ P (semAddr v y)) →
          dEquivAt (ShapeTracker.mk (s.views ++ [v])).simplify.views.reverse
            (ShapeTracker.mk (r.views ++ [v])).views.reverse y := by
        rintro y ⟨⟨hsr, hy0, hy1⟩, hP⟩
        have h1 := simplify_dequiv ((ShapeTracker.mk (s.views ++ [v])).views.length)
          (ShapeTracker.mk (s.views ++ [v])) rfl hwfs1 hposs1 y hy0
          (by rw [shape_concat]; exact hy1) hsr
        have h2 : dEquivAt (ShapeTracker.mk (s.views ++ [v])).views.reverse
            (ShapeTracker.mk (r.views ++ [v])).views.reverse y := by
          show dEquivAt (s.views ++ [v]).reverse (r.views ++ [v]).reverse y
          rw [show (s.views ++ [v]).reverse = v :: s.views.reverse from by simp,
            show (r.views ++ [v]).reverse = v :: r.views.reverse from by simp]
          exact dEquivAt_cons v (hbase _ hP)
        exact dEquivAt_trans h1 h2
      have hrec := add_dequiv bs ((ShapeTracker.mk (s.views ++ [v])).simplify)
        (ShapeTracker.mk (r.views ++ [v])) _ hbase' hprops.1 hprops.2.1
        (fun u hu => hwfbs u (List.mem_cons_of_mem v hu))
        (fun u hu => hposbs u (List.mem_cons_of_mem v hu)) x hx
      have heq : (ShapeTracker.mk (r.views ++ [v])).views ++ bs = r.views ++ v :: bs := by
        show (r.views ++ [v]) ++ bs = r.views ++ v :: bs
        rw [List.append_assoc]
        rfl
      rw [← heq]
      exact hrec

/-- Semantic reading of `expr_idxs` of an arbitrary nonempty tracker at
the flat row-major value of an in-range valuation, in terms of the
storage-ordered denotation of the whole stack. -/
theorem exprIdxsD_denote_flat (st : ShapeTracker) (hne : st.views ≠ [])
    (hwf : ∀ u ∈ st.views, ViewWF u) :
    ∃ idx valid, st.exprIdxsD = some (idx, valid) ∧
      ∀ ρ, RhoBounds ρ 0 st.shape →
        ((evalN ρ valid ≠ 0) ↔
          (denote st.views.reverse (flatFrom ρ 0 st.shape)).2 = true) ∧
        ((evalN ρ valid ≠ 0) →
          evalN ρ idx = (denote st.views.reverse (flatFrom ρ 0 st.shape)).1) := by
  have hsplit : st.views = st.views.dropLast ++ [st.views.getLast hne] :=
    (List.dropLast_append_getLast hne).symm
  have hshape : st.shape = (st.views.getLast hne).shape := by
    unfold ShapeTracker.shape
    rw [List.getLast?_eq_getLast st.views hne]
    rfl
  obtain ⟨idx, valid, hsome⟩ := exprIdxsD_isSome st.views.dropLast (st.views.getLast hne)
  have hst : ShapeTracker.mk (st.views.dropLast ++ [st.views.getLast hne]) = st := by
    rw [← hsplit]
  have hsome' : st.exprIdxsD = some (idx, valid) := by
    rw [← hst]
    exact hsome
  refine ⟨idx, valid, hsome', ?_⟩
  intro ρ hρ
  have hρ' : RhoBounds ρ 0 (st.views.getLast hne).shape := by
    rw [← hshape]
    exact hρ
  obtain ⟨idx0, valid0, h0, _, _, _, _, hiff, haddr⟩ :=
    exprIdxsD_denote ρ st.views.dropLast (st.views.getLast hne)
      (by
        intro u hu
        rw [← hsplit] at hu
        exact hwf u hu) hρ'
  have hp := Option.some.inj (hsome.symm.trans h0)
  have he1 : idx = idx0 := congrArg Prod.fst hp
  have he2 : valid = valid0 := congrArg Prod.snd hp
  subst he1
  subst he2
  have hrev : st.views.reverse
      = st.views.getLast hne :: st.views.dropLast.reverse := by
    conv_lhs => rw [hsplit]
    simp
  have hflat : flatFrom ρ 0 st.shape
      = flatFrom ρ 0 (st.views.getLast hne).shape := by
    rw [hshape]
  have hsa : semAddr (st.views.getLast hne)
        (flatFrom ρ 0 (st.views.getLast hne).shape)
      = (st.views.getLast hne).offset
        + dotFrom ρ 0 (st.views.getLast hne).shape (st.views.getLast hne).strides := by
    unfold semAddr
    rw [addrSem_flatFrom _ _ 0 hρ']
  constructor
  · rw [hiff, hrev, hflat]
    show (semMask (st.views.getLast hne)
          (flatFrom ρ 0 (st.views.getLast hne).shape) = true ∧
        (denote st.views.dropLast.reverse
          ((st.views.getLast hne).offset + dotFrom ρ 0 (st.views.getLast hne).shape
            (st.views.getLast hne).strides)).2 = true) ↔
      ((semMask (st.views.getLast hne)
          (flatFrom ρ 0 (st.views.getLast hne).shape) &&
        (denote st.views.dropLast.reverse
          (semAddr (st.views.getLast hne)
            (flatFrom ρ 0 (st.views.getLast hne).shape))).2) = true)
    rw [hsa, Bool.and_eq_true]
  · intro hv
    rw [haddr hv, hrev, hflat]
    show (denote st.views.dropLast.reverse
        ((st.views.getLast hne).offset + dotFrom ρ 0 (st.views.getLast hne).shape
          (st.views.getLast hne).strides)).1
      = (denote st.views.dropLast.reverse
        (semAddr (st.views.getLast hne)
          (flatFrom ρ 0 (st.views.getLast hne).shape))).1
    rw [hsa]

/-- Claim C3 (amended): composition equivalence for every pair of
trackers with the merge range provisos.  `compose(t1, t2)` (`__add__`,
lines 55-58: append `t2`'s views one at a time, re-running `simplify`
after every single append) yields the same offset/validity expressions
as nesting `t2`'s transform inside `t1`'s (stacking the two view lists),
at every in-range index valuation whose intermediate flat addresses
satisfy the address-range proviso of each merge the interleaved
`simplify` passes perform (`AddRanged`, the chained form of the proviso
the counterexample forces on a single merge): identical validity, and
identical offsets wherever valid. -/
theorem claim_C3 (t1 t2 : ShapeTracker)
    (h2ne : t2.views ≠ [])
    (hwf1 : ∀ u ∈ t1.views, ViewWF u) (hwf2 : ∀ u ∈ t2.views, ViewWF u)
    (hpos1 : ∀ u ∈ t1.views, ∀ d ∈ u.shape, 0 < d)
    (hpos2 : ∀ u ∈ t2.views, ∀ d ∈ u.shape, 0 < d) :
    ∃ idxC validC idxN validN,
      (t1.add t2).exprIdxsD = some (idxC, validC) ∧
      (ShapeTracker.mk (t1.views ++ t2.views)).exprIdxsD = some (idxN, validN) ∧
      ∀ ρ, RhoBounds ρ 0 t2.shape →
        AddRanged (fun _ => True) t1 t2.views (flatFrom ρ 0 t2.shape) →
        ((evalN ρ validC ≠ 0 ↔ evalN ρ validN ≠ 0) ∧
         (evalN ρ validN ≠ 0 → evalN ρ idxC = evalN ρ idxN)) := by
  have hadd : t1.add t2 = addFold t1 t2.views := rfl
  obtain ⟨hwfC, hposC, hneshC⟩ := addFold_props t2.views t1 hwf1 hpos1 hwf2 hpos2
  obtain ⟨hneC, hshC⟩ := hneshC h2ne
  have hwfN : ∀ u ∈ (ShapeTracker.mk (t1.views ++ t2.views)).views, ViewWF u := by
    intro u hu
    rcases List.mem_append.mp hu with hu | hu
    · exact hwf1 u hu
    · exact hwf2 u hu
  have hneN : (ShapeTracker.mk (t1.views ++ t2.views)).views ≠ [] := by
    show t1.views ++ t2.views ≠ []
    intro hc
    rw [List.append_eq_nil] at hc
    exact h2ne hc.2
  have hshapeN : (ShapeTracker.mk (t1.views ++ t2.views)).shape = t2.shape := by
    rw [shape_append_right t1.views t2.views h2ne]
  obtain ⟨idxC, validC, hsC, hbrC⟩ :=
    exprIdxsD_denote_flat (addFold t1 t2.views) hneC hwfC
  obtain ⟨idxN, validN, hsN, hbrN⟩ :=
    exprIdxsD_denote_flat (ShapeTracker.mk (t1.views ++ t2.views)) hneN hwfN
  refine ⟨idxC, validC, idxN, validN, ?_, hsN, ?_⟩
  · rw [hadd]
    exact hsC
  · intro ρ hρ hr
    have hshapeC : (addFold t1 t2.views).shape = t2.shape := by
      rw [hshC, hshapeN]
    obtain ⟨hiffC, haddrC⟩ := hbrC ρ (by rw [hshapeC]; exact hρ)
    obtain ⟨hiffN, haddrN⟩ := hbrN ρ (by rw [hshapeN]; exact hρ)
    rw [hshapeC] at hiffC haddrC
    rw [hshapeN] at hiffN haddrN
    have hviewsN : (ShapeTracker.mk (t1.views ++ t2.views)).views.reverse
        = (t1.views ++ t2.views).reverse := rfl
    rw [hviewsN] at hiffN haddrN
    obtain ⟨hd2, hd1⟩ := add_dequiv t2.views t1 t1 (fun _ => True)
      (fun y _ => dEquivAt_refl t1.views.reverse y) hwf1 hpos1 hwf2 hpos2
      (flatFrom ρ 0 t2.shape) hr
    constructor
    · rw [hiffC, hiffN, hd2]
    · intro hvN
      have hvC : evalN ρ validC ≠ 0 := by
        rw [hiffC, hd2]
        exact hiffN.mp hvN
      rw [haddrC hvC, haddrN hvN]
      exact hd1 (hiffC.mp hvC)

theorem claim_C3_witness :
    (∃ idxC validC idxN validN,
      ((ShapeTracker.mk [View.create [6]]).add
          (ShapeTracker.mk [⟨[2], [1], 1, none⟩])).exprIdxsD
        = some (idxC, validC) ∧
      (ShapeTracker.mk ((ShapeTracker.mk [View.create [6]]).views
          ++ (ShapeTracker.mk [(⟨[2], [1], 1, none⟩ : View)]).views)).exprIdxsD
        = some (idxN, validN) ∧
      ∀ ρ, RhoBounds ρ 0 (ShapeTracker.mk [(⟨[2], [1], 1, none⟩ : View)]).shape →
        AddRanged (fun _ => True) (ShapeTracker.mk [View.create [6]])
          (ShapeTracker.mk [(⟨[2], [1], 1, none⟩ : View)]).views
          (flatFrom ρ 0 (ShapeTracker.mk [(⟨[2], [1], 1, none⟩ : View)]).shape) →
        ((evalN ρ validC ≠ 0 ↔ evalN ρ validN ≠ 0) ∧
         (evalN ρ validN ≠ 0 → evalN ρ idxC = evalN ρ idxN))) ∧
    AddRanged (fun _ => True) (ShapeTracker.mk [View.create [6]])
      (ShapeTracker.mk [(⟨[2], [1], 1, none⟩ : View)]).views 0 := by
  constructor
  · exact claim_C3 (ShapeTracker.mk [View.create [6]])
      (ShapeTracker.mk [⟨[2], [1], 1, none⟩])
      (fun h => List.noConfusion h)
      (by
        intro u hu
        rcases List.mem_singleton.mp hu with hu
        subst hu
        exact ⟨by decide, fun m h => Option.noConfusion h⟩)
      (by
        intro u hu
        rcases List.mem_singleton.mp hu with hu
        subst hu
        exact ⟨by decide, fun m h => Option.noConfusion h⟩)
      (by
        intro u hu
        rcases List.mem_singleton.mp hu with hu
        subst hu
        decide)
      (by
        intro u hu
        rcases List.mem_singleton.mp hu with hu
        subst hu
        decide)
  · have hsra : SimpRangedAddr 0 (ShapeTracker.mk
        [View.create [6], (⟨[2], [1], 1, none⟩ : View)]) := by
      rw [SimpRangedAddr_two 0 _ (by decide),
        show (ShapeTracker.mk [View.create [6],
            (⟨[2], [1], 1, none⟩ : View)]).views.getD
          ((ShapeTracker.mk [View.create [6],
            (⟨[2], [1], 1, none⟩ : View)]).views.length - 2) default
          = View.create [6] from rfl,
        show (ShapeTracker.mk [View.create [6],
            (⟨[2], [1], 1, none⟩ : View)]).views.getD
          ((ShapeTracker.mk [View.create [6],
            (⟨[2], [1], 1, none⟩ : View)]).views.length - 1) default
          = (⟨[2], [1], 1, none⟩ : View) from rfl,
        show merge_views (View.create [6]) (⟨[2], [1], 1, none⟩ : View)
          = some (⟨[2], [1], 1, none⟩ : View) from by decide]
      refine ⟨⟨by decide, by decide⟩, ?_⟩
      rw [SimpRangedAddr_small 0 _ (by decide)]
      trivial
    show (SimpRangedAddr 0 (ShapeTracker.mk
        ((ShapeTracker.mk [View.create [6]]).views
          ++ [(⟨[2], [1], 1, none⟩ : View)])) ∧
      (0 : Int) ≤ 0 ∧ (0 : Int) < prodL (⟨[2], [1], 1, none⟩ : View).shape) ∧ True
    exact ⟨⟨hsra, by decide, by decide⟩, trivial⟩
